import Mathlib

/-!
# Gossamer: trie-proof verification, the trie cache and host functions

A shallow embedding of

* `internal/trie/proof/verify.go` (`Verify`, `buildTrie`, `loadProof`),
* `lib/runtime/wasmer/imports.go` (the proof-verification host function, the
  signature verification, key generation and signing host functions, the trie-root
  host functions, the offchain local-storage, submit-transaction and network-state
  host functions, the storage writes `ext_storage_set_version_1`,
  `ext_storage_clear_version_1`, `ext_storage_clear_prefix_version_1` and
  `ext_storage_clear_prefix_version_2`, the child-storage kills of versions 1 and 3,
  and the two read host functions),
* `dot/state/tries.go` (`Tries`, `NewTries`, `softSet`, `delete`, `get`, `len`, and
  two calls of `softSet` interleaved statement by statement),
* `lib/common/network.go` (`NetworkState`),

followed by the properties proved about them.  Collaborators that the host functions
reach through interfaces (allocator, keystore, signature batcher, storage, key-value
stores, signature algorithms, SCALE decoding) are parameters: a structure of their
methods over a state type, the state being passed in and returned.

Conventions.  A Go byte slice is a list of naturals (each below 256).  A Go
`error` is a value of `Error`; a function returning `error` returns
`Except Error Unit`.  A Go call that may fail to return (a runtime panic, or
unbounded recursion) returns an `Option` whose `none` stands for "no result".
-/

namespace Gossamer

/-! ## Byte strings and errors -/

/-- Go `[]byte`. -/
abbrev Bytes := List Nat

/-- Go error values: `new` is a package-level `errors.New` value of the proof package,
`foreign` is an error produced by another package (node codec, SCALE codec),
`errorf` is `fmt.Errorf` with a single `%w` verb; the format string is kept, the
formatted arguments other than the wrapped error are not. -/
inductive Error where
  | new (text : String)
  | foreign (text : String)
  | errorf (format : String) (wrapped : Error)
deriving DecidableEq, Repr

/-- Go `errors.Is`: the error itself or one of the errors it wraps is the target. -/
def Error.Is : Error → Error → Bool
  | .errorf format wrapped, target =>
    decide (Error.errorf format wrapped = target) || wrapped.Is target
  | .new text, target => decide (Error.new text = target)
  | .foreign text, target => decide (Error.foreign text = target)

deriving instance DecidableEq for Except

/-- verify.go line 18. -/
def ErrKeyNotFoundInProofTrie : Error := .new "key not found in proof trie"

/-- verify.go line 19. -/
def ErrValueMismatchProofTrie : Error := .new "value found in proof trie does not match"

/-- verify.go line 46. -/
def ErrEmptyProof : Error := .new "proof slice empty"

/-- verify.go line 47. -/
def ErrRootNodeNotFound : Error := .new "root node not found in proof"

/-! ## Trie nodes -/

/-- Modelled from the spec: the `node` package (`internal/trie/node`) is not among the
sources.  The fields are the ones `verify.go` reads and writes (`Children`, `Dirty`,
`HashDigest`, `Encoding`) together with the partial key and the value a lookup needs.
`Children` is `none` for a Go nil slice; a child is `none` for a Go nil pointer. -/
inductive Node where
  | mk (Key : Bytes) (Value : Option Bytes) (Children : Option (List (Option Node)))
      (Dirty : Bool) (HashDigest : Bytes) (Encoding : Bytes)

/-- The two node kinds. -/
inductive NodeType where
  | Leaf
  | Branch
deriving DecidableEq, Repr

namespace Node

/-- Field `Key`. -/
def Key : Node → Bytes
  | mk k _ _ _ _ _ => k

/-- Field `Value`. -/
def Value : Node → Option Bytes
  | mk _ v _ _ _ _ => v

/-- Field `Children`. -/
def Children : Node → Option (List (Option Node))
  | mk _ _ c _ _ _ => c

/-- Field `Dirty`. -/
def Dirty : Node → Bool
  | mk _ _ _ d _ _ => d

/-- Field `HashDigest`. -/
def HashDigest : Node → Bytes
  | mk _ _ _ _ h _ => h

/-- Field `Encoding`. -/
def Encoding : Node → Bytes
  | mk _ _ _ _ _ e => e

/-- Modelled from the spec: `(*Node).Type` (`Type` is reserved in Lean), a node is a
branch exactly when it has a children slice. -/
def TypeOf : Node → NodeType
  | mk _ _ (some _) _ _ _ => .Branch
  | mk _ _ none _ _ _ => .Leaf

/-- Modelled from the spec: `(*Node).SetDirty` sets the dirty flag (verify.go only
calls it with `false`). -/
def SetDirty : Node → Bool → Node
  | mk k v c _ h e, dirty => mk k v c dirty h e

/-- Assignment `n.Encoding = encoding`. -/
def setEncoding : Node → Bytes → Node
  | mk k v c d h _, encoding => mk k v c d h encoding

/-- Assignment `n.HashDigest = digest`. -/
def setHashDigest : Node → Bytes → Node
  | mk k v c d _ e, digest => mk k v c d digest e

/-- The node after all the assignments `n.Children[i] = ...` of one loop over the children. -/
def setChildren : Node → List (Option Node) → Node
  | mk k v _ d h e, children => mk k v (some children) d h e

end Node

/-- Modelled from the spec: `trie.Trie` (package `lib/trie`, not among the sources), reduced
to its root pointer. -/
structure Trie where
  root : Option Node

/-- Modelled from the spec: `trie.NewTrie(root)`. -/
def NewTrie (root : Node) : Trie := ⟨some root⟩

/-- The functions of other packages that `verify.go` calls: `node.Decode`,
`node.MerkleValue` and `(*trie.Trie).Get`.  The specification treats the node codec as
opaque, so they are parameters of the embedding.  `Get` returns `none` for a Go nil
slice. -/
structure Externals where
  Decode : Bytes → Except String Node
  MerkleValue : Bytes → Bool → Except String Bytes
  Get : Trie → Bytes → Option Bytes

/-! ## Hex keys and the proof index -/

/-- One hexadecimal digit. -/
def hexDigit (n : Nat) : Char :=
  if n < 10 then Char.ofNat (48 + n) else Char.ofNat (87 + n)

/-- Modelled from the spec: `common.BytesToHex` (its file is not among the sources),
the lower-case hexadecimal digits of the bytes after the characters `0x`. -/
def BytesToHex (b : Bytes) : String :=
  String.mk ('0' :: 'x' :: b.flatMap fun x => [hexDigit (x / 16 % 16), hexDigit (x % 16)])

/-- Go `map[string]*node.Node`, as far as `buildTrie` and `loadProof` use it: lookup
and store. -/
abbrev ProofMap := String → Option Node

/-- The Go map `make(map[string]*node.Node, n)`. -/
def ProofMap.empty : ProofMap := fun _ => none

/-- Assignment `m[key] = n`. -/
def ProofMap.set (m : ProofMap) (key : String) (n : Node) : ProofMap :=
  fun k => if k = key then some n else m k

/-! ## verify.go -/

/-- State of the loop of `buildTrie` (verify.go lines 57 to 108): the map
`proofHashToNode` and the variable `root`. -/
structure LoopState where
  proofHashToNode : ProofMap
  root : Option Node

/-- One iteration of the loop of `buildTrie` (verify.go lines 60 to 108).  When the
node is taken as root, `decodedNode.HashDigest = rootHash` writes through the pointer
that was just stored in the map, so the map entry is written as well. -/
def buildTrieStep (ext : Externals) (rootHash : Bytes) (st : LoopState)
    (encodedProofNode : Bytes) : Except Error LoopState :=
  match ext.Decode encodedProofNode with
  | .error err =>
    .error (.errorf "cannot decode node at index %d: %w (node encoded is 0x%x)" (.foreign err))
  | .ok decoded =>
    let decodedNode := (decoded.SetDirty false).setEncoding encodedProofNode
    match ext.MerkleValue encodedProofNode false with
    | .error err =>
      .error (.errorf "cannot calculate Merkle value of node at index %d: %w" (.foreign err))
    | .ok hashDigest =>
      let decodedNode := decodedNode.setHashDigest hashDigest
      let proofHash := BytesToHex decodedNode.HashDigest
      let proofHashToNode := st.proofHashToNode.set proofHash decodedNode
      match st.root with
      | some root => .ok ⟨proofHashToNode, some root⟩
      | none =>
        let possibleRootMerkleValue : Except String Bytes :=
          if decodedNode.HashDigest.length ≤ 32 then ext.MerkleValue encodedProofNode true
          else .ok decodedNode.HashDigest
        match possibleRootMerkleValue with
        | .error err => .error (.errorf "merkle value of possible root node: %w" (.foreign err))
        | .ok possibleRootMerkleValue =>
          if rootHash = possibleRootMerkleValue then
            let decodedNode := decodedNode.setHashDigest rootHash
            .ok ⟨proofHashToNode.set proofHash decodedNode, some decodedNode⟩
          else
            .ok ⟨proofHashToNode, none⟩

/-- The loop of `buildTrie` over the encoded proof nodes, left to right. -/
def buildTrieLoop (ext : Externals) (rootHash : Bytes) :
    LoopState → List Bytes → Except Error LoopState
  | st, [] => .ok st
  | st, encodedProofNode :: rest =>
    match buildTrieStep ext rootHash st encodedProofNode with
    | .error err => .error err
    | .ok st1 => buildTrieLoop ext rootHash st1 rest

/-- The loop over the children of a branch in `loadProof` (verify.go lines 132 to 145),
given the recursive call.  A nil child and a child whose hash is not in the map are
kept; a child whose hash is in the map is replaced by the mapped node, loaded. -/
def loadChildren (proofHashToNode : ProofMap) (recurse : Node → Option Node) :
    List (Option Node) → Option (List (Option Node))
  | [] => some []
  | none :: rest => (loadChildren proofHashToNode recurse rest).map fun cs => none :: cs
  | some child :: rest =>
    match proofHashToNode (BytesToHex child.HashDigest) with
    | none => (loadChildren proofHashToNode recurse rest).map fun cs => some child :: cs
    | some node =>
      match recurse node with
      | none => none
      | some loaded =>
        (loadChildren proofHashToNode recurse rest).map fun cs => some loaded :: cs

/-- Function `loadProof` (verify.go lines 126 to 146).  The Go function updates the
nodes in place, the nodes held by the map included; the embedding is by value and
returns the node reached through `n` afterwards, which is the same trie as long as no
node is reached again from itself.  `fuel` bounds the depth of the recursion: the
result is `none` when a chain of child hashes through the map is longer than `fuel`. -/
def loadProof : Nat → ProofMap → Node → Option Node
  | 0, _, _ => none
  | fuel + 1, proofHashToNode, n =>
    if n.TypeOf ≠ .Branch then some n
    else
      let branch := n
      (loadChildren proofHashToNode (loadProof fuel proofHashToNode)
        (branch.Children.getD [])).map fun cs => branch.setChildren cs

/-- Function `buildTrie` (verify.go lines 51 to 122). -/
def buildTrie (ext : Externals) (fuel : Nat) (encodedProofNodes : List Bytes)
    (rootHash : Bytes) : Option (Except Error Trie) :=
  if encodedProofNodes.length = 0 then
    some (.error (.errorf "%w: for Merkle root hash %s" ErrEmptyProof))
  else
    match buildTrieLoop ext rootHash ⟨ProofMap.empty, none⟩ encodedProofNodes with
    | .error err => some (.error err)
    | .ok ⟨_, none⟩ =>
      some (.error (.errorf "%w: for Merkle root hash 0x%x in proof Merkle value(s) %s"
        ErrRootNodeNotFound))
    | .ok ⟨proofHashToNode, some root⟩ =>
      (loadProof fuel proofHashToNode root).map fun loaded => .ok (NewTrie loaded)

/-- Function `Verify` (verify.go lines 24 to 43). -/
def Verify (ext : Externals) (fuel : Nat) (encodedProofNodes : List Bytes)
    (rootHash key value : Bytes) : Option (Except Error Unit) :=
  match buildTrie ext fuel encodedProofNodes rootHash with
  | none => none
  | some (.error err) =>
    some (.error (.errorf "cannot build trie from proof encoded nodes: %w" err))
  | some (.ok proofTrie) =>
    match ext.Get proofTrie key with
    | none =>
      some (.error (.errorf "%w: %s in proof trie for root hash 0x%x" ErrKeyNotFoundInProofTrie))
    | some proofTrieValue =>
      if value.length > 0 ∧ ¬ value = proofTrieValue then
        some (.error (.errorf "%w: expected value %s but got value %s from proof trie"
          ErrValueMismatchProofTrie))
      else
        some (.ok ())

/-! ## Notions used to state the properties of verify.go -/

/-- The value `buildTrie` compares with the root hash for an encoded node (verify.go
lines 77 and 90 to 102): the non-root Merkle value when it is longer than 32 bytes,
otherwise the root Merkle value. -/
def rootMerkleValue (ext : Externals) (encodedProofNode : Bytes) : Except String Bytes :=
  match ext.MerkleValue encodedProofNode false with
  | .error err => .error err
  | .ok hashDigest =>
    if hashDigest.length ≤ 32 then ext.MerkleValue encodedProofNode true else .ok hashDigest

/-- The encoded node matches the supplied root hash (verify.go line 104). -/
def rootMatches (ext : Externals) (rootHash encodedProofNode : Bytes) : Bool :=
  match rootMerkleValue ext encodedProofNode with
  | .error _ => false
  | .ok possibleRootMerkleValue => decide (rootHash = possibleRootMerkleValue)

/-- The Merkle values `buildTrie` may ask for (non-root, and root when the non-root one
is at most 32 bytes long) can be computed for the encoded node. -/
def merkleOk (ext : Externals) (encodedProofNode : Bytes) : Bool :=
  match rootMerkleValue ext encodedProofNode with
  | .error _ => false
  | .ok _ => true

/-- The encoded node decodes and its non-root Merkle value can be computed. -/
def nodeOk (ext : Externals) (encodedProofNode : Bytes) : Bool :=
  match ext.Decode encodedProofNode, ext.MerkleValue encodedProofNode false with
  | .ok _, .ok _ => true
  | _, _ => false

/-- The key under which `buildTrie` indexes an encoded node (verify.go line 82). -/
def proofHashOf (ext : Externals) (encodedProofNode : Bytes) : Option String :=
  match ext.MerkleValue encodedProofNode false with
  | .error _ => none
  | .ok hashDigest => some (BytesToHex hashDigest)

/-- The node `buildTrie` stores for an encoded node that is not taken as root
(verify.go lines 61 to 83). -/
def indexedNode (ext : Externals) (encodedProofNode : Bytes) : Option Node :=
  match ext.Decode encodedProofNode, ext.MerkleValue encodedProofNode false with
  | .ok decoded, .ok hashDigest =>
    some (((decoded.SetDirty false).setEncoding encodedProofNode).setHashDigest hashDigest)
  | _, _ => none

/-- The keys `loadProof` looks up in the map when started at a node: the hashes of
the children of the node, and of the children of every mapped node found that way. -/
inductive Reachable (proofHashToNode : ProofMap) : Node → String → Prop where
  | child {n : Node} {children : List (Option Node)} {c : Node} :
      n.Children = some children → some c ∈ children →
      Reachable proofHashToNode n (BytesToHex c.HashDigest)
  | step {n : Node} {children : List (Option Node)} {c node : Node} {key : String} :
      n.Children = some children → some c ∈ children →
      proofHashToNode (BytesToHex c.HashDigest) = some node →
      Reachable proofHashToNode node key → Reachable proofHashToNode n key

/-! ## A small node codec, to run the embedding on concrete proofs -/

/-- Lookup in a decoded sample trie: a leaf holds the remaining key, a branch consumes
one key element as child index. -/
def sampleRetrieve : Bytes → Node → Option Bytes
  | [], n => if n.Key = [] then n.Value else none
  | i :: rest, .mk k v none _ _ _ => if k = i :: rest then v else none
  | i :: rest, .mk _ _ (some children) _ _ _ =>
    match children.get? i with
    | some (some child) => sampleRetrieve rest child
    | _ => none

/-- A sample codec.  `0 :: v` encodes a leaf with empty key and value `v`;
`1 :: h` encodes a branch without value whose only child, at index 1, has Merkle
value `h`.  The non-root Merkle value of an encoding is the encoding itself and the
root Merkle value is the encoding after the byte 255, so no two encodings collide. -/
def sampleExt : Externals where
  Decode := fun encoding =>
    match encoding with
    | 0 :: v => .ok (.mk [] (some v) none true [] [])
    | 1 :: h => .ok (.mk [] none (some [none, some (.mk [] none none false h [])]) true [] [])
    | _ => .error "unknown node header"
  MerkleValue := fun encoding isRoot => .ok (if isRoot then 255 :: encoding else encoding)
  Get := fun t key =>
    match t.root with
    | none => none
    | some n => sampleRetrieve key n

/-- The leaf decoded from `[0, 10]`, as `buildTrie` indexes it. -/
def sampleLeaf : Node := .mk [] (some [10]) none false [0, 10] [0, 10]

/-- The branch decoded from `[1, 0, 10]`, as `buildTrie` takes it as root for the root hash
`[255, 1, 0, 10]`. -/
def sampleRoot : Node :=
  .mk [] none (some [none, some (.mk [] none none false [0, 10] [])]) false [255, 1, 0, 10]
    [1, 0, 10]

/-- The index `buildTrie` builds from the proof `[[1, 0, 10], [0, 10]]` for the root hash
`[255, 1, 0, 10]`. -/
def sampleIndex : ProofMap :=
  (ProofMap.empty.set (BytesToHex [1, 0, 10]) sampleRoot).set (BytesToHex [0, 10]) sampleLeaf

/-- The sample codec with a root Merkle value that is the same for every encoding:
any two encodings collide. -/
def collidingExt : Externals where
  Decode := sampleExt.Decode
  MerkleValue := fun encoding isRoot => .ok (if isRoot then [7] else encoding)
  Get := sampleExt.Get

/-- The sample codec with a root Merkle value that cannot be computed for the encoding
`[0, 20]`. -/
def failingRootExt : Externals where
  Decode := sampleExt.Decode
  MerkleValue := fun encoding isRoot =>
    if isRoot = true ∧ encoding = [0, 20] then .error "hasher failed"
    else sampleExt.MerkleValue encoding isRoot
  Get := sampleExt.Get

/-! ## imports.go: the proof-verification host function -/

/-- Go `wasmer.Value`, for the two kinds the function reads. -/
inductive Value where
  | I32 (v : Int)
  | I64 (v : Int)
deriving DecidableEq, Repr

/-- Go slice expression `mem[low:high]` with integer indices, on a slice whose capacity
is its length; `none` is the runtime panic for indices out of range. -/
def sliceInt (mem : Bytes) (low high : Int) : Option Bytes :=
  if 0 ≤ low ∧ low ≤ high ∧ high ≤ mem.length then
    some ((mem.drop low.toNat).take (high - low).toNat)
  else none

/-- Go `int32` addition. -/
def addInt32 (a b : Int) : Int := (a + b + 2 ^ 31) % 2 ^ 32 - 2 ^ 31

/-- Modelled from the spec: `asMemorySlice` (its file is not among the sources) reads
the span `memory[ptr .. ptr+len]`, the pointer being the low 32 bits and the length the
high 32 bits of the 64-bit value; `none` is the runtime panic for a span outside the
memory. -/
def asMemorySlice (mem : Bytes) (span : Int) : Option Bytes :=
  let ptr := span % 2 ^ 32
  let size := span / 2 ^ 32 % 2 ^ 32
  sliceInt mem ptr ((ptr + size) % 2 ^ 32)

/-- Function `ext_trie_blake2_256_verify_proof_version_1` (imports.go lines 879 to 909).
`mem` is `instanceContext.Memory.Data()`, `unmarshal` is `scale.Unmarshal` into a
`[][]byte` (package `pkg/scale`, not among the sources).  The result is the pair of
returned values and returned error; `none` stands for a call that does not return
(a runtime panic on an argument of the wrong kind or on a slice out of range, or
`Verify` not returning). -/
def ext_trie_blake2_256_verify_proof_version_1 (ext : Externals)
    (unmarshal : Bytes → Except String (List Bytes)) (fuel : Nat) (mem : Bytes)
    (args : List Value) : Option (List Value × Option Error) :=
  match args.get? 0, args.get? 1, args.get? 2, args.get? 3 with
  | some (.I32 rootSpan), some (.I64 proofSpan), some (.I64 keySpan), some (.I64 valueSpan) =>
    match asMemorySlice mem proofSpan with
    | none => none
    | some toDecProofs =>
      match unmarshal toDecProofs with
      | .error _ => some ([.I32 0], none)
      | .ok encodedProofNodes =>
        match asMemorySlice mem keySpan, asMemorySlice mem valueSpan with
        | some key, some value =>
          match sliceInt mem rootSpan (addInt32 rootSpan 32) with
          | none => none
          | some trieRoot =>
            match Verify ext fuel encodedProofNodes trieRoot key value with
            | none => none
            | some (.error _) => some ([.I32 0], none)
            | some (.ok _) => some ([.I32 1], none)
        | _, _ => none
  | _, _, _, _ => none

/-- The items of a SCALE vector of byte vectors, each with a one-byte compact length
prefix (lengths below 64). -/
def sampleUnmarshalItems : Nat → Bytes → Except String (List Bytes)
  | 0, _ => .ok []
  | _ + 1, [] => .error "unexpected end of input"
  | n + 1, prefixByte :: rest =>
    if prefixByte % 4 = 0 ∧ prefixByte / 4 ≤ rest.length then
      match sampleUnmarshalItems n (rest.drop (prefixByte / 4)) with
      | .error err => .error err
      | .ok items => .ok (rest.take (prefixByte / 4) :: items)
    else .error "unsupported length prefix"

/-- A sample `scale.Unmarshal` into `[][]byte`, for vectors of fewer than 64 items. -/
def sampleUnmarshal : Bytes → Except String (List Bytes)
  | [] => .error "unexpected end of input"
  | prefixByte :: rest =>
    if prefixByte % 4 = 0 then sampleUnmarshalItems (prefixByte / 4) rest
    else .error "unsupported length prefix"

/-- A memory of 65 bytes: at 0 the SCALE encoding of a proof of one leaf of 31 bytes, at
33 the 32 bytes of the root Merkle value of that leaf. -/
def sampleMemory : Bytes :=
  [4, 124, 0] ++ List.replicate 30 5 ++ ([255, 0] ++ List.replicate 30 5)

/-! ## tries.go -/

/-- Go `common.Hash`, an array of 32 bytes. -/
abbrev Hash := Bytes

/-- Type `Tries` (tries.go lines 18 to 22).  A `*trie.Trie` is an `Option Trie`, `none`
being the nil pointer; the gauge is its current value (the code only writes whole
numbers to it).  The mutex is not represented: every operation holds it from start to
end, so an operation is one step. -/
structure Tries where
  rootToTrie : AList fun _ : Hash => Option Trie
  triesGauge : Int

/-- Outcome of `prometheus.Register`. -/
inductive RegisterResult where
  | registered
  | alreadyRegistered
  | failed (text : String)

/-- Function `NewTries` (tries.go lines 26 to 42).  `register` is the outcome of
`prometheus.Register(triesGauge)` and `MustHash` is `(*trie.Trie).MustHash`, `none`
when it panics.  A gauge made by `prometheus.NewGauge` starts at 0. -/
def NewTries (register : RegisterResult) (MustHash : Option Trie → Option Hash)
    (t : Option Trie) : Option (Except Error Tries) :=
  match register with
  | .failed text => some (.error (.errorf "cannot register tries gauge: %w" (.foreign text)))
  | _ =>
    match MustHash t with
    | none => none
    | some hash => some (.ok ⟨AList.singleton hash t, 0⟩)

namespace Tries

/-- Method `softSet` (tries.go lines 46 to 57). -/
def softSet (t : Tries) (root : Hash) (trie : Option Trie) : Tries :=
  match t.rootToTrie.lookup root with
  | some _ => t
  | none => ⟨t.rootToTrie.insert root trie, t.triesGauge + 1⟩

/-- Method `delete` (tries.go lines 59 to 66). -/
def delete (t : Tries) (root : Hash) : Tries :=
  ⟨t.rootToTrie.erase root, ((t.rootToTrie.erase root).entries.length : Nat)⟩

/-- Method `get` (tries.go lines 70 to 74): the stored pointer, nil when the root is
not in the map. -/
def get (t : Tries) (root : Hash) : Option Trie :=
  match t.rootToTrie.lookup root with
  | some trie => trie
  | none => none

/-- Method `len` (tries.go lines 78 to 82). -/
def len (t : Tries) : Nat := t.rootToTrie.entries.length

end Tries

/-- A trie hash for the examples: the value of the root node when there is one. -/
def sampleMustHash : Option Trie → Option Hash
  | some ⟨some n⟩ => some (n.Value.getD [])
  | some ⟨none⟩ => some []
  | none => none

/-! ## imports.go: signature verification -/

/-- The functions of one signature algorithm of `lib/crypto` (packages `ed25519`,
`sr25519`, `secp256k1`, not among the sources) that imports.go calls, over the types
`PK` of its public keys and `KP` of its key pairs.  `NewPublicKey` also stands for
`(*secp256k1.PublicKey).Decode`.  `Verify` and `VerifyDeprecated` return the Go pair
`(ok, err)`, `Sign` the Go pair `(sig, err)`; `GenerateKeypair` is the outcome of the
one call an import makes. -/
structure Algorithm (PK KP : Type) where
  NewPublicKey : Bytes → Except String PK
  Encode : PK → Bytes
  Verify : PK → Bytes → Bytes → Bool × Option String
  VerifyDeprecated : PK → Bytes → Bytes → Bool × Option String
  NewKeypairFromMnenomic : Bytes → Except String KP
  GenerateKeypair : Except String KP
  Public : KP → PK
  Sign : KP → Bytes → Bytes × Option String

/-- The package-level verification functions stored in a `crypto.SignatureInfo`:
`ed25519.VerifySignature`, `sr25519.VerifySignature`, `secp256k1.VerifySignature`. -/
inductive VerifyFunc where
  | ed25519
  | sr25519
  | secp256k1
deriving DecidableEq, Repr

/-- Go `crypto.SignatureInfo`, as the verify imports fill it. -/
structure SignatureInfo where
  PubKey : Bytes
  Sign : Bytes
  Msg : Bytes
  VerifyFunc : VerifyFunc
deriving DecidableEq, Repr

/-- The signature-verification batcher `runtimeCtx.SigVerifier`, an external collaborator
with state `V`: the methods the verify imports call. -/
structure SigVerifierOps (V : Type) where
  IsStarted : V → Bool
  Add : V → SignatureInfo → V

/-- Function `ext_crypto_ed25519_verify_version_1` (imports.go lines 293 to 332).  The
result is the returned values, the returned error and the batcher afterwards; `none`
stands for a runtime panic (argument of the wrong kind, slice out of range). -/
def ext_crypto_ed25519_verify_version_1 {PK KP V : Type} (ed25519 : Algorithm PK KP)
    (sv : SigVerifierOps V) (memory : Bytes) (sigVerifier : V) (args : List Value) :
    Option (List Value × Option Error × V) :=
  match args.get? 0, args.get? 1, args.get? 2 with
  | some (.I32 sig), some (.I64 msg), some (.I32 key) =>
    match sliceInt memory sig (addInt32 sig 64), asMemorySlice memory msg,
      sliceInt memory key (addInt32 key 32) with
    | some signature, some message, some pubKeyData =>
      match ed25519.NewPublicKey pubKeyData with
      | .error err => some ([.I32 0], some (.foreign err), sigVerifier)
      | .ok pubKey =>
        if sv.IsStarted sigVerifier then
          some ([.I32 1], none,
            sv.Add sigVerifier ⟨ed25519.Encode pubKey, signature, message, .ed25519⟩)
        else
          match ed25519.Verify pubKey message signature with
          | (ok, err) =>
            if err ≠ none ∨ ok = false then
              some ([.I32 0], err.map Error.foreign, sigVerifier)
            else some ([.I32 1], none, sigVerifier)
    | _, _, _ => none
  | _, _, _ => none

/-- Function `ext_crypto_ecdsa_verify_version_2` (imports.go lines 380 to 434).
`Blake2bHash` is `common.Blake2bHash` (its file is not among the sources). -/
def ext_crypto_ecdsa_verify_version_2 {PK KP V : Type} (secp256k1 : Algorithm PK KP)
    (Blake2bHash : Bytes → Except String Bytes)
    (sv : SigVerifierOps V) (memory : Bytes) (sigVerifier : V) (args : List Value) :
    Option (List Value × Option Error × V) :=
  match args.get? 0, args.get? 1, args.get? 2 with
  | some (.I32 sig), some (.I64 msg), some (.I32 key) =>
    match asMemorySlice memory msg, sliceInt memory sig (addInt32 sig 64),
      sliceInt memory key (addInt32 key 33) with
    | some message, some signature, some pubKey =>
      match secp256k1.NewPublicKey pubKey with
      | .error _ => some ([.I32 0], none, sigVerifier)
      | .ok pub =>
        match Blake2bHash message with
        | .error _ => some ([.I32 0], none, sigVerifier)
        | .ok hash =>
          if sv.IsStarted sigVerifier then
            some ([.I32 1], none,
              sv.Add sigVerifier ⟨secp256k1.Encode pub, signature, hash, .secp256k1⟩)
          else
            match secp256k1.Verify pub hash signature with
            | (ok, err) =>
              if err ≠ none ∨ ok = false then some ([.I32 0], none, sigVerifier)
              else some ([.I32 1], none, sigVerifier)
    | _, _, _ => none
  | _, _, _ => none

/-- Function `ext_crypto_sr25519_verify_version_1` (imports.go lines 638 to 686). -/
def ext_crypto_sr25519_verify_version_1 {PK KP V : Type} (sr25519 : Algorithm PK KP)
    (sv : SigVerifierOps V) (memory : Bytes) (sigVerifier : V) (args : List Value) :
    Option (List Value × Option Error × V) :=
  match args.get? 0, args.get? 1, args.get? 2 with
  | some (.I32 sig), some (.I64 msg), some (.I32 key) =>
    match asMemorySlice memory msg, sliceInt memory sig (addInt32 sig 64),
      sliceInt memory key (addInt32 key 32) with
    | some message, some signature, some pubKeyData =>
      match sr25519.NewPublicKey pubKeyData with
      | .error _ => some ([.I32 0], none, sigVerifier)
      | .ok pub =>
        if sv.IsStarted sigVerifier then
          some ([.I32 1], none,
            sv.Add sigVerifier ⟨sr25519.Encode pub, signature, message, .sr25519⟩)
        else
          match sr25519.VerifyDeprecated pub message signature with
          | (ok, err) =>
            if err ≠ none ∨ ok = false then some ([.I32 1], none, sigVerifier)
            else some ([.I32 1], none, sigVerifier)
    | _, _, _ => none
  | _, _, _ => none

/-- Function `ext_crypto_sr25519_verify_version_2` (imports.go lines 689 to 736). -/
def ext_crypto_sr25519_verify_version_2 {PK KP V : Type} (sr25519 : Algorithm PK KP)
    (sv : SigVerifierOps V) (memory : Bytes) (sigVerifier : V) (args : List Value) :
    Option (List Value × Option Error × V) :=
  match args.get? 0, args.get? 1, args.get? 2 with
  | some (.I32 sig), some (.I64 msg), some (.I32 key) =>
    match asMemorySlice memory msg, sliceInt memory sig (addInt32 sig 64),
      sliceInt memory key (addInt32 key 32) with
    | some message, some signature, some pubKeyData =>
      match sr25519.NewPublicKey pubKeyData with
      | .error _ => some ([.I32 0], none, sigVerifier)
      | .ok pub =>
        if sv.IsStarted sigVerifier then
          some ([.I32 1], none,
            sv.Add sigVerifier ⟨sr25519.Encode pub, signature, message, .sr25519⟩)
        else
          match sr25519.Verify pub message signature with
          | (ok, err) =>
            if err ≠ none ∨ ok = false then some ([.I32 0], none, sigVerifier)
            else some ([.I32 1], none, sigVerifier)
    | _, _, _ => none
  | _, _, _ => none

/-- A sample algorithm: a public key is its 32 (or 33) bytes and is rejected when its
first byte is 255; a key pair is its seed, with itself as public key; signing returns
the message and fails for the empty message; a signature is valid when its first byte
is the first byte of the message, and verification reports an error for a signature
whose first byte is 255. -/
def sampleAlgorithm : Algorithm Bytes Bytes where
  NewPublicKey := fun b => if b.head? = some 255 then .error "invalid public key" else .ok b
  Encode := fun pk => pk
  Verify := fun _ msg sig =>
    if sig.head? = some 255 then (false, some "malformed signature")
    else (decide (sig.head? = msg.head?), none)
  VerifyDeprecated := fun _ msg sig =>
    if sig.head? = some 255 then (false, some "malformed signature")
    else (decide (sig.head? = msg.head?), none)
  NewKeypairFromMnenomic := fun seed =>
    if seed = [] then .error "invalid mnemonic" else .ok seed
  GenerateKeypair := .ok [1, 2, 3]
  Public := fun kp => kp
  Sign := fun _ msg => if msg = [] then ([], some "cannot sign") else (msg, none)

/-- A memory of 100 bytes for the verify imports: a signature of 64 bytes at 0, a public
key of 33 bytes at 64 and the message `[7, 8, 9]` at 97, the first bytes of the signature
and of the key being given. -/
def sampleCryptoMemory (sigHead keyHead : Nat) : Bytes :=
  (sigHead :: List.replicate 63 0) ++ (keyHead :: List.replicate 32 0) ++ [7, 8, 9]

/-- A sample batcher: the started flag and the queued signatures. -/
def sampleSigVerifier : SigVerifierOps (Bool × List SignatureInfo) where
  IsStarted := fun v => v.1
  Add := fun v info => (v.1, v.2 ++ [info])

/-! ## imports.go: writing to the memory -/

/-- The allocator `runtimeCtx.Allocator`, an external collaborator with state `A`:
`Allocate(size)` returns a pointer or an error. -/
structure AllocatorOps (A : Type) where
  Allocate : A → Nat → Except String (Nat × A)

/-- The linear memory and the allocator of a `runtime.Context`. -/
structure Heap (A : Type) where
  Memory : Bytes
  Allocator : A
deriving DecidableEq

/-- Go `int64(x)` of an unsigned 64-bit value. -/
def toInt64 (n : Nat) : Int := ((n : Int) + 2 ^ 63) % 2 ^ 64 - 2 ^ 63

/-- Modelled from the spec: the pointer-size of a span (helper `toPointerSize`, whose
file is not among the sources): the pointer in the low 32 bits and the length in the
high 32 bits of a 64-bit value. -/
def toPointerSize (ptr size : Nat) : Int := toInt64 (ptr % 2 ^ 32 + size % 2 ^ 32 * 2 ^ 32)

/-- Modelled from the spec: helper `toWasmMemorySized` (`writeSized`), which allocates
`len(data)` bytes, copies the data there and returns the pointer.  The outer `none` is
the runtime panic of a copy outside the memory; an allocation error leaves the memory
and the allocator as they were. -/
def toWasmMemorySized {A : Type} (al : AllocatorOps A) (heap : Heap A) (data : Bytes) :
    Option (Except String (Nat × Heap A)) :=
  match al.Allocate heap.Allocator data.length with
  | .error err => some (.error err)
  | .ok (ptr, allocator) =>
    if ptr + data.length ≤ heap.Memory.length then
      some (.ok (ptr,
        ⟨heap.Memory.take ptr ++ data ++ heap.Memory.drop (ptr + data.length), allocator⟩))
    else none

/-- Modelled from the spec: helper `toWasmMemory` (`writeOwned`), which allocates, copies
and returns the pointer-size of the copy. -/
def toWasmMemory {A : Type} (al : AllocatorOps A) (heap : Heap A) (data : Bytes) :
    Option (Except String (Int × Heap A)) :=
  match toWasmMemorySized al heap data with
  | none => none
  | some (.error err) => some (.error err)
  | some (.ok (ptr, heap1)) => some (.ok (toPointerSize ptr data.length, heap1))

/-- The little-endian bytes of a number, on a given width. -/
def leBytes (n : Nat) : Nat → Bytes
  | 0 => []
  | width + 1 => n % 256 :: leBytes (n / 256) width

/-- Modelled from the spec: the compact encoding of a length (package `pkg/scale`, not
among the sources): one byte `v<<2` below 64, two bytes `(v<<2)|1` below 2^14, four
bytes `(v<<2)|2` below 2^30, otherwise the byte `((n-4)<<2)|3` and the `n` little-endian
bytes of the value. -/
def compactEncode (v : Nat) : Bytes :=
  if v < 64 then [v * 4]
  else if v < 2 ^ 14 then leBytes (v * 4 + 1) 2
  else if v < 2 ^ 30 then leBytes (v * 4 + 2) 4
  else (((Nat.digits 256 v).length - 4) * 4 + 3) :: Nat.digits 256 v

/-- Modelled from the spec: `scale.Marshal` of an optional byte vector, `[0x00]` for None
and `[0x01]`, the compact length and the bytes for Some. -/
def encodeOptionBytes : Option Bytes → Bytes
  | none => [0]
  | some b => 1 :: (compactEncode b.length ++ b)

/-- Modelled from the spec: helper `toWasmMemoryOptional` (`writeOption`), which writes
the encoding of an optional byte vector, None for a nil slice. -/
def toWasmMemoryOptional {A : Type} (al : AllocatorOps A) (heap : Heap A)
    (data : Option Bytes) : Option (Except String (Int × Heap A)) :=
  toWasmMemory al heap (encodeOptionBytes data)

/-- Modelled from the spec: helper `toWasmMemoryOptionalNil`, the values and error for an
encoded None: the value 0 with the error when the allocation fails. -/
def toWasmMemoryOptionalNil {A : Type} (al : AllocatorOps A) (heap : Heap A) :
    Option (List Value × Option Error × Heap A) :=
  match toWasmMemoryOptional al heap none with
  | none => none
  | some (.error err) => some ([.I64 0], some (.foreign err), heap)
  | some (.ok (pointerSize, heap1)) => some ([.I64 pointerSize], none, heap1)

/-- Modelled from the spec: helper `mustToWasmMemoryOptionalNil`, which panics when the
forced allocation fails. -/
def mustToWasmMemoryOptionalNil {A : Type} (al : AllocatorOps A) (heap : Heap A) :
    Option (List Value × Heap A) :=
  match toWasmMemoryOptionalNil al heap with
  | some (values, none, heap1) => some (values, heap1)
  | _ => none

/-- Modelled from the spec: helper `mustToWasmMemoryNil`, which writes the empty slice
and panics when the forced allocation fails. -/
def mustToWasmMemoryNil {A : Type} (al : AllocatorOps A) (heap : Heap A) :
    Option (List Value × Heap A) :=
  match toWasmMemory al heap [] with
  | some (.ok (pointerSize, heap1)) => some ([.I64 pointerSize], heap1)
  | _ => none

/-- Modelled from the spec: helper `toWasmMemoryFixedSizeOptional`, which writes a Some
of a fixed-size signature: the byte `0x01` and the 64 bytes of the data, padded with
zeros. -/
def toWasmMemoryFixedSizeOptional {A : Type} (al : AllocatorOps A) (heap : Heap A)
    (data : Bytes) : Option (Except String (Int × Heap A)) :=
  toWasmMemory al heap (1 :: (data ++ List.replicate 64 0).take 64)

/-- Modelled from the spec: helper `safeCastInt32`, which fails for a value above the
largest `int32`. -/
def safeCastInt32 (value : Nat) : Except String Int :=
  if value < 2 ^ 31 then .ok value else .error "cannot cast to int32: value too large"

/-- What the runtime reads at a returned value, taken as pointer-size in the memory left
by the import. -/
def returnedBytes {A : Type} (values : List Value) (heap : Heap A) : Option Bytes :=
  match values with
  | [.I64 pointerSize] => asMemorySlice heap.Memory pointerSize
  | _ => none

/-! ## imports.go: key generation and signing -/

/-- The keystore collection `runtimeCtx.Keystore`, an external collaborator with state
`K`: `GetKeystore(id)` gives a keystore (handle `N`) or an error, `Insert` adds a key
pair to a keystore of the collection or fails leaving the collection as it was,
`GetKeypair` is nil (`none`) when the public key is not in the keystore. -/
structure KeystoreOps (K N PK KP : Type) where
  GetKeystore : K → Bytes → Except String N
  Insert : K → N → KP → Except String K
  GetKeypair : K → N → PK → Option KP

/-- The key pair of the generate imports (imports.go lines 156 to 160 and 498 to 502):
from the seed as mnemonic when there is one, otherwise a fresh one. -/
def newKeypair {PK KP : Type} (alg : Algorithm PK KP) (seed : Option Bytes) :
    Except String KP :=
  match seed with
  | some mnemonic => alg.NewKeypairFromMnenomic mnemonic
  | none => alg.GenerateKeypair

/-- The end of the generate imports, after the key pair is made (imports.go lines 167 to
191 and 509 to 534): insert it, write its public key and return the pointer. -/
def insertAndReturnPublicKey {PK KP K N A : Type} (alg : Algorithm PK KP)
    (ks : KeystoreOps K N PK KP) (al : AllocatorOps A) (heap : Heap A) (keystore : K)
    (id : Bytes) (kp : KP) : Option (List Value × Option Error × K × Heap A) :=
  match ks.GetKeystore keystore id with
  | .error _ => some ([.I32 0], none, keystore, heap)
  | .ok store =>
    match ks.Insert keystore store kp with
    | .error _ => some ([.I32 0], none, keystore, heap)
    | .ok keystore1 =>
      match toWasmMemorySized al heap (alg.Encode (alg.Public kp)) with
      | none => none
      | some (.error _) => some ([.I32 0], none, keystore1, heap)
      | some (.ok (ret, heap1)) =>
        match safeCastInt32 ret with
        | .error err => some ([.I32 0], some (.foreign err), keystore1, heap1)
        | .ok castedRet => some ([.I32 castedRet], none, keystore1, heap1)

/-- Function `ext_crypto_ed25519_generate_version_1` (imports.go lines 134 to 192).
`unmarshal` is `scale.Unmarshal` into a `*[]byte`.  The result is the returned values,
the returned error, the keystore collection and the memory afterwards. -/
def ext_crypto_ed25519_generate_version_1 {PK KP K N A : Type} (ed25519 : Algorithm PK KP)
    (unmarshal : Bytes → Except String (Option Bytes)) (ks : KeystoreOps K N PK KP)
    (al : AllocatorOps A) (heap : Heap A) (keystore : K) (args : List Value) :
    Option (List Value × Option Error × K × Heap A) :=
  match args.get? 0, args.get? 1 with
  | some (.I32 keyTypeID), some (.I64 seedSpan) =>
    match sliceInt heap.Memory keyTypeID (addInt32 keyTypeID 4),
      asMemorySlice heap.Memory seedSpan with
    | some id, some seedBytes =>
      match unmarshal seedBytes with
      | .error _ => some ([.I32 0], none, keystore, heap)
      | .ok seed =>
        match newKeypair ed25519 seed with
        | .error _ => some ([.I32 0], none, keystore, heap)
        | .ok kp => insertAndReturnPublicKey ed25519 ks al heap keystore id kp
    | _, _ => none
  | _, _ => none

/-- Function `ext_crypto_sr25519_generate_version_1` (imports.go lines 479 to 535). -/
def ext_crypto_sr25519_generate_version_1 {PK KP K N A : Type} (sr25519 : Algorithm PK KP)
    (unmarshal : Bytes → Except String (Option Bytes)) (ks : KeystoreOps K N PK KP)
    (al : AllocatorOps A) (heap : Heap A) (keystore : K) (args : List Value) :
    Option (List Value × Option Error × K × Heap A) :=
  match args.get? 0, args.get? 1 with
  | some (.I32 keyTypeID), some (.I64 seedSpan) =>
    match sliceInt heap.Memory keyTypeID (addInt32 keyTypeID 4),
      asMemorySlice heap.Memory seedSpan with
    | some id, some seedBytes =>
      match unmarshal seedBytes with
      | .error _ => some ([.I32 0], none, keystore, heap)
      | .ok seed =>
        match newKeypair sr25519 seed with
        | .error _ => none
        | .ok kp => insertAndReturnPublicKey sr25519 ks al heap keystore id kp
    | _, _ => none
  | _, _ => none

/-- Function `ext_crypto_ed25519_sign_version_1` (imports.go lines 243 to 290).  The
result is the returned values, the returned error and the memory afterwards. -/
def ext_crypto_ed25519_sign_version_1 {PK KP K N A : Type} (ed25519 : Algorithm PK KP)
    (ks : KeystoreOps K N PK KP) (al : AllocatorOps A) (heap : Heap A) (keystore : K)
    (args : List Value) : Option (List Value × Option Error × Heap A) :=
  match args.get? 0, args.get? 1, args.get? 2 with
  | some (.I32 keyTypeID), some (.I32 key), some (.I64 msg) =>
    match sliceInt heap.Memory keyTypeID (addInt32 keyTypeID 4),
      sliceInt heap.Memory key (addInt32 key 32) with
    | some id, some pubKeyData =>
      match ed25519.NewPublicKey pubKeyData with
      | .error _ => some ([.I64 0], none, heap)
      | .ok pubKey =>
        match ks.GetKeystore keystore id with
        | .error _ =>
          match mustToWasmMemoryOptionalNil al heap with
          | none => none
          | some (values, heap1) => some (values, none, heap1)
        | .ok store =>
          match ks.GetKeypair keystore store pubKey with
          | none =>
            match toWasmMemoryOptionalNil al heap with
            | none => none
            | some (_, some _, heap1) => some ([.I64 0], none, heap1)
            | some (ret, none, heap1) => some (ret, none, heap1)
          | some signingKey =>
            match asMemorySlice heap.Memory msg with
            | none => none
            | some message =>
              match ed25519.Sign signingKey message with
              | (sig, _) =>
                match toWasmMemoryFixedSizeOptional al heap sig with
                | none => none
                | some (.error _) => some ([.I64 0], none, heap)
                | some (.ok (ret, heap1)) => some ([.I64 ret], none, heap1)
    | _, _ => none
  | _, _, _ => none

/-- Function `ext_crypto_sr25519_sign_version_1` (imports.go lines 590 to 635).  The
error of the first `toWasmMemoryOptional` is dropped: `emptyRet` is then 0. -/
def ext_crypto_sr25519_sign_version_1 {PK KP K N A : Type} (sr25519 : Algorithm PK KP)
    (ks : KeystoreOps K N PK KP) (al : AllocatorOps A) (heap : Heap A) (keystore : K)
    (args : List Value) : Option (List Value × Option Error × Heap A) :=
  match args.get? 0, args.get? 1, args.get? 2 with
  | some (.I32 keyTypeID), some (.I32 key), some (.I64 msg) =>
    match toWasmMemoryOptional al heap none with
    | none => none
    | some emptyResult =>
      let emptyRet : Int := match emptyResult with
        | .error _ => 0
        | .ok (pointerSize, _) => pointerSize
      let heap1 : Heap A := match emptyResult with
        | .error _ => heap
        | .ok (_, heap1) => heap1
      match sliceInt heap1.Memory keyTypeID (addInt32 keyTypeID 4) with
      | none => none
      | some id =>
        match ks.GetKeystore keystore id with
        | .error _ => some ([.I64 emptyRet], none, heap1)
        | .ok store =>
          match sliceInt heap1.Memory key (addInt32 key 32) with
          | none => none
          | some pubKeyData =>
            match sr25519.NewPublicKey pubKeyData with
            | .error _ => some ([.I64 emptyRet], none, heap1)
            | .ok pubKey =>
              match ks.GetKeypair keystore store pubKey with
              | none => some ([.I64 emptyRet], none, heap1)
              | some signingKey =>
                match asMemorySlice heap1.Memory msg with
                | none => none
                | some msgData =>
                  match sr25519.Sign signingKey msgData with
                  | (_, some _) => some ([.I64 emptyRet], none, heap1)
                  | (sig, none) =>
                    match toWasmMemoryFixedSizeOptional al heap1 sig with
                    | none => none
                    | some (.error _) => some ([.I64 emptyRet], none, heap1)
                    | some (.ok (ret, heap2)) => some ([.I64 ret], none, heap2)
  | _, _, _ => none

/-- A sample keystore collection: the list of pairs of a keystore id and a key pair; the
id `[0, 0, 0, 0]` is unknown and a key pair whose first byte is 254 is refused. -/
def sampleKeystore : KeystoreOps (List (Bytes × Bytes)) Bytes Bytes Bytes where
  GetKeystore := fun _ id => if id = [0, 0, 0, 0] then .error "unknown key type" else .ok id
  Insert := fun k store kp =>
    if kp.head? = some 254 then .error "key pair refused" else .ok ((store, kp) :: k)
  GetKeypair := fun k store pk =>
    (k.find? fun e => decide (e.1 = store ∧ e.2 = pk)).map Prod.snd

/-- A sample allocator: the next free pointer and the end of the memory. -/
def sampleAllocator : AllocatorOps (Nat × Nat) where
  Allocate := fun a size =>
    if a.1 + size ≤ a.2 then .ok (a.1, (a.1 + size, a.2)) else .error "out of memory"

/-- A sample `scale.Unmarshal` into `*[]byte`, for vectors shorter than 64 bytes. -/
def sampleUnmarshalOption : Bytes → Except String (Option Bytes)
  | [0] => .ok none
  | 1 :: prefixByte :: rest =>
    if prefixByte % 4 = 0 ∧ prefixByte / 4 = rest.length then .ok (some rest)
    else .error "unsupported length prefix"
  | _ => .error "unsupported option"

/-- A memory of 80 bytes for the generate imports: the key type id `babe` at 0, the
encoded seed Some of the empty vector at 4, the encoded seed Some of `[5, 6]` at 6, the
encoded seed Some of `[254]` at 10, the unknown key type id at 13, free from 17. -/
def sampleKeyMemory : Bytes :=
  [98, 97, 98, 101, 1, 0, 1, 8, 5, 6, 1, 4, 254, 0, 0, 0, 0] ++ List.replicate 63 0

/-- A memory of 119 bytes for the sign imports: the key type id `babe` at 0, a public key
of 32 bytes with the given first byte at 4, the message `[7, 8, 9]` at 36, free from
39. -/
def sampleSignMemory (keyHead : Nat) : Bytes :=
  [98, 97, 98, 101] ++ (keyHead :: List.replicate 31 0) ++ [7, 8, 9] ++ List.replicate 80 0

/-! ## imports.go: offchain local storage -/

/-- A key-value store of `runtimeCtx.NodeStorage` (interface `runtime.BasicStorage`), an
external collaborator with state `D`.  `Get` returns the Go pair of a slice (`none` for a
nil slice) and an error; a failed `Put` or `Del` leaves the store as it was. -/
structure BasicStorageOps (D : Type) where
  Get : D → Bytes → Except String (Option Bytes)
  Put : D → Bytes → Bytes → Except String D
  Del : D → Bytes → Except String D

/-- Go `runtime.NodeStorage`, with the two stores the local-storage imports use. -/
structure NodeStorage (D : Type) where
  PersistentStorage : D
  LocalStorage : D
deriving DecidableEq

/-- Modelled from the spec: `runtime.NodeStorageTypePersistent`, the kind 1. -/
def NodeStorageTypePersistent : Int := 1

/-- Modelled from the spec: `runtime.NodeStorageTypeLocal`, the kind 2. -/
def NodeStorageTypeLocal : Int := 2

/-- Function `ext_offchain_local_storage_compare_and_set_version_1` (imports.go lines 1611
to 1651).  The result is the returned values, the returned error and the node storage
afterwards.  `reflect.DeepEqual` of two byte slices holds when both are nil or both are
not nil and have the same bytes; the slice read from the memory is never nil. -/
def ext_offchain_local_storage_compare_and_set_version_1 {D : Type}
    (db : BasicStorageOps D) (memory : Bytes) (nodeStorage : NodeStorage D)
    (args : List Value) : Option (List Value × Option Error × NodeStorage D) :=
  match args.get? 0, args.get? 1, args.get? 2, args.get? 3 with
  | some (.I32 kind), some (.I64 key), some (.I64 oldValue), some (.I64 newValue) =>
    match asMemorySlice memory key with
    | none => none
    | some storageKey =>
      let stored : Except String (Option Bytes) :=
        if kind = NodeStorageTypePersistent then
          db.Get nodeStorage.PersistentStorage storageKey
        else if kind = NodeStorageTypeLocal then
          db.Get nodeStorage.LocalStorage storageKey
        else .ok none
      match stored with
      | .error _ => some ([.I32 0], none, nodeStorage)
      | .ok storedValue =>
        match asMemorySlice memory oldValue, asMemorySlice memory newValue with
        | some oldVal, some newVal =>
          if storedValue = some oldVal then
            match db.Put nodeStorage.LocalStorage storageKey newVal with
            | .error _ => some ([.I32 0], none, nodeStorage)
            | .ok localStorage =>
              some ([.I32 1], none, ⟨nodeStorage.PersistentStorage, localStorage⟩)
          else some ([.I32 1], none, nodeStorage)
        | _, _ => none
  | _, _, _, _ => none

/-- A sample store: the list of its entries; `Get` of an absent key is a nil slice
without error. -/
def sampleStore : BasicStorageOps (List (Bytes × Bytes)) where
  Get := fun d key => .ok ((d.find? fun e => decide (e.1 = key)).map Prod.snd)
  Put := fun d key value => .ok ((key, value) :: d.filter fun e => decide (e.1 ≠ key))
  Del := fun d key => .ok (d.filter fun e => decide (e.1 ≠ key))

/-- A sample store whose `Get` of an absent key is an error. -/
def sampleStrictStore : BasicStorageOps (List (Bytes × Bytes)) where
  Get := fun d key =>
    match d.find? fun e => decide (e.1 = key) with
    | none => .error "key not found"
    | some e => .ok (some e.2)
  Put := sampleStore.Put
  Del := sampleStore.Del

/-! ## imports.go: clearing storage -/

/-- The storage overlay `instanceContext.Storage`, an external collaborator with state
`S`: the two bounded deletions, which return the number of deleted keys and whether all
were deleted, or an error leaving the storage as it was; the writes `Put`, `Delete`,
`ClearPrefix` and `DeleteChild`, which return an error leaving the storage as it was, or
the storage written; the reads `Get`, nil (`none`) for a key without value, and
`GetChildStorage`, the Go pair of a slice and an error. -/
structure StorageOps (S : Type) where
  ClearPrefixLimit : S → Bytes → Nat → Except String (Nat × Bool × S)
  DeleteChildLimit : S → Bytes → Option Bytes → Except String (Nat × Bool × S)
  Put : S → Bytes → Bytes → Except String S
  Delete : S → Bytes → Except String S
  ClearPrefix : S → Bytes → Except String S
  DeleteChild : S → Bytes → Except String S
  Get : S → Bytes → Option Bytes
  GetChildStorage : S → Bytes → Bytes → Except String (Option Bytes)

/-- Go `binary.LittleEndian.Uint32`, which panics on fewer than four bytes. -/
def uint32LE : Bytes → Option Nat
  | a :: b :: c :: d :: _ => some (a + b * 2 ^ 8 + c * 2 ^ 16 + d * 2 ^ 24)
  | _ => none

/-- Modelled from the spec: helper `toKillStorageResultEnum` (its file is not among the
sources), the tag 0 when all keys were removed and 1 when some remain, then the number of
removed keys as a little-endian u32. -/
def toKillStorageResultEnum (allRemoved : Bool) (numRemoved : Nat) : Bytes :=
  (if allRemoved then 0 else 1) :: leBytes numRemoved 4

/-- The end of `ext_storage_clear_prefix_version_2`, once the limit is known (imports.go
lines 1990 to 2010). -/
def clearPrefixWithLimit {S A : Type} (st : StorageOps S) (al : AllocatorOps A)
    (heap : Heap A) (storage : S) (keyPrefix : Bytes) (limitUint : Nat) :
    Option (List Value × Option Error × S × Heap A) :=
  match st.ClearPrefixLimit storage keyPrefix limitUint with
  | .error _ =>
    match mustToWasmMemoryNil al heap with
    | none => none
    | some (values, heap1) => some (values, none, storage, heap1)
  | .ok (numRemoved, all, storage1) =>
    match toWasmMemory al heap (toKillStorageResultEnum all numRemoved) with
    | none => none
    | some (.error _) =>
      match mustToWasmMemoryNil al heap with
      | none => none
      | some (values, heap1) => some (values, none, storage1, heap1)
    | some (.ok (valueSpan, heap1)) => some ([.I64 valueSpan], none, storage1, heap1)

/-- Function `ext_storage_clear_prefix_version_2` (imports.go lines 1966 to 2011).
`unmarshal` is `scale.Unmarshal` into a `[]byte`.  The result is the returned values, the
returned error, the storage and the memory afterwards. -/
def ext_storage_clear_prefix_version_2 {S A : Type}
    (unmarshal : Bytes → Except String Bytes) (st : StorageOps S) (al : AllocatorOps A)
    (heap : Heap A) (storage : S) (args : List Value) :
    Option (List Value × Option Error × S × Heap A) :=
  match args.get? 0, args.get? 1 with
  | some (.I64 prefixSpan), some (.I64 lim) =>
    match asMemorySlice heap.Memory prefixSpan, asMemorySlice heap.Memory lim with
    | some keyPrefix, some limitBytes =>
      match unmarshal limitBytes with
      | .error _ =>
        match mustToWasmMemoryNil al heap with
        | none => none
        | some (values, heap1) => some (values, none, storage, heap1)
      | .ok decoded =>
        let limit : Bytes := if decoded.length = 0 then [0xff, 0xff, 0xff, 0xff] else decoded
        match uint32LE limit with
        | none => none
        | some limitUint => clearPrefixWithLimit st al heap storage keyPrefix limitUint
    | _, _ => none
  | _, _ => none

/-- Types `noneRemain` and `someRemain` (imports.go lines 1237 to 1245). -/
inductive KillStorageResult where
  | noneRemain (removed : Nat)
  | someRemain (removed : Nat)
deriving DecidableEq, Repr

/-- Methods `Index` of `noneRemain` and `someRemain` (imports.go lines 1239 and 1244). -/
def KillStorageResult.Index : KillStorageResult → Nat
  | .noneRemain _ => 0
  | .someRemain _ => 1

/-- Modelled from the spec: `scale.Marshal` of the varying data type holding a
`noneRemain` or a `someRemain`: the index as tag byte, then the `uint32` in little-endian
order. -/
def marshalKillStorageResult : KillStorageResult → Bytes
  | .noneRemain removed => KillStorageResult.Index (.noneRemain removed) :: leBytes removed 4
  | .someRemain removed => KillStorageResult.Index (.someRemain removed) :: leBytes removed 4

/-- Function `ext_default_child_storage_storage_kill_version_3` (imports.go lines 1248 to
1298).  `unmarshal` is `scale.Unmarshal` into a `*[]byte`; when it fails the limit stays
nil.  Making, setting and marshalling the varying data type do not fail on a
`noneRemain` or a `someRemain`. -/
def ext_default_child_storage_storage_kill_version_3 {S A : Type}
    (unmarshal : Bytes → Except String (Option Bytes)) (st : StorageOps S)
    (al : AllocatorOps A) (heap : Heap A) (storage : S) (args : List Value) :
    Option (List Value × Option Error × S × Heap A) :=
  match args.get? 0, args.get? 1 with
  | some (.I64 childStorageKeySpan), some (.I64 lim) =>
    match asMemorySlice heap.Memory childStorageKeySpan, asMemorySlice heap.Memory lim with
    | some childStorageKey, some limitBytes =>
      let limit : Option Bytes :=
        match unmarshal limitBytes with
        | .error _ => none
        | .ok decoded => decoded
      match st.DeleteChildLimit storage childStorageKey limit with
      | .error _ => some ([.I64 0], none, storage, heap)
      | .ok (deleted, all, storage1) =>
        let vdt : KillStorageResult := if all then .noneRemain deleted else .someRemain deleted
        let encoded := marshalKillStorageResult vdt
        match toWasmMemoryOptional al heap (some encoded) with
        | none => none
        | some (.error _) => some ([.I64 0], none, storage1, heap)
        | some (.ok (out, heap1)) => some ([.I64 out], none, storage1, heap1)
    | _, _ => none
  | _, _ => none

/-- Modelled from the spec: the deletion behind `ClearPrefixLimit(prefix, limit)` on a
storage given by its entries in key order: the first `limit` entries whose key starts
with the prefix are removed.  The result is the number of removed entries and the
entries left. -/
def specClearPrefix (keyPrefix : Bytes) : Nat → List (Bytes × Bytes) → Nat × List (Bytes × Bytes)
  | _, [] => (0, [])
  | 0, entry :: rest => (0, entry :: rest)
  | limit + 1, entry :: rest =>
    if keyPrefix.isPrefixOf entry.1 then
      ((specClearPrefix keyPrefix limit rest).1 + 1, (specClearPrefix keyPrefix limit rest).2)
    else
      ((specClearPrefix keyPrefix (limit + 1) rest).1,
        entry :: (specClearPrefix keyPrefix (limit + 1) rest).2)

/-- Modelled from the spec: the storage overlay on a storage given by its entries:
`ClearPrefixLimit(prefix, limit) → (removed, allRemoved)` removes up to `limit` keys
under the prefix and reports whether no key under the prefix remains; a child storage is
the part of the storage under the child key, and a nil limit of `DeleteChildLimit` is no
limit.  `Put(k, v); Get(k) == v` and `Put(k, v); Delete(k); Get(k) == nil`; `ClearPrefix`
and `DeleteChild` remove every key under the prefix or the child key. -/
def specStorage : StorageOps (List (Bytes × Bytes)) where
  ClearPrefixLimit := fun storage keyPrefix limit =>
    .ok ((specClearPrefix keyPrefix limit storage).1,
      !(specClearPrefix keyPrefix limit storage).2.any (fun e => keyPrefix.isPrefixOf e.1),
      (specClearPrefix keyPrefix limit storage).2)
  DeleteChildLimit := fun storage childKey limit =>
    match limit.map uint32LE with
    | some none => .error "invalid limit"
    | some (some n) =>
      .ok ((specClearPrefix childKey n storage).1,
        !(specClearPrefix childKey n storage).2.any (fun e => childKey.isPrefixOf e.1),
        (specClearPrefix childKey n storage).2)
    | none =>
      .ok ((specClearPrefix childKey storage.length storage).1, true,
        (specClearPrefix childKey storage.length storage).2)
  Put := fun storage key value =>
    .ok ((key, value) :: storage.filter fun e => decide (e.1 ≠ key))
  Delete := fun storage key => .ok (storage.filter fun e => decide (e.1 ≠ key))
  ClearPrefix := fun storage keyPrefix =>
    .ok (storage.filter fun e => !keyPrefix.isPrefixOf e.1)
  DeleteChild := fun storage childKey =>
    .ok (storage.filter fun e => !childKey.isPrefixOf e.1)
  Get := fun storage key => (storage.find? fun e => decide (e.1 = key)).map Prod.snd
  GetChildStorage := fun storage childKey key =>
    .ok ((storage.find? fun e => decide (e.1 = childKey ++ key)).map Prod.snd)

/-- A memory of 4 bytes for the compare-and-set import: the key `[1]` at 0, the old value
`[6]` at 1 and the new value `[7]` at 2. -/
def sampleStoreMemory : Bytes := [1, 6, 7, 0]

/-- A storage of ten entries under the key `[9]`. -/
def sampleStorage : List (Bytes × Bytes) :=
  (List.range 10).map fun i => ([9, i], [i])

/-- A memory of 40 bytes for the storage imports: the key `[9]` at 0, the encoded limit
Some of `[3, 0, 0, 0]` at 1, the encoded limit None at 7, free from 8. -/
def sampleKillMemory : Bytes := [9, 1, 16, 3, 0, 0, 0, 0] ++ List.replicate 32 0

/-- A sample `scale.Unmarshal` into `[]byte`, for vectors shorter than 64 bytes. -/
def sampleUnmarshalBytes : Bytes → Except String Bytes
  | [] => .error "unexpected end of input"
  | prefixByte :: rest =>
    if prefixByte % 4 = 0 ∧ prefixByte / 4 = rest.length then .ok rest
    else .error "unsupported length prefix"

/-- A memory of 40 bytes for `ext_storage_clear_prefix_version_2`: the prefix `[9]` at 0,
the encoded empty limit at 1, the encoded limit ff ff ff ff at 2, the encoded limit
00 00 00 00 at 7, free from 12. -/
def sampleLimitMemory : Bytes :=
  [9, 0, 16, 255, 255, 255, 255, 16, 0, 0, 0, 0] ++ List.replicate 28 0

/-! ## Notions used to state the properties of loadProof -/

/-- The hash-reference graph below a node has no cycle: an indexed node whose key
`loadProof` looks up, started at `n`, does not lead back to its own key. -/
def Acyclic (proofHashToNode : ProofMap) (n : Node) : Prop :=
  ∀ key node, Reachable proofHashToNode n key → proofHashToNode key = some node →
    ¬ Reachable proofHashToNode node key

mutual

/-- The node `loaded` is the node `n` with the indexed children spliced in: a node that
is not a branch is not modified; in a branch only the children change. -/
inductive Spliced (proofHashToNode : ProofMap) : Node → Node → Prop where
  | leaf {n : Node} : n.TypeOf ≠ .Branch → Spliced proofHashToNode n n
  | branch {n : Node} {children loaded : List (Option Node)} :
      n.Children = some children → SplicedChildren proofHashToNode children loaded →
      Spliced proofHashToNode n (n.setChildren loaded)

/-- The children of a branch with the indexed children spliced in: a nil child and a
child whose hash is not a key of the index are left as they are; a child whose hash is
a key of the index is replaced by the indexed node, itself spliced. -/
inductive SplicedChildren (proofHashToNode : ProofMap) :
    List (Option Node) → List (Option Node) → Prop where
  | nil : SplicedChildren proofHashToNode [] []
  | nilChild {rest loaded : List (Option Node)} :
      SplicedChildren proofHashToNode rest loaded →
      SplicedChildren proofHashToNode (none :: rest) (none :: loaded)
  | notIndexed {child : Node} {rest loaded : List (Option Node)} :
      proofHashToNode (BytesToHex child.HashDigest) = none →
      SplicedChildren proofHashToNode rest loaded →
      SplicedChildren proofHashToNode (some child :: rest) (some child :: loaded)
  | indexed {child node spliced : Node} {rest loaded : List (Option Node)} :
      proofHashToNode (BytesToHex child.HashDigest) = some node →
      Spliced proofHashToNode node spliced →
      SplicedChildren proofHashToNode rest loaded →
      SplicedChildren proofHashToNode (some child :: rest) (some spliced :: loaded)

end

/-! ## tries.go: interleaved calls of softSet -/

/-- The statement a call of `softSet` executes next (tries.go lines 47 to 56): the
`Lock`, the map lookup with its test, the `Inc` of the gauge, the map assignment, the
deferred `Unlock`, or none once the call has returned. -/
inductive SoftSetPc where
  | lock
  | lookup
  | inc
  | store
  | unlock
  | returned
deriving DecidableEq, Repr

/-- A call of `softSet` in progress: its arguments and the statement it executes next. -/
structure SoftSetCall where
  root : Hash
  trie : Option Trie
  pc : SoftSetPc

/-- A `Tries` shared by goroutines: the map and the gauge, and whether `mapMutex` is
locked for writing. -/
structure SharedTries where
  tries : Tries
  locked : Bool

/-- One statement of a call of `softSet` on the shared `Tries`; `none` when the call
cannot move: it waits in `Lock` for the mutex, or it has returned. -/
def SoftSetCall.step (c : SoftSetCall) (s : SharedTries) : Option (SoftSetCall × SharedTries) :=
  match c.pc with
  | .lock => if s.locked then none else some (⟨c.root, c.trie, .lookup⟩, ⟨s.tries, true⟩)
  | .lookup =>
    match s.tries.rootToTrie.lookup c.root with
    | some _ => some (⟨c.root, c.trie, .unlock⟩, s)
    | none => some (⟨c.root, c.trie, .inc⟩, s)
  | .inc =>
    some (⟨c.root, c.trie, .store⟩, ⟨⟨s.tries.rootToTrie, s.tries.triesGauge + 1⟩, s.locked⟩)
  | .store =>
    some (⟨c.root, c.trie, .unlock⟩,
      ⟨⟨s.tries.rootToTrie.insert c.root c.trie, s.tries.triesGauge⟩, s.locked⟩)
  | .unlock => some (⟨c.root, c.trie, .returned⟩, ⟨s.tries, false⟩)
  | .returned => none

/-- Two goroutines, each in a call of `softSet` on the same `Tries`. -/
structure TwoCalls where
  shared : SharedTries
  first : SoftSetCall
  second : SoftSetCall

/-- The two calls at their start, the mutex being free. -/
def TwoCalls.start (t : Tries) (root : Hash) (trieA trieB : Option Trie) : TwoCalls :=
  ⟨⟨t, false⟩, ⟨root, trieA, .lock⟩, ⟨root, trieB, .lock⟩⟩

/-- The scheduler lets one of the two calls execute its next statement (`false` for
the first call, `true` for the second); a call that cannot move leaves the state as it
is. -/
def TwoCalls.step (s : TwoCalls) (who : Bool) : TwoCalls :=
  if who then
    match s.second.step s.shared with
    | none => s
    | some (call, shared) => ⟨shared, s.first, call⟩
  else
    match s.first.step s.shared with
    | none => s
    | some (call, shared) => ⟨shared, call, s.second⟩

/-- An interleaving of the two calls: the scheduler's choices, in order. -/
def TwoCalls.run (s : TwoCalls) (schedule : List Bool) : TwoCalls :=
  schedule.foldl TwoCalls.step s

/-- Both calls have returned. -/
def TwoCalls.returned (s : TwoCalls) : Bool :=
  decide (s.first.pc = .returned) && decide (s.second.pc = .returned)

/-- The states two calls `softSet(root, trieA)` and `softSet(root, trieB)` go through,
started on a `Tries` that does not hold `root`: with the first call entering first, then
with the second call entering first. -/
def TwoCalls.states (t : Tries) (root : Hash) (trieA trieB : Option Trie) : List TwoCalls :=
  let inced : Tries := ⟨t.rootToTrie, t.triesGauge + 1⟩
  let setA : Tries := ⟨t.rootToTrie.insert root trieA, t.triesGauge + 1⟩
  let setB : Tries := ⟨t.rootToTrie.insert root trieB, t.triesGauge + 1⟩
  [⟨⟨t, false⟩, ⟨root, trieA, .lock⟩, ⟨root, trieB, .lock⟩⟩,
   ⟨⟨t, true⟩, ⟨root, trieA, .lookup⟩, ⟨root, trieB, .lock⟩⟩,
   ⟨⟨t, true⟩, ⟨root, trieA, .inc⟩, ⟨root, trieB, .lock⟩⟩,
   ⟨⟨inced, true⟩, ⟨root, trieA, .store⟩, ⟨root, trieB, .lock⟩⟩,
   ⟨⟨setA, true⟩, ⟨root, trieA, .unlock⟩, ⟨root, trieB, .lock⟩⟩,
   ⟨⟨setA, false⟩, ⟨root, trieA, .returned⟩, ⟨root, trieB, .lock⟩⟩,
   ⟨⟨setA, true⟩, ⟨root, trieA, .returned⟩, ⟨root, trieB, .lookup⟩⟩,
   ⟨⟨setA, true⟩, ⟨root, trieA, .returned⟩, ⟨root, trieB, .unlock⟩⟩,
   ⟨⟨setA, false⟩, ⟨root, trieA, .returned⟩, ⟨root, trieB, .returned⟩⟩,
   ⟨⟨t, true⟩, ⟨root, trieA, .lock⟩, ⟨root, trieB, .lookup⟩⟩,
   ⟨⟨t, true⟩, ⟨root, trieA, .lock⟩, ⟨root, trieB, .inc⟩⟩,
   ⟨⟨inced, true⟩, ⟨root, trieA, .lock⟩, ⟨root, trieB, .store⟩⟩,
   ⟨⟨setB, true⟩, ⟨root, trieA, .lock⟩, ⟨root, trieB, .unlock⟩⟩,
   ⟨⟨setB, false⟩, ⟨root, trieA, .lock⟩, ⟨root, trieB, .returned⟩⟩,
   ⟨⟨setB, true⟩, ⟨root, trieA, .lookup⟩, ⟨root, trieB, .returned⟩⟩,
   ⟨⟨setB, true⟩, ⟨root, trieA, .unlock⟩, ⟨root, trieB, .returned⟩⟩,
   ⟨⟨setB, false⟩, ⟨root, trieA, .returned⟩, ⟨root, trieB, .returned⟩⟩]

/-! ## imports.go: trie roots -/

/-- The trie of package `lib/trie` (not among the sources) as the trie-root host
functions use it, an external collaborator with state `T`: `trie.NewEmptyTrie()`,
`(*Trie).Put`, which returns an error or the trie written, and `(*Trie).Hash`. -/
structure TrieOps (T : Type) where
  NewEmptyTrie : T
  Put : T → Bytes → Bytes → Except String T
  Hash : T → Except String Bytes

/-- Go `copy(memory[low:high], src)`: the memory after the copy of the first
`min(high - low, len(src))` bytes of `src` to `low`; `none` is the runtime panic of the
slice expression. -/
def copyToMemory (memory : Bytes) (low high : Int) (src : Bytes) : Option Bytes :=
  if 0 ≤ low ∧ low ≤ high ∧ high ≤ memory.length then
    some (memory.take low.toNat ++ src.take (min (high - low).toNat src.length) ++
      memory.drop (low.toNat + min (high - low).toNat src.length))
  else none

/-- The end of the two trie-root host functions (imports.go lines 789 to 809 and 853 to
869, the same statements): allocate 32 bytes, hash the trie, cast the pointer and copy
the hash to `memory[ptr:ptr+32]`, the sum being a `uint32` sum.  The allocation is kept
when a later statement fails. -/
def writeTrieRoot {T A : Type} (tr : TrieOps T) (al : AllocatorOps A) (heap : Heap A)
    (t : T) : Option (List Value × Option Error × Heap A) :=
  match al.Allocate heap.Allocator 32 with
  | .error _ => some ([.I32 0], none, heap)
  | .ok (ptr, allocator) =>
    match tr.Hash t with
    | .error _ => some ([.I32 0], none, ⟨heap.Memory, allocator⟩)
    | .ok hash =>
      match safeCastInt32 ptr with
      | .error err => some ([.I32 0], some (.foreign err), ⟨heap.Memory, allocator⟩)
      | .ok castedPtr =>
        match copyToMemory heap.Memory ptr (((ptr + 32) % 2 ^ 32 : Nat) : Int) hash with
        | none => none
        | some memory => some ([.I32 castedPtr], none, ⟨memory, allocator⟩)

/-- The loop of `ext_trie_blake2_256_root_version_1` over the key-value pairs
(imports.go lines 780 to 787). -/
def putKeyValues {T : Type} (tr : TrieOps T) : T → List (Bytes × Bytes) → Except String T
  | t, [] => .ok t
  | t, kv :: rest =>
    match tr.Put t kv.1 kv.2 with
    | .error err => .error err
    | .ok t1 => putKeyValues tr t1 rest

/-- Function `ext_trie_blake2_256_root_version_1` (imports.go lines 757 to 810).
`unmarshal` is `scale.Unmarshal` into a slice of key-value pairs.  The result is the
returned values, the returned error and the memory afterwards. -/
def ext_trie_blake2_256_root_version_1 {T A : Type} (tr : TrieOps T)
    (unmarshal : Bytes → Except String (List (Bytes × Bytes))) (al : AllocatorOps A)
    (heap : Heap A) (args : List Value) : Option (List Value × Option Error × Heap A) :=
  match args.get? 0 with
  | some (.I64 dataSpan) =>
    match asMemorySlice heap.Memory dataSpan with
    | none => none
    | some data =>
      let t := tr.NewEmptyTrie
      match unmarshal data with
      | .error _ => some ([.I32 0], none, heap)
      | .ok kvs =>
        match putKeyValues tr t kvs with
        | .error _ => some ([.I32 0], none, heap)
        | .ok t1 => writeTrieRoot tr al heap t1
  | _ => none

/-- The loop of `ext_trie_blake2_256_ordered_root_version_1` over the values, from the
index `i` on (imports.go lines 829 to 846).  `marshal` is `scale.Marshal` of the index
as a big integer. -/
def putOrderedValues {T : Type} (tr : TrieOps T) (marshal : Nat → Except String Bytes) :
    Nat → T → List Bytes → Except String T
  | _, t, [] => .ok t
  | i, t, value :: rest =>
    match marshal i with
    | .error err => .error err
    | .ok key =>
      match tr.Put t key value with
      | .error err => .error err
      | .ok t1 => putOrderedValues tr marshal (i + 1) t1 rest

/-- Function `ext_trie_blake2_256_ordered_root_version_1` (imports.go lines 813 to 870).
`unmarshal` is `scale.Unmarshal` into a `[][]byte`. -/
def ext_trie_blake2_256_ordered_root_version_1 {T A : Type} (tr : TrieOps T)
    (unmarshal : Bytes → Except String (List Bytes)) (marshal : Nat → Except String Bytes)
    (al : AllocatorOps A) (heap : Heap A) (args : List Value) :
    Option (List Value × Option Error × Heap A) :=
  match args.get? 0 with
  | some (.I64 dataSpan) =>
    match asMemorySlice heap.Memory dataSpan with
    | none => none
    | some data =>
      let t := tr.NewEmptyTrie
      match unmarshal data with
      | .error _ => some ([.I32 0], none, heap)
      | .ok values =>
        match putOrderedValues tr marshal 0 t values with
        | .error _ => some ([.I32 0], none, heap)
        | .ok t1 => writeTrieRoot tr al heap t1
  | _ => none

/-- Function `ext_trie_blake2_256_ordered_root_version_2` (imports.go lines 873 to 876). -/
def ext_trie_blake2_256_ordered_root_version_2 {T A : Type} (tr : TrieOps T)
    (unmarshal : Bytes → Except String (List Bytes)) (marshal : Nat → Except String Bytes)
    (al : AllocatorOps A) (heap : Heap A) (args : List Value) :
    Option (List Value × Option Error × Heap A) :=
  ext_trie_blake2_256_ordered_root_version_1 tr unmarshal marshal al heap args

/-- The key-value list of the claim about the ordered root: the values from the index
`i` on, each with the compact encoding of its index as key. -/
def compactIndexedFrom : Nat → List Bytes → List (Bytes × Bytes)
  | _, [] => []
  | i, value :: rest => (compactEncode i, value) :: compactIndexedFrom (i + 1) rest

/-- A sample trie: the list of its entries, latest first; `Put` refuses an empty value;
the hash is 32 bytes that sum up the entries, one byte for the number of entries and one
for the sum of their key and value bytes. -/
def sampleTrie : TrieOps (List (Bytes × Bytes)) where
  NewEmptyTrie := []
  Put := fun t key value =>
    if value = [] then .error "empty value"
    else .ok ((key, value) :: t.filter fun e => decide (e.1 ≠ key))
  Hash := fun t =>
    .ok (t.length % 256 :: (t.map fun e => e.1.sum + e.2.sum).sum % 256 ::
      List.replicate 30 0)

/-- A sample `scale.Marshal` of an index: its compact encoding. -/
def sampleMarshalIndex (i : Nat) : Except String Bytes := .ok (compactEncode i)

/-- A memory of 40 bytes for the ordered root: at 0 the SCALE encoding of the two values
`[7]` and `[8, 9]`, free from 6. -/
def sampleRootMemory : Bytes := [8, 4, 7, 8, 8, 9] ++ List.replicate 34 0

/-! ## imports.go: offchain transaction and network state -/

/-- Modelled from the spec: `transaction.Validity` (package `lib/transaction`, not among
the sources), the validity record with the five fields `transaction.NewValidity` is
given. -/
structure Validity where
  Priority : Nat
  Requires : List Bytes
  Provides : List Bytes
  Longevity : Nat
  Propagate : Bool
deriving DecidableEq, Repr

/-- Modelled from the spec: `transaction.ValidTransaction`, an extrinsic (`none` for a nil
slice) wrapped with its validity record. -/
structure ValidTransaction where
  Extrinsic : Option Bytes
  Validity : Validity
deriving DecidableEq, Repr

/-- Modelled from the spec: `transaction.NewValidity`. -/
def NewValidity (priority : Nat) (requires provides : List Bytes) (longevity : Nat)
    (propagate : Bool) : Validity :=
  ⟨priority, requires, provides, longevity, propagate⟩

/-- Modelled from the spec: `transaction.NewValidTransaction`. -/
def NewValidTransaction (extrinsic : Option Bytes) (validity : Validity) : ValidTransaction :=
  ⟨extrinsic, validity⟩

/-- The transaction pool `instanceContext.Transaction`, an external collaborator with
state `P`: `AddToPool` (the hash it returns is not read). -/
structure TransactionStateOps (P : Type) where
  AddToPool : P → ValidTransaction → P

/-- Function `ext_offchain_submit_transaction_version_1` (imports.go lines 1762 to 1786).
`unmarshal` is `scale.Unmarshal` into a `[]byte`; when it fails the extrinsic stays nil.
The result is the returned values, the returned error, the pool and the memory
afterwards. -/
def ext_offchain_submit_transaction_version_1 {P A : Type}
    (unmarshal : Bytes → Except String Bytes) (tx : TransactionStateOps P)
    (al : AllocatorOps A) (heap : Heap A) (pool : P) (args : List Value) :
    Option (List Value × Option Error × P × Heap A) :=
  match args.get? 0 with
  | some (.I64 data) =>
    match asMemorySlice heap.Memory data with
    | none => none
    | some extBytes =>
      let extrinsic : Option Bytes :=
        match unmarshal extBytes with
        | .error _ => none
        | .ok decoded => some decoded
      let txv := NewValidity 0 [[]] [[]] 0 false
      let vtx := NewValidTransaction extrinsic txv
      let pool1 := tx.AddToPool pool vtx
      match toWasmMemoryOptionalNil al heap with
      | none => none
      | some (ptr, _, heap1) => some (ptr, none, pool1, heap1)
  | _ => none

/-- Type `NetworkState` (network.go lines 18 to 21), a multiaddress being its bytes. -/
structure NetworkState where
  PeerID : String
  Multiaddrs : List Bytes
deriving DecidableEq, Repr

/-- Function `ext_offchain_network_state_version_1` (imports.go lines 1714 to 1735).
`network` is `runtimeCtx.Network` (`none` for nil) with its method `NetworkState`, and
`marshal` is `scale.Marshal` of a `common.NetworkState`.  The returned value is
`int64(ptr)` of the `uint32` pointer. -/
def ext_offchain_network_state_version_1 {N A : Type} (networkState : N → NetworkState)
    (marshal : NetworkState → Except String Bytes) (al : AllocatorOps A) (heap : Heap A)
    (network : Option N) : Option (List Value × Option Error × Heap A) :=
  match network with
  | none => some ([.I64 0], none, heap)
  | some net =>
    match marshal (networkState net) with
    | .error _ => some ([.I64 0], none, heap)
    | .ok nsEnc =>
      match toWasmMemorySized al heap nsEnc with
      | none => none
      | some (.error _) => some ([.I64 0], none, heap)
      | some (.ok (ptr, heap1)) => some ([.I64 (ptr : Int)], none, heap1)

/-- A sample transaction pool: the list of its transactions, latest first. -/
def samplePool : TransactionStateOps (List ValidTransaction) where
  AddToPool := fun pool vtx => vtx :: pool

/-- A sample `scale.Marshal` of a network state: the compact length of the peer id, its
characters, and the compact number of multiaddresses (the addresses are left out). -/
def sampleMarshalNetworkState (ns : NetworkState) : Except String Bytes :=
  .ok (compactEncode ns.PeerID.length ++ ns.PeerID.toList.map Char.toNat ++
    compactEncode ns.Multiaddrs.length)

/-! ## imports.go: storage writes and reads -/

/-- Modelled from the spec: helper `panicOnError` (its file is not among the sources): it
panics when the error is not nil, as its name says, and returns otherwise; `none` is the
panic. -/
def panicOnError (err : Option Error) : Option Unit :=
  match err with
  | some _ => none
  | none => some ()

/-- The error a storage write returns and the storage it leaves. -/
def storageWrite {S : Type} (storage : S) (result : Except String S) : Option Error × S :=
  match result with
  | .error err => (some (.foreign err), storage)
  | .ok storage1 => (none, storage1)

/-- Function `ext_storage_set_version_1` (imports.go lines 2149 to 2169).  The result is
the returned values (nil), the returned error and the storage afterwards. -/
def ext_storage_set_version_1 {S : Type} (st : StorageOps S) (memory : Bytes) (storage : S)
    (args : List Value) : Option (List Value × Option Error × S) :=
  match args.get? 0, args.get? 1 with
  | some (.I64 keySpan), some (.I64 valueSpan) =>
    match asMemorySlice memory keySpan, asMemorySlice memory valueSpan with
    | some key, some value =>
      let cp := value
      match storageWrite storage (st.Put storage key cp) with
      | (err, storage1) => (panicOnError err).map fun _ => ([], none, storage1)
    | _, _ => none
  | _, _ => none

/-- Function `ext_storage_clear_version_1` (imports.go lines 1936 to 1948). -/
def ext_storage_clear_version_1 {S : Type} (st : StorageOps S) (memory : Bytes) (storage : S)
    (args : List Value) : Option (List Value × Option Error × S) :=
  match args.get? 0 with
  | some (.I64 keySpan) =>
    match asMemorySlice memory keySpan with
    | none => none
    | some key =>
      match storageWrite storage (st.Delete storage key) with
      | (err, storage1) => (panicOnError err).map fun _ => ([], none, storage1)
  | _ => none

/-- Function `ext_storage_clear_prefix_version_1` (imports.go lines 1951 to 1963). -/
def ext_storage_clear_prefix_version_1 {S : Type} (st : StorageOps S) (memory : Bytes)
    (storage : S) (args : List Value) : Option (List Value × Option Error × S) :=
  match args.get? 0 with
  | some (.I64 prefixSpan) =>
    match asMemorySlice memory prefixSpan with
    | none => none
    | some keyPrefix =>
      match storageWrite storage (st.ClearPrefix storage keyPrefix) with
      | (err, storage1) => (panicOnError err).map fun _ => ([], none, storage1)
  | _ => none

/-- Function `ext_default_child_storage_storage_kill_version_1` (imports.go lines 1192 to
1203). -/
def ext_default_child_storage_storage_kill_version_1 {S : Type} (st : StorageOps S)
    (memory : Bytes) (storage : S) (args : List Value) :
    Option (List Value × Option Error × S) :=
  match args.get? 0 with
  | some (.I64 childStorageKeySpan) =>
    match asMemorySlice memory childStorageKeySpan with
    | none => none
    | some childStorageKey =>
      match storageWrite storage (st.DeleteChild storage childStorageKey) with
      | (err, storage1) => (panicOnError err).map fun _ => ([], none, storage1)
  | _ => none

/-- The storage overlay of the spec with writes that fail on a storage holding the key
`[255]` (a storage that refuses changes). -/
def sampleSealedStorage : StorageOps (List (Bytes × Bytes)) where
  ClearPrefixLimit := specStorage.ClearPrefixLimit
  DeleteChildLimit := specStorage.DeleteChildLimit
  Put := fun storage key value =>
    if storage.any (fun e => decide (e.1 = [255])) then .error "storage is sealed"
    else specStorage.Put storage key value
  Delete := fun storage key =>
    if storage.any (fun e => decide (e.1 = [255])) then .error "storage is sealed"
    else specStorage.Delete storage key
  ClearPrefix := fun storage keyPrefix =>
    if storage.any (fun e => decide (e.1 = [255])) then .error "storage is sealed"
    else specStorage.ClearPrefix storage keyPrefix
  DeleteChild := fun storage childKey =>
    if storage.any (fun e => decide (e.1 = [255])) then .error "storage is sealed"
    else specStorage.DeleteChild storage childKey
  Get := specStorage.Get
  GetChildStorage := specStorage.GetChildStorage

/-- Go slice expression `value[offset:]` with an integer offset; `none` is the runtime
panic for an offset that is negative or above the length. -/
def sliceFrom (value : Bytes) (offset : Int) : Option Bytes :=
  if 0 ≤ offset ∧ offset ≤ value.length then some (value.drop offset.toNat) else none

/-- Modelled from the spec: helper `splitPointerSize` (its file is not among the
sources): the pointer in the low 32 bits and the length in the high 32 bits of the
64-bit value. -/
def splitPointerSize (pointerSize : Int) : Nat × Nat :=
  ((pointerSize % 2 ^ 32).toNat, (pointerSize / 2 ^ 32 % 2 ^ 32).toNat)

/-- Modelled from the spec: helper `toWasmMemoryOptionalUint32`, which writes the
encoding of an optional `uint32`: `[0x00]` for a nil pointer, otherwise `[0x01]` and the
four little-endian bytes of the number. -/
def toWasmMemoryOptionalUint32 {A : Type} (al : AllocatorOps A) (heap : Heap A)
    (data : Option Nat) : Option (Except String (Int × Heap A)) :=
  toWasmMemory al heap
    (match data with
      | none => [0]
      | some size => 1 :: leBytes size 4)

/-- Function `ext_default_child_storage_read_version_1` (imports.go lines 978 to 1012).
The value is read as it comes (`none` for a nil slice, of length 0); the sum
`valueBuf+valueLen` is a `uint32` sum.  The result is the returned values, the returned
error and the memory afterwards. -/
def ext_default_child_storage_read_version_1 {S A : Type} (st : StorageOps S)
    (al : AllocatorOps A) (heap : Heap A) (storage : S) (args : List Value) :
    Option (List Value × Option Error × Heap A) :=
  match args.get? 0, args.get? 1, args.get? 2, args.get? 3 with
  | some (.I64 childStorageKey), some (.I64 key), some (.I64 valueOut), some (.I32 offset) =>
    match asMemorySlice heap.Memory childStorageKey, asMemorySlice heap.Memory key with
    | some keyToChild, some keyBytes =>
      match st.GetChildStorage storage keyToChild keyBytes with
      | .error _ => some ([.I64 0], none, heap)
      | .ok stored =>
        let value : Bytes := stored.getD []
        match splitPointerSize valueOut with
        | (valueBuf, valueLen) =>
          match sliceFrom value offset with
          | none => none
          | some fromOffset =>
            match copyToMemory heap.Memory valueBuf (((valueBuf + valueLen) % 2 ^ 32 : Nat) : Int)
              fromOffset with
            | none => none
            | some memory =>
              let size := fromOffset.length % 2 ^ 32
              let sizeBuf := leBytes size 4
              match toWasmMemoryOptional al ⟨memory, heap.Allocator⟩ (some sizeBuf) with
              | none => none
              | some (.error _) => some ([.I64 0], none, ⟨memory, heap.Allocator⟩)
              | some (.ok (sizeSpan, heap1)) => some ([.I64 sizeSpan], none, heap1)
    | _, _ => none
  | _, _, _, _ => none

/-- Function `ext_storage_read_version_1` (imports.go lines 2079 to 2114).  The test
`uint32(offset) <= uint32(len(value))` compares the two numbers modulo 2^32. -/
def ext_storage_read_version_1 {S A : Type} (st : StorageOps S) (al : AllocatorOps A)
    (heap : Heap A) (storage : S) (args : List Value) :
    Option (List Value × Option Error × Heap A) :=
  match args.get? 0, args.get? 1, args.get? 2 with
  | some (.I64 keySpan), some (.I64 valueOut), some (.I32 offset) =>
    match asMemorySlice heap.Memory keySpan with
    | none => none
    | some key =>
      match st.Get storage key with
      | none =>
        match mustToWasmMemoryOptionalNil al heap with
        | none => none
        | some (values, heap1) => some (values, none, heap1)
      | some value =>
        let copied : Option (Nat × Bytes) :=
          if offset % 2 ^ 32 ≤ (value.length : Int) % 2 ^ 32 then
            match sliceFrom value offset with
            | none => none
            | some fromOffset =>
              match splitPointerSize valueOut with
              | (valueBuf, valueLen) =>
                (copyToMemory heap.Memory valueBuf
                  (((valueBuf + valueLen) % 2 ^ 32 : Nat) : Int) fromOffset).map
                  fun memory => (fromOffset.length % 2 ^ 32, memory)
          else some (0, heap.Memory)
        match copied with
        | none => none
        | some (size, memory) =>
          match toWasmMemoryOptionalUint32 al ⟨memory, heap.Allocator⟩ (some size) with
          | none => none
          | some (.error _) => some ([.I64 0], none, ⟨memory, heap.Allocator⟩)
          | some (.ok (sizeSpan, heap1)) => some ([.I64 sizeSpan], none, heap1)
  | _, _, _ => none

/-- A memory of 32 bytes for the read imports: the child key `[3]` at 0, the key `[9]` at
1, the key `[8]` at 2, an output buffer of two bytes at 3, free from 5. -/
def sampleReadMemory : Bytes := [3, 9, 8, 0, 0] ++ List.replicate 27 0

/-! ## imports.go: offchain local storage, get, set and clear -/

/-- Function `ext_offchain_local_storage_clear_version_1` (imports.go lines 1574 to
1598).  The kind tested is the `uint32` read from the memory at `kind`.  The result is
the returned values (nil), the returned error and the node storage afterwards. -/
def ext_offchain_local_storage_clear_version_1 {D : Type} (db : BasicStorageOps D)
    (memory : Bytes) (nodeStorage : NodeStorage D) (args : List Value) :
    Option (List Value × Option Error × NodeStorage D) :=
  match args.get? 0, args.get? 1 with
  | some (.I32 kind), some (.I64 key) =>
    match asMemorySlice memory key with
    | none => none
    | some storageKey =>
      match sliceInt memory kind (addInt32 kind 4) with
      | none => none
      | some kindBytes =>
        match uint32LE kindBytes with
        | none => none
        | some kindInt =>
          if (kindInt : Int) = NodeStorageTypePersistent then
            match db.Del nodeStorage.PersistentStorage storageKey with
            | .error _ => some ([], none, nodeStorage)
            | .ok persistentStorage =>
              some ([], none, ⟨persistentStorage, nodeStorage.LocalStorage⟩)
          else if (kindInt : Int) = NodeStorageTypeLocal then
            match db.Del nodeStorage.LocalStorage storageKey with
            | .error _ => some ([], none, nodeStorage)
            | .ok localStorage => some ([], none, ⟨nodeStorage.PersistentStorage, localStorage⟩)
          else some ([], none, nodeStorage)
  | _, _ => none

/-- Function `ext_offchain_local_storage_get_version_1` (imports.go lines 1654 to 1683).
After a failed `Get` the result written is the nil slice.  The result is the returned
values, the returned error and the memory afterwards. -/
def ext_offchain_local_storage_get_version_1 {D A : Type} (db : BasicStorageOps D)
    (al : AllocatorOps A) (heap : Heap A) (nodeStorage : NodeStorage D) (args : List Value) :
    Option (List Value × Option Error × Heap A) :=
  match args.get? 0, args.get? 1 with
  | some (.I32 kind), some (.I64 key) =>
    match asMemorySlice heap.Memory key with
    | none => none
    | some storageKey =>
      let got : Except String (Option Bytes) :=
        if kind = NodeStorageTypePersistent then
          db.Get nodeStorage.PersistentStorage storageKey
        else if kind = NodeStorageTypeLocal then
          db.Get nodeStorage.LocalStorage storageKey
        else .ok none
      let res : Option Bytes :=
        match got with
        | .error _ => none
        | .ok stored => stored
      match toWasmMemoryOptional al heap res with
      | none => none
      | some (.error _) => some ([.I64 0], none, heap)
      | some (.ok (ptr, heap1)) => some ([.I64 ptr], none, heap1)
  | _, _ => none

/-- Function `ext_offchain_local_storage_set_version_1` (imports.go lines 1686 to 1711).
The result is the returned values (nil), the returned error and the node storage
afterwards. -/
def ext_offchain_local_storage_set_version_1 {D : Type} (db : BasicStorageOps D)
    (memory : Bytes) (nodeStorage : NodeStorage D) (args : List Value) :
    Option (List Value × Option Error × NodeStorage D) :=
  match args.get? 0, args.get? 1, args.get? 2 with
  | some (.I32 kind), some (.I64 key), some (.I64 value) =>
    match asMemorySlice memory key, asMemorySlice memory value with
    | some storageKey, some newValue =>
      let cp := newValue
      if kind = NodeStorageTypePersistent then
        match db.Put nodeStorage.PersistentStorage storageKey cp with
        | .error _ => some ([], none, nodeStorage)
        | .ok persistentStorage =>
          some ([], none, ⟨persistentStorage, nodeStorage.LocalStorage⟩)
      else if kind = NodeStorageTypeLocal then
        match db.Put nodeStorage.LocalStorage storageKey cp with
        | .error _ => some ([], none, nodeStorage)
        | .ok localStorage => some ([], none, ⟨nodeStorage.PersistentStorage, localStorage⟩)
      else some ([], none, nodeStorage)
    | _, _ => none
  | _, _, _ => none

/-- A memory of 16 bytes for the local-storage imports: the key `[9]` at 0, the value `[7]`
at 1, the bytes `01 00 00 00` at 2, free from 6. -/
def sampleLocalMemory : Bytes := [9, 7, 1, 0, 0, 0] ++ List.replicate 10 0

/-! ## The byte-vector decoding of the limit -/

/-- The number with the given little-endian bytes. -/
def ofLeBytes : Bytes → Nat
  | [] => 0
  | b :: rest => b + 256 * ofLeBytes rest

/-- Modelled from the spec: the decoding of a compact length (package `pkg/scale`, not
among the sources), the inverse of `compactEncode`: the two low bits of the first byte
say whether the length is the rest of that byte, of two bytes, of four bytes, or the
little-endian integer in the `n + 4` bytes that follow a first byte `(n<<2)|3`.  The
result is the length and the bytes after it. -/
def compactDecode : Bytes → Option (Nat × Bytes)
  | [] => none
  | b :: rest =>
    if b % 4 = 0 then some (b / 4, rest)
    else if b % 4 = 1 then
      if 1 ≤ rest.length then some (ofLeBytes (b :: rest.take 1) / 4, rest.drop 1) else none
    else if b % 4 = 2 then
      if 3 ≤ rest.length then some (ofLeBytes (b :: rest.take 3) / 4, rest.drop 3) else none
    else
      if b / 4 + 4 ≤ rest.length then
        some (ofLeBytes (rest.take (b / 4 + 4)), rest.drop (b / 4 + 4))
      else none

/-- Modelled from the spec: `scale.Unmarshal` into a `[]byte`, a byte vector being its
compact length followed by that many bytes; bytes after the vector are not read. -/
def specUnmarshalBytes (data : Bytes) : Except String Bytes :=
  match compactDecode data with
  | none => .error "cannot decode the compact length"
  | some (length, rest) =>
    if length ≤ rest.length then .ok (rest.take length)
    else .error "unexpected end of input"

/-- A memory of 40 bytes for `ext_storage_clear_prefix_version_2`: the prefix `[9]` at 0,
the limit Some(0) in the Option encoding, `01 00 00 00 00`, at 1, free from 6. -/
def sampleSomeZeroMemory : Bytes := [9, 1, 0, 0, 0, 0] ++ List.replicate 34 0

/-- A sample algorithm that, like the ed25519 package, refuses a public key only for a
wrong length (32 bytes) and reports a verification error only for a signature that is not
64 bytes long, and whose signing does not fail.  A key pair is its seed, with itself as
public key; a signature is valid when its first byte is the first byte of the message. -/
def lengthCheckedAlgorithm : Algorithm Bytes Bytes where
  NewPublicKey := fun b => if b.length = 32 then .ok b else .error "invalid public key length"
  Encode := fun pk => pk
  Verify := fun _ msg sig =>
    if sig.length = 64 then (decide (sig.head? = msg.head?), none)
    else (false, some "invalid signature length")
  VerifyDeprecated := fun _ msg sig =>
    if sig.length = 64 then (decide (sig.head? = msg.head?), none)
    else (false, some "invalid signature length")
  NewKeypairFromMnenomic := fun seed =>
    if seed = [] then .error "invalid mnemonic" else .ok seed
  GenerateKeypair := .ok [1, 2, 3]
  Public := fun kp => kp
  Sign := fun _ msg => (msg, none)

/-- A sample codec without collisions, on encodings that are bytes (an encoding with an
element above 255 neither decodes nor has a Merkle value).  The nodes are those of
`sampleExt`.  The root Merkle value of an encoding, and the non-root Merkle value of an
encoding of more than 32 bytes, is a digest, here the encoding followed by 33 zero
bytes; the non-root Merkle value of a shorter encoding is the encoding. -/
def digestExt : Externals where
  Decode := fun encoding =>
    if encoding.all (fun x => decide (x < 256)) then sampleExt.Decode encoding
    else .error "not a byte string"
  MerkleValue := fun encoding isRoot =>
    if encoding.all (fun x => decide (x < 256)) then
      .ok (if isRoot = true ∨ 32 < encoding.length then encoding ++ List.replicate 33 0
        else encoding)
    else .error "not a byte string"
  Get := sampleExt.Get

/-! # Properties -/

/-! ## Errors -/

theorem Error.Is_errorf_new (format text : String) (wrapped : Error) :
    (Error.errorf format wrapped).Is (.new text) = wrapped.Is (.new text) := by
  simp [Error.Is]

/-! ## Node fields -/

@[simp] theorem Node.HashDigest_setHashDigest (n : Node) (h : Bytes) :
    (n.setHashDigest h).HashDigest = h := by
  cases n; rfl

@[simp] theorem Node.Children_setHashDigest (n : Node) (h : Bytes) :
    (n.setHashDigest h).Children = n.Children := by
  cases n; rfl

@[simp] theorem Node.setHashDigest_setHashDigest (n : Node) (h g : Bytes) :
    (n.setHashDigest h).setHashDigest g = n.setHashDigest g := by
  cases n; rfl

theorem Node.TypeOf_of_Children_none {n : Node} (h : n.Children = none) :
    n.TypeOf = .Leaf := by
  cases n with
  | mk k v c d hd e => cases c with
    | none => rfl
    | some cs => cases h

theorem Node.TypeOf_of_Children_some {n : Node} {cs : List (Option Node)}
    (h : n.Children = some cs) : n.TypeOf = .Branch := by
  cases n with
  | mk k v c d hd e => cases c with
    | none => cases h
    | some cs => rfl

/-! ## The loop of buildTrie -/

theorem ProofMap.set_set (m : ProofMap) (k : String) (a b : Node) :
    (m.set k a).set k b = m.set k b := by
  funext x
  by_cases h : x = k <;> simp [ProofMap.set, h]

theorem ProofMap.set_comm (m : ProofMap) (k l : String) (a b : Node) (h : k ≠ l) :
    (m.set k a).set l b = (m.set l b).set k a := by
  funext x
  by_cases hk : x = k
  · subst hk; simp [ProofMap.set, h]
  · by_cases hl : x = l
    · subst hl; simp [ProofMap.set, hk]
    · simp [ProofMap.set, hk, hl]

theorem nodeOk_iff (ext : Externals) (enc : Bytes) :
    nodeOk ext enc = true ↔
      ∃ n k, indexedNode ext enc = some n ∧ proofHashOf ext enc = some k := by
  unfold nodeOk indexedNode proofHashOf
  cases ext.Decode enc <;> cases ext.MerkleValue enc false <;> simp

/-- An iteration on a decodable node when the root is already found: the node is only
indexed. -/
theorem buildTrieStep_of_root {ext : Externals} {rootHash enc : Bytes} {st : LoopState}
    {r n : Node} {k : String} (hr : st.root = some r)
    (hn : indexedNode ext enc = some n) (hk : proofHashOf ext enc = some k) :
    buildTrieStep ext rootHash st enc = .ok ⟨st.proofHashToNode.set k n, some r⟩ := by
  unfold indexedNode at hn
  unfold proofHashOf at hk
  unfold buildTrieStep
  cases hd : ext.Decode enc <;> cases hm : ext.MerkleValue enc false <;>
    simp [hd, hm] at hn hk
  subst hn; subst hk
  simp [hr]

/-- An iteration on a decodable node that matches the root hash, the root not being found
yet: the node becomes the root, with the root hash as its hash digest. -/
theorem buildTrieStep_of_match {ext : Externals} {rootHash enc : Bytes} {st : LoopState}
    {n : Node} {k : String} (hr : st.root = none)
    (hn : indexedNode ext enc = some n) (hk : proofHashOf ext enc = some k)
    (hm : rootMatches ext rootHash enc = true) :
    buildTrieStep ext rootHash st enc =
      .ok ⟨st.proofHashToNode.set k (n.setHashDigest rootHash),
        some (n.setHashDigest rootHash)⟩ := by
  unfold indexedNode at hn
  unfold proofHashOf at hk
  unfold rootMatches rootMerkleValue at hm
  unfold buildTrieStep
  cases hd : ext.Decode enc <;> cases hv : ext.MerkleValue enc false <;>
    simp only [hd, hv, reduceCtorEq, Option.some.injEq] at hn hk hm
  subst hn; subst hk
  simp only [hr, Node.HashDigest_setHashDigest]
  rename_i d v
  by_cases hlen : v.length ≤ 32
  · simp only [hlen, if_true] at hm ⊢
    cases hv2 : ext.MerkleValue enc true <;> simp [hv2] at hm
    subst hm
    simp [ProofMap.set_set]
  · simp only [hlen, if_false] at hm ⊢
    simp at hm
    subst hm
    simp [ProofMap.set_set]

/-- An iteration on a decodable node that does not match the root hash, the root not being
found yet. -/
theorem buildTrieStep_of_no_match {ext : Externals} {rootHash enc : Bytes} {st : LoopState}
    {n : Node} {k : String} (hr : st.root = none)
    (hn : indexedNode ext enc = some n) (hk : proofHashOf ext enc = some k)
    (hc : merkleOk ext enc = true) (hm : rootMatches ext rootHash enc = false) :
    buildTrieStep ext rootHash st enc = .ok ⟨st.proofHashToNode.set k n, none⟩ := by
  unfold indexedNode at hn
  unfold proofHashOf at hk
  unfold rootMatches at hm
  unfold merkleOk at hc
  unfold rootMerkleValue at hm hc
  unfold buildTrieStep
  cases hd : ext.Decode enc <;> cases hv : ext.MerkleValue enc false <;>
    simp only [hd, hv, reduceCtorEq, Option.some.injEq] at hn hk hm hc
  subst hn; subst hk
  simp only [hr, Node.HashDigest_setHashDigest]
  rename_i d v
  by_cases hlen : v.length ≤ 32
  · simp only [hlen, if_true] at hm hc ⊢
    cases hv2 : ext.MerkleValue enc true <;> simp [hv2] at hm hc
    simp [hm]
  · simp only [hlen, if_false] at hm ⊢
    simp at hm
    simp [hm]

theorem buildTrieStep_error_Is {ext : Externals} {rootHash enc : Bytes} {st : LoopState}
    {e : Error} (h : buildTrieStep ext rootHash st enc = .error e) (text : String) :
    e.Is (.new text) = false := by
  unfold buildTrieStep at h
  cases hd : ext.Decode enc with
  | error err => simp [hd] at h; subst h; simp [Error.Is]
  | ok d =>
    cases hv : ext.MerkleValue enc false with
    | error err => simp [hd, hv] at h; subst h; simp [Error.Is]
    | ok v =>
      cases hr : st.root with
      | some r => simp [hd, hv, hr] at h
      | none =>
        simp only [hd, hv, hr, Node.HashDigest_setHashDigest] at h
        by_cases hlen : v.length ≤ 32
        · simp only [hlen, if_true] at h
          cases hv2 : ext.MerkleValue enc true with
          | error err => simp [hv2] at h; subst h; simp [Error.Is]
          | ok w =>
            simp only [hv2] at h
            split at h <;> simp at h
        · simp only [hlen, if_false] at h
          split at h <;> simp at h

theorem buildTrieStep_error_of_not_nodeOk {ext : Externals} (rootHash : Bytes) {enc : Bytes}
    (st : LoopState) (h : nodeOk ext enc = false) :
    ∃ e, buildTrieStep ext rootHash st enc = .error e := by
  unfold nodeOk at h
  unfold buildTrieStep
  cases hd : ext.Decode enc with
  | error err => exact ⟨_, rfl⟩
  | ok d =>
    cases hv : ext.MerkleValue enc false with
    | error err => exact ⟨_, rfl⟩
    | ok v => simp [hd, hv] at h

theorem buildTrieStep_error_of_not_merkleOk {ext : Externals} (rootHash : Bytes) {enc : Bytes}
    {st : LoopState} (hr : st.root = none) (h : merkleOk ext enc = false) :
    ∃ e, buildTrieStep ext rootHash st enc = .error e := by
  unfold merkleOk rootMerkleValue at h
  unfold buildTrieStep
  cases hd : ext.Decode enc with
  | error err => exact ⟨_, rfl⟩
  | ok d =>
    cases hv : ext.MerkleValue enc false with
    | error err => exact ⟨_, rfl⟩
    | ok v =>
      simp only [hv] at h
      simp only [hr, Node.HashDigest_setHashDigest]
      by_cases hlen : v.length ≤ 32
      · simp only [hlen, if_true] at h ⊢
        cases hv2 : ext.MerkleValue enc true with
        | error err => exact ⟨_, rfl⟩
        | ok w => simp [hv2] at h
      · simp [hlen] at h

/-- What a successful iteration of the loop of `buildTrie` does. -/
theorem buildTrieStep_ok_inv {ext : Externals} {rootHash enc : Bytes} {st st1 : LoopState}
    (h : buildTrieStep ext rootHash st enc = .ok st1) :
    ∃ n k, indexedNode ext enc = some n ∧ proofHashOf ext enc = some k ∧
      ((∃ r, st.root = some r ∧ st1 = ⟨st.proofHashToNode.set k n, some r⟩) ∨
       (st.root = none ∧ rootMatches ext rootHash enc = true ∧
          st1 = ⟨st.proofHashToNode.set k (n.setHashDigest rootHash),
            some (n.setHashDigest rootHash)⟩) ∨
       (st.root = none ∧ merkleOk ext enc = true ∧ rootMatches ext rootHash enc = false ∧
          st1 = ⟨st.proofHashToNode.set k n, none⟩)) := by
  cases hok : nodeOk ext enc with
  | false =>
    obtain ⟨e, he⟩ := buildTrieStep_error_of_not_nodeOk rootHash st hok
    rw [he] at h; cases h
  | true =>
    obtain ⟨n, k, hn, hk⟩ := (nodeOk_iff ext enc).1 hok
    refine ⟨n, k, hn, hk, ?_⟩
    cases hr : st.root with
    | some r =>
      rw [buildTrieStep_of_root hr hn hk] at h
      injection h with h
      exact Or.inl ⟨r, rfl, h.symm⟩
    | none =>
      cases hm : rootMatches ext rootHash enc with
      | true =>
        rw [buildTrieStep_of_match hr hn hk hm] at h
        injection h with h
        exact Or.inr (Or.inl ⟨rfl, rfl, h.symm⟩)
      | false =>
        cases hc : merkleOk ext enc with
        | false =>
          obtain ⟨e, he⟩ := buildTrieStep_error_of_not_merkleOk rootHash hr hc
          rw [he] at h; cases h
        | true =>
          rw [buildTrieStep_of_no_match hr hn hk hc hm] at h
          injection h with h
          exact Or.inr (Or.inr ⟨rfl, rfl, rfl, h.symm⟩)

theorem buildTrieLoop_error_Is {ext : Externals} {rootHash : Bytes} {e : Error}
    (text : String) (P : List Bytes) :
    ∀ st : LoopState, buildTrieLoop ext rootHash st P = .error e → e.Is (.new text) = false := by
  induction P with
  | nil => intro st h; simp [buildTrieLoop] at h
  | cons enc rest ih =>
    intro st h
    unfold buildTrieLoop at h
    cases hs : buildTrieStep ext rootHash st enc with
    | error err =>
      simp only [hs] at h
      injection h with h
      subst h
      exact buildTrieStep_error_Is hs text
    | ok st1 =>
      simp only [hs] at h
      exact ih st1 h

theorem buildTrieLoop_append (ext : Externals) (rootHash : Bytes) (A B : List Bytes) :
    ∀ st : LoopState, buildTrieLoop ext rootHash st (A ++ B) =
      match buildTrieLoop ext rootHash st A with
      | .error err => .error err
      | .ok st1 => buildTrieLoop ext rootHash st1 B := by
  induction A with
  | nil => intro st; simp [buildTrieLoop]
  | cons enc rest ih =>
    intro st
    simp only [List.cons_append, buildTrieLoop]
    cases hs : buildTrieStep ext rootHash st enc with
    | error err => rfl
    | ok st1 => simpa using ih st1

/-- A loop over decodable nodes none of which matches the root hash leaves the root
unset. -/
theorem buildTrieLoop_no_match {ext : Externals} {rootHash : Bytes} (P : List Bytes)
    (hok : ∀ enc ∈ P, nodeOk ext enc = true ∧ merkleOk ext enc = true)
    (hno : ∀ enc ∈ P, rootMatches ext rootHash enc = false) :
    ∀ st : LoopState, st.root = none →
      ∃ m, buildTrieLoop ext rootHash st P = .ok ⟨m, none⟩ := by
  induction P with
  | nil => intro st hr; exact ⟨st.proofHashToNode, by cases st; simp_all [buildTrieLoop]⟩
  | cons enc rest ih =>
    intro st hr
    obtain ⟨hn1, hc1⟩ := hok enc (List.mem_cons_self _ _)
    obtain ⟨n, k, hn, hk⟩ := (nodeOk_iff ext enc).1 hn1
    have hstep := @buildTrieStep_of_no_match ext rootHash enc st n k hr hn hk hc1
      (hno enc (List.mem_cons_self _ _))
    unfold buildTrieLoop
    simp only [hstep]
    exact ih (fun e he => hok e (List.mem_cons_of_mem _ he))
      (fun e he => hno e (List.mem_cons_of_mem _ he)) _ rfl

/-- Once the root is found, or when a node of the proof matches the root hash, a loop that
ends without error ends with a root. -/
theorem buildTrieLoop_root_isSome {ext : Externals} {rootHash : Bytes} (P : List Bytes) :
    ∀ st st1 : LoopState, buildTrieLoop ext rootHash st P = .ok st1 →
      (st.root.isSome = true ∨ ∃ enc ∈ P, rootMatches ext rootHash enc = true) →
      st1.root.isSome = true := by
  induction P with
  | nil =>
    intro st st1 h hm
    simp only [buildTrieLoop] at h
    injection h with h
    subst h
    rcases hm with hm | ⟨enc, he, _⟩
    · exact hm
    · cases he
  | cons enc rest ih =>
    intro st st1 h hm
    unfold buildTrieLoop at h
    cases hs : buildTrieStep ext rootHash st enc with
    | error err => simp [hs] at h
    | ok st2 =>
      simp only [hs] at h
      apply ih st2 st1 h
      obtain ⟨n, k, -, -, hcase⟩ := buildTrieStep_ok_inv hs
      rcases hcase with ⟨r, -, h2⟩ | ⟨-, -, h2⟩ | ⟨hr, -, hnm, h2⟩
      · left; subst h2; rfl
      · left; subst h2; rfl
      · right
        rcases hm with hm | ⟨enc1, he, hm1⟩
        · simp [hr] at hm
        · rcases List.mem_cons.1 he with he | he
          · subst he; rw [hnm] at hm1; cases hm1
          · exact ⟨enc1, he, hm1⟩

/-- Once the root is found, a loop over decodable nodes only indexes them: the root is
kept, and the map changes only at the proof hashes of these nodes. -/
theorem buildTrieLoop_of_root {ext : Externals} {rootHash : Bytes} {r : Node}
    (P : List Bytes) (hok : ∀ enc ∈ P, nodeOk ext enc = true) :
    ∀ st : LoopState, st.root = some r →
      ∃ m, buildTrieLoop ext rootHash st P = .ok ⟨m, some r⟩ ∧
        ∀ k, (∀ enc ∈ P, proofHashOf ext enc ≠ some k) → m k = st.proofHashToNode k := by
  induction P with
  | nil =>
    intro st hr
    refine ⟨st.proofHashToNode, ?_, fun _ _ => rfl⟩
    cases st
    simp_all [buildTrieLoop]
  | cons enc rest ih =>
    intro st hr
    obtain ⟨n, k, hn, hk⟩ := (nodeOk_iff ext enc).1 (hok enc (List.mem_cons_self _ _))
    have hstep := @buildTrieStep_of_root ext rootHash enc st r n k hr hn hk
    obtain ⟨m, hm, hmk⟩ := ih (fun e he => hok e (List.mem_cons_of_mem _ he))
      ⟨st.proofHashToNode.set k n, some r⟩ rfl
    refine ⟨m, ?_, ?_⟩
    · unfold buildTrieLoop
      simp only [hstep]
      exact hm
    · intro k1 hk1
      rw [hmk k1 (fun e he => hk1 e (List.mem_cons_of_mem _ he))]
      have hne : k1 ≠ k := by
        intro h
        apply hk1 enc (List.mem_cons_self _ _)
        rw [hk, h]
      simp [ProofMap.set, hne]

/-- A list with an element satisfying a test splits at the first such element. -/
theorem exists_first_of_any {α : Type} (p : α → Bool) (l : List α)
    (h : ∃ a ∈ l, p a = true) :
    ∃ A a B, l = A ++ a :: B ∧ (∀ x ∈ A, p x = false) ∧ p a = true := by
  induction l with
  | nil => obtain ⟨a, ha, _⟩ := h; cases ha
  | cons x rest ih =>
    cases hx : p x with
    | true =>
      refine ⟨[], x, rest, rfl, ?_, hx⟩
      intro y hy
      cases hy
    | false =>
      have h1 : ∃ a ∈ rest, p a = true := by
        obtain ⟨a, ha, hpa⟩ := h
        rcases List.mem_cons.1 ha with ha | ha
        · subst ha; rw [hx] at hpa; cases hpa
        · exact ⟨a, ha, hpa⟩
      obtain ⟨A, a, B, hl, hA, ha⟩ := ih h1
      refine ⟨x :: A, a, B, by simp [hl], ?_, ha⟩
      intro y hy
      rcases List.mem_cons.1 hy with hy | hy
      · subst hy; exact hx
      · exact hA y hy

/-- The loop of `buildTrie` on a proof of decodable nodes takes the first node that
matches the root hash as root, whatever follows it. -/
theorem buildTrieLoop_of_first_match {ext : Externals} {rootHash : Bytes}
    (A B : List Bytes) (enc : Bytes) {n : Node}
    (hA : ∀ a ∈ A, nodeOk ext a = true ∧ merkleOk ext a = true)
    (hnoA : ∀ a ∈ A, rootMatches ext rootHash a = false)
    (hn : indexedNode ext enc = some n) (hmatch : rootMatches ext rootHash enc = true)
    (hB : ∀ b ∈ B, nodeOk ext b = true) :
    ∃ m, buildTrieLoop ext rootHash ⟨ProofMap.empty, none⟩ (A ++ enc :: B) =
      .ok ⟨m, some (n.setHashDigest rootHash)⟩ := by
  obtain ⟨mA, hmA⟩ := buildTrieLoop_no_match A hA hnoA ⟨ProofMap.empty, none⟩ rfl
  have hk : ∃ k, proofHashOf ext enc = some k := by
    have : nodeOk ext enc = true := by
      unfold indexedNode at hn
      unfold nodeOk
      cases hd : ext.Decode enc <;> cases hv : ext.MerkleValue enc false <;>
        simp [hd, hv] at hn ⊢
    obtain ⟨_, k, _, hk⟩ := (nodeOk_iff ext enc).1 this
    exact ⟨k, hk⟩
  obtain ⟨k, hk⟩ := hk
  have hstep := @buildTrieStep_of_match ext rootHash enc ⟨mA, none⟩ n k rfl hn hk hmatch
  obtain ⟨m, hm, -⟩ := @buildTrieLoop_of_root ext rootHash (n.setHashDigest rootHash) B hB
    ⟨mA.set k (n.setHashDigest rootHash), some (n.setHashDigest rootHash)⟩ rfl
  refine ⟨m, ?_⟩
  rw [buildTrieLoop_append, hmA]
  simp only [buildTrieLoop, hstep]
  exact hm

theorem buildTrieLoop_cons_ok {ext : Externals} {rootHash enc : Bytes} {st st1 : LoopState}
    (rest : List Bytes) (h : buildTrieStep ext rootHash st enc = .ok st1) :
    buildTrieLoop ext rootHash st (enc :: rest) = buildTrieLoop ext rootHash st1 rest := by
  simp only [buildTrieLoop, h]

theorem buildTrieLoop_cons_error {ext : Externals} {rootHash enc : Bytes} {st : LoopState}
    {e : Error} (rest : List Bytes) (h : buildTrieStep ext rootHash st enc = .error e) :
    buildTrieLoop ext rootHash st (enc :: rest) = .error e := by
  simp only [buildTrieLoop, h]

/-- A proof with a node that does not decode, or whose Merkle value cannot be computed,
makes the loop of `buildTrie` fail. -/
theorem buildTrieLoop_error_of_not_nodeOk {ext : Externals} {rootHash : Bytes}
    (P : List Bytes) (h : ∃ a ∈ P, nodeOk ext a = false) :
    ∀ st : LoopState, ∃ e, buildTrieLoop ext rootHash st P = .error e := by
  induction P with
  | nil => obtain ⟨a, ha, _⟩ := h; cases ha
  | cons enc rest ih =>
    intro st
    cases hs : buildTrieStep ext rootHash st enc with
    | error err => exact ⟨err, buildTrieLoop_cons_error rest hs⟩
    | ok st1 =>
      rw [buildTrieLoop_cons_ok rest hs]
      apply ih
      obtain ⟨a, ha, hbad⟩ := h
      rcases List.mem_cons.1 ha with ha | ha
      · subst ha
        obtain ⟨e, he⟩ := buildTrieStep_error_of_not_nodeOk rootHash st hbad
        rw [he] at hs; cases hs
      · exact ⟨a, ha, hbad⟩

/-- Two consecutive iterations of the loop of `buildTrie` can be exchanged when the two
nodes decode, have computable Merkle values, and are equal if they have the same proof
hash or both match the root hash. -/
theorem buildTrieLoop_swap {ext : Externals} {rootHash : Bytes} (a b : Bytes)
    (rest : List Bytes)
    (ha : nodeOk ext a = true ∧ merkleOk ext a = true)
    (hb : nodeOk ext b = true ∧ merkleOk ext b = true)
    (hkey : proofHashOf ext a = proofHashOf ext b → a = b)
    (hroot : rootMatches ext rootHash a = true → rootMatches ext rootHash b = true → a = b)
    (st : LoopState) :
    buildTrieLoop ext rootHash st (a :: b :: rest) =
      buildTrieLoop ext rootHash st (b :: a :: rest) := by
  by_cases hab : a = b
  · subst hab; rfl
  obtain ⟨na, ka, hna, hka⟩ := (nodeOk_iff ext a).1 ha.1
  obtain ⟨nb, kb, hnb, hkb⟩ := (nodeOk_iff ext b).1 hb.1
  have hne : ka ≠ kb := by
    intro h
    apply hab
    apply hkey
    rw [hka, hkb, h]
  cases hr : st.root with
  | some r =>
    have s1 := @buildTrieStep_of_root ext rootHash a st r na ka hr hna hka
    have s2 := @buildTrieStep_of_root ext rootHash b ⟨st.proofHashToNode.set ka na, some r⟩
      r nb kb rfl hnb hkb
    have t1 := @buildTrieStep_of_root ext rootHash b st r nb kb hr hnb hkb
    have t2 := @buildTrieStep_of_root ext rootHash a ⟨st.proofHashToNode.set kb nb, some r⟩
      r na ka rfl hna hka
    rw [buildTrieLoop_cons_ok _ s1, buildTrieLoop_cons_ok _ s2, buildTrieLoop_cons_ok _ t1,
      buildTrieLoop_cons_ok _ t2, ProofMap.set_comm _ _ _ _ _ hne]
  | none =>
    cases hma : rootMatches ext rootHash a with
    | true =>
      cases hmb : rootMatches ext rootHash b with
      | true => exact absurd (hroot hma hmb) hab
      | false =>
        have s1 := @buildTrieStep_of_match ext rootHash a st na ka hr hna hka hma
        have s2 := @buildTrieStep_of_root ext rootHash b
          ⟨st.proofHashToNode.set ka (na.setHashDigest rootHash),
            some (na.setHashDigest rootHash)⟩ _ nb kb rfl hnb hkb
        have t1 := @buildTrieStep_of_no_match ext rootHash b st nb kb hr hnb hkb hb.2 hmb
        have t2 := @buildTrieStep_of_match ext rootHash a ⟨st.proofHashToNode.set kb nb, none⟩
          na ka rfl hna hka hma
        rw [buildTrieLoop_cons_ok _ s1, buildTrieLoop_cons_ok _ s2,
          buildTrieLoop_cons_ok _ t1, buildTrieLoop_cons_ok _ t2,
          ProofMap.set_comm _ _ _ _ _ hne]
    | false =>
      cases hmb : rootMatches ext rootHash b with
      | true =>
        have s1 := @buildTrieStep_of_no_match ext rootHash a st na ka hr hna hka ha.2 hma
        have s2 := @buildTrieStep_of_match ext rootHash b ⟨st.proofHashToNode.set ka na, none⟩
          nb kb rfl hnb hkb hmb
        have t1 := @buildTrieStep_of_match ext rootHash b st nb kb hr hnb hkb hmb
        have t2 := @buildTrieStep_of_root ext rootHash a
          ⟨st.proofHashToNode.set kb (nb.setHashDigest rootHash),
            some (nb.setHashDigest rootHash)⟩ _ na ka rfl hna hka
        rw [buildTrieLoop_cons_ok _ s1, buildTrieLoop_cons_ok _ s2,
          buildTrieLoop_cons_ok _ t1, buildTrieLoop_cons_ok _ t2,
          ProofMap.set_comm _ _ _ _ _ hne]
      | false =>
        have s1 := @buildTrieStep_of_no_match ext rootHash a st na ka hr hna hka ha.2 hma
        have s2 := @buildTrieStep_of_no_match ext rootHash b
          ⟨st.proofHashToNode.set ka na, none⟩ nb kb rfl hnb hkb hb.2 hmb
        have t1 := @buildTrieStep_of_no_match ext rootHash b st nb kb hr hnb hkb hb.2 hmb
        have t2 := @buildTrieStep_of_no_match ext rootHash a
          ⟨st.proofHashToNode.set kb nb, none⟩ na ka rfl hna hka ha.2 hma
        rw [buildTrieLoop_cons_ok _ s1, buildTrieLoop_cons_ok _ s2,
          buildTrieLoop_cons_ok _ t1, buildTrieLoop_cons_ok _ t2,
          ProofMap.set_comm _ _ _ _ _ hne]

/-- The loop of `buildTrie` ends in the same state on a permutation of the proof, when the
nodes decode, have computable Merkle values, and are pairwise equal if they have the same
proof hash or both match the root hash. -/
theorem buildTrieLoop_perm {ext : Externals} {rootHash : Bytes} {P Q : List Bytes}
    (hp : P.Perm Q) :
    (∀ a ∈ P, nodeOk ext a = true ∧ merkleOk ext a = true) →
    (∀ a ∈ P, ∀ b ∈ P, proofHashOf ext a = proofHashOf ext b → a = b) →
    (∀ a ∈ P, ∀ b ∈ P,
      rootMatches ext rootHash a = true → rootMatches ext rootHash b = true → a = b) →
    ∀ st : LoopState, buildTrieLoop ext rootHash st P = buildTrieLoop ext rootHash st Q := by
  induction hp with
  | nil => intros; rfl
  | cons x _ ih =>
    intro hok hkey hroot st
    unfold buildTrieLoop
    cases hs : buildTrieStep ext rootHash st x with
    | error err => rfl
    | ok st1 =>
      exact ih (fun a ha => hok a (List.mem_cons_of_mem _ ha))
        (fun a ha b hb => hkey a (List.mem_cons_of_mem _ ha) b (List.mem_cons_of_mem _ hb))
        (fun a ha b hb => hroot a (List.mem_cons_of_mem _ ha) b (List.mem_cons_of_mem _ hb))
        st1
  | swap x y l =>
    intro hok hkey hroot st
    have hy : y ∈ y :: x :: l := List.mem_cons_self _ _
    have hx : x ∈ y :: x :: l := List.mem_cons_of_mem _ (List.mem_cons_self _ _)
    exact buildTrieLoop_swap y x l (hok y hy) (hok x hx) (hkey y hy x hx) (hroot y hy x hx) st
  | trans h1 _ ih1 ih2 =>
    intro hok hkey hroot st
    rw [ih1 hok hkey hroot st]
    exact ih2 (fun a ha => hok a (h1.mem_iff.2 ha))
      (fun a ha b hb => hkey a (h1.mem_iff.2 ha) b (h1.mem_iff.2 hb))
      (fun a ha b hb => hroot a (h1.mem_iff.2 ha) b (h1.mem_iff.2 hb)) st

/-- A proof with a node that does not decode, or whose Merkle value cannot be computed,
makes `Verify` fail with an error that wraps none of the error values of the package. -/
theorem Verify_of_not_nodeOk {ext : Externals} (fuel : Nat) {P : List Bytes}
    (rootHash key value : Bytes) (h : ∃ a ∈ P, nodeOk ext a = false) :
    ∃ e, Verify ext fuel P rootHash key value = some (.error e) ∧
      ∀ text, e.Is (.new text) = false := by
  obtain ⟨e, he⟩ := @buildTrieLoop_error_of_not_nodeOk ext rootHash P h ⟨ProofMap.empty, none⟩
  have hlen : ¬ P.length = 0 := by
    obtain ⟨a, ha, _⟩ := h
    intro h0
    rw [List.length_eq_zero.1 h0] at ha
    cases ha
  refine ⟨.errorf "cannot build trie from proof encoded nodes: %w" e, ?_, ?_⟩
  · unfold Verify buildTrie
    simp only [hlen, if_false, he]
  · intro text
    rw [Error.Is_errorf_new]
    exact buildTrieLoop_error_Is text P _ he

/-! ## loadProof -/

/-- The loop over the children gives the same result for two maps that agree on the
hashes of the children and two recursive calls that agree on the mapped nodes. -/
theorem loadChildren_congr {m1 m2 : ProofMap} {f1 f2 : Node → Option Node}
    (children : List (Option Node))
    (hm : ∀ c, some c ∈ children → m2 (BytesToHex c.HashDigest) = m1 (BytesToHex c.HashDigest))
    (hf : ∀ c node, some c ∈ children → m1 (BytesToHex c.HashDigest) = some node →
      f2 node = f1 node) :
    loadChildren m2 f2 children = loadChildren m1 f1 children := by
  induction children with
  | nil => rfl
  | cons head rest ih =>
    have ih1 := ih (fun c hc => hm c (List.mem_cons_of_mem _ hc))
      (fun c node hc => hf c node (List.mem_cons_of_mem _ hc))
    cases head with
    | none => simp only [loadChildren, ih1]
    | some child =>
      have h1 := hm child (List.mem_cons_self _ _)
      simp only [loadChildren, h1, ih1]
      cases hl : m1 (BytesToHex child.HashDigest) with
      | none => rfl
      | some node =>
        simp only [hf child node (List.mem_cons_self _ _) hl]

/-- Function `loadProof` gives the same result for two maps that agree on every key it
looks up. -/
theorem loadProof_congr {m1 m2 : ProofMap} (fuel : Nat) :
    ∀ n : Node, (∀ k, Reachable m1 n k → m2 k = m1 k) →
      loadProof fuel m2 n = loadProof fuel m1 n := by
  induction fuel with
  | zero => intro n _; rfl
  | succ fuel ih =>
    intro n h
    unfold loadProof
    cases hc : n.Children with
    | none => simp [Node.TypeOf_of_Children_none hc]
    | some children =>
      simp only [Node.TypeOf_of_Children_some hc, hc, Option.getD_some, ne_eq, not_true,
        if_false]
      rw [loadChildren_congr children
        (fun c hmem => h _ (Reachable.child hc hmem))
        (fun c node hmem hl => ih node (fun k hk => h k (Reachable.step hc hmem hl hk)))]

/-- The loop over the children keeps its result when the recursive call is replaced by
one that returns at least as often. -/
theorem loadChildren_mono {m : ProofMap} {f g : Node → Option Node}
    (hfg : ∀ node r, f node = some r → g node = some r) (children : List (Option Node)) :
    ∀ cs, loadChildren m f children = some cs → loadChildren m g children = some cs := by
  induction children with
  | nil => intro cs h; exact h
  | cons head rest ih =>
    intro cs h
    cases head with
    | none =>
      simp only [loadChildren] at h ⊢
      cases hr : loadChildren m f rest with
      | none => simp [hr] at h
      | some rs => rw [hr] at h; rw [ih rs hr]; exact h
    | some child =>
      simp only [loadChildren] at h ⊢
      cases hl : m (BytesToHex child.HashDigest) with
      | none =>
        simp only [hl] at h ⊢
        cases hr : loadChildren m f rest with
        | none => simp [hr] at h
        | some rs => rw [hr] at h; rw [ih rs hr]; exact h
      | some node =>
        simp only [hl] at h ⊢
        cases hn : f node with
        | none => simp [hn] at h
        | some loaded =>
          simp only [hn] at h
          simp only [hfg node loaded hn]
          cases hr : loadChildren m f rest with
          | none => simp [hr] at h
          | some rs => rw [hr] at h; rw [ih rs hr]; exact h

/-- More fuel does not change a result of `loadProof`. -/
theorem loadProof_mono {m : ProofMap} (fuel : Nat) :
    ∀ (n r : Node), loadProof fuel m n = some r → loadProof (fuel + 1) m n = some r := by
  induction fuel with
  | zero => intro n r h; simp [loadProof] at h
  | succ fuel ih =>
    intro n r h
    unfold loadProof at h ⊢
    by_cases ht : n.TypeOf ≠ .Branch
    · rw [if_pos ht] at h ⊢
      exact h
    · rw [if_neg ht] at h ⊢
      simp only at h ⊢
      cases hc : loadChildren m (loadProof fuel m) (n.Children.getD []) with
      | none => simp [hc] at h
      | some cs =>
        rw [hc] at h
        rw [loadChildren_mono ih _ cs hc]
        exact h

theorem Reachable_inv {m : ProofMap} {n : Node} {k : String} (h : Reachable m n k) :
    ∃ children c, n.Children = some children ∧ some c ∈ children ∧
      (k = BytesToHex c.HashDigest ∨
        ∃ node, m (BytesToHex c.HashDigest) = some node ∧ Reachable m node k) := by
  cases h with
  | child hc hmem => exact ⟨_, _, hc, hmem, Or.inl rfl⟩
  | step hc hmem hl hr => exact ⟨_, _, hc, hmem, Or.inr ⟨_, hl, hr⟩⟩

/-! ## Verify -/

/-- C1: when `buildTrie` succeeds with a proof trie, `Verify` returns nil exactly when the
key is found in that trie and the expected value is empty or equal to the value found;
when the key is absent the error wraps `ErrKeyNotFoundInProofTrie`, when the expected
value is not empty and differs the error wraps `ErrValueMismatchProofTrie`; each of
these errors wraps none of the other three error values, and the four are distinct. -/
theorem Verify_of_buildTrie_ok (ext : Externals) (fuel : Nat) (encodedProofNodes : List Bytes)
    (rootHash key value : Bytes) (proofTrie : Trie)
    (h : buildTrie ext fuel encodedProofNodes rootHash = some (.ok proofTrie)) :
    (Verify ext fuel encodedProofNodes rootHash key value = some (.ok ()) ↔
      ∃ found, ext.Get proofTrie key = some found ∧ (value.length = 0 ∨ value = found)) ∧
    (ext.Get proofTrie key = none →
      ∃ e, Verify ext fuel encodedProofNodes rootHash key value = some (.error e) ∧
        e.Is ErrKeyNotFoundInProofTrie = true ∧ e.Is ErrValueMismatchProofTrie = false ∧
        e.Is ErrEmptyProof = false ∧ e.Is ErrRootNodeNotFound = false) ∧
    (∀ found, ext.Get proofTrie key = some found → value.length > 0 → value ≠ found →
      ∃ e, Verify ext fuel encodedProofNodes rootHash key value = some (.error e) ∧
        e.Is ErrValueMismatchProofTrie = true ∧ e.Is ErrKeyNotFoundInProofTrie = false ∧
        e.Is ErrEmptyProof = false ∧ e.Is ErrRootNodeNotFound = false) ∧
    ErrKeyNotFoundInProofTrie ≠ ErrValueMismatchProofTrie ∧
    ErrKeyNotFoundInProofTrie ≠ ErrEmptyProof ∧
    ErrKeyNotFoundInProofTrie ≠ ErrRootNodeNotFound ∧
    ErrValueMismatchProofTrie ≠ ErrEmptyProof ∧
    ErrValueMismatchProofTrie ≠ ErrRootNodeNotFound := by
  refine ⟨?_, ?_, ?_, by decide, by decide, by decide, by decide, by decide⟩
  · unfold Verify
    simp only [h]
    cases hg : ext.Get proofTrie key with
    | none => simp
    | some found =>
      by_cases hv : value.length > 0 ∧ ¬ value = found
      · simp only [hv, and_self, if_true]
        have h1 : value.length ≠ 0 := by omega
        simp [h1, hv.2]
      · simp only [hv, if_false, true_iff]
        refine ⟨found, rfl, ?_⟩
        by_cases hl : value.length = 0
        · exact Or.inl hl
        · right
          by_contra hne
          exact hv ⟨by omega, hne⟩
  · intro hg
    refine ⟨.errorf "%w: %s in proof trie for root hash 0x%x" ErrKeyNotFoundInProofTrie,
      ?_, by decide, by decide, by decide, by decide⟩
    unfold Verify
    simp only [h, hg]
  · intro found hg hl hne
    refine ⟨.errorf "%w: expected value %s but got value %s from proof trie"
      ErrValueMismatchProofTrie, ?_, by decide, by decide, by decide, by decide⟩
    unfold Verify
    simp only [h, hg]
    simp [hl, hne]

/-- C1, on a proof of two nodes for the key `[1]`: the branch and its leaf. -/
theorem Verify_of_buildTrie_ok_witness :
    buildTrie sampleExt 2 [[1, 0, 10], [0, 10]] [255, 1, 0, 10] =
      some (.ok (NewTrie (.mk [] none
        (some [none, some (.mk [] (some [10]) none false [0, 10] [0, 10])])
        false [255, 1, 0, 10] [1, 0, 10]))) ∧
    (Verify sampleExt 2 [[1, 0, 10], [0, 10]] [255, 1, 0, 10] [1] [10] = some (.ok ()) ↔
      ∃ found, sampleExt.Get
          (NewTrie (.mk [] none (some [none, some (.mk [] (some [10]) none false [0, 10] [0, 10])])
            false [255, 1, 0, 10] [1, 0, 10])) [1] = some found ∧
        (([10] : Bytes).length = 0 ∨ [10] = found)) :=
  ⟨rfl,
    (Verify_of_buildTrie_ok sampleExt 2 [[1, 0, 10], [0, 10]] [255, 1, 0, 10] [1] [10] _ rfl).1⟩

/-- C4: with an empty list of encoded proof nodes `buildTrie` returns no trie but an error
wrapping `ErrEmptyProof`, and so does `Verify`, whatever the root hash, key and value. -/
theorem Verify_empty_proof (ext : Externals) (fuel : Nat) (rootHash key value : Bytes) :
    (∃ e, buildTrie ext fuel [] rootHash = some (.error e) ∧ e.Is ErrEmptyProof = true) ∧
    (∃ e, Verify ext fuel [] rootHash key value = some (.error e) ∧
      e.Is ErrEmptyProof = true) :=
  ⟨⟨_, rfl, by decide⟩, ⟨_, rfl, by decide⟩⟩

/-- C5: for a non-empty proof whose nodes all decode and whose Merkle values can all be
computed, `buildTrie` fails with an error wrapping `ErrRootNodeNotFound` when no node
matches the root hash, and so does `Verify` for every key and value; when some node
matches, `buildTrie` does not fail with an error wrapping `ErrRootNodeNotFound`. -/
theorem buildTrie_root_not_found_iff (ext : Externals) (fuel : Nat)
    (encodedProofNodes : List Bytes) (rootHash : Bytes)
    (hne : encodedProofNodes ≠ [])
    (hok : ∀ enc ∈ encodedProofNodes, nodeOk ext enc = true ∧ merkleOk ext enc = true) :
    ((∀ enc ∈ encodedProofNodes, rootMatches ext rootHash enc = false) →
      (∃ e, buildTrie ext fuel encodedProofNodes rootHash = some (.error e) ∧
        e.Is ErrRootNodeNotFound = true) ∧
      ∀ key value, ∃ e,
        Verify ext fuel encodedProofNodes rootHash key value = some (.error e) ∧
          e.Is ErrRootNodeNotFound = true) ∧
    ((∃ enc ∈ encodedProofNodes, rootMatches ext rootHash enc = true) →
      ∀ e, buildTrie ext fuel encodedProofNodes rootHash = some (.error e) →
        e.Is ErrRootNodeNotFound = false) := by
  have hlen : ¬ encodedProofNodes.length = 0 := by
    intro h; exact hne (List.length_eq_zero.1 h)
  constructor
  · intro hno
    obtain ⟨m, hm⟩ := buildTrieLoop_no_match encodedProofNodes hok hno
      ⟨ProofMap.empty, none⟩ rfl
    have hb : buildTrie ext fuel encodedProofNodes rootHash = some (.error
        (.errorf "%w: for Merkle root hash 0x%x in proof Merkle value(s) %s"
          ErrRootNodeNotFound)) := by
      unfold buildTrie
      simp only [hlen, if_false, hm]
    refine ⟨⟨_, hb, by decide⟩, fun key value =>
      ⟨.errorf "cannot build trie from proof encoded nodes: %w"
        (.errorf "%w: for Merkle root hash 0x%x in proof Merkle value(s) %s"
          ErrRootNodeNotFound), ?_, by decide⟩⟩
    · unfold Verify
      simp only [hb]
  · intro hsome e he
    unfold buildTrie at he
    simp only [hlen, if_false] at he
    cases hl : buildTrieLoop ext rootHash ⟨ProofMap.empty, none⟩ encodedProofNodes with
    | error err =>
      simp only [hl] at he
      injection he with he
      injection he with he
      subst he
      exact buildTrieLoop_error_Is _ encodedProofNodes _ hl
    | ok st1 =>
      have hr := buildTrieLoop_root_isSome encodedProofNodes _ st1 hl (Or.inr hsome)
      obtain ⟨m, r⟩ := st1
      cases r with
      | none => simp at hr
      | some root =>
        simp only [hl] at he
        cases hp : loadProof fuel m root <;> simp [hp] at he

/-- C5, on a proof of one leaf: with another root hash no node matches, with the root
hash of the leaf one does. -/
theorem buildTrie_root_not_found_iff_witness :
    ([[0, 10]] : List Bytes) ≠ [] ∧
    (∀ enc ∈ [[0, 10]], nodeOk sampleExt enc = true ∧ merkleOk sampleExt enc = true) ∧
    (((∀ enc ∈ [[0, 10]], rootMatches sampleExt [9] enc = false) →
      (∃ e, buildTrie sampleExt 1 [[0, 10]] [9] = some (.error e) ∧
        e.Is ErrRootNodeNotFound = true) ∧
      ∀ key value, ∃ e, Verify sampleExt 1 [[0, 10]] [9] key value = some (.error e) ∧
        e.Is ErrRootNodeNotFound = true) ∧
    ((∃ enc ∈ [[0, 10]], rootMatches sampleExt [9] enc = true) →
      ∀ e, buildTrie sampleExt 1 [[0, 10]] [9] = some (.error e) →
        e.Is ErrRootNodeNotFound = false)) :=
  ⟨by decide, by decide,
    buildTrie_root_not_found_iff sampleExt 1 [[0, 10]] [9] (by decide) (by decide)⟩

/-- C6, as stated, fails: the encoding of the root leaf listed twice gives two nodes that
match the root hash, and `buildTrie` returns the trie of that leaf, not an error. -/
theorem buildTrie_root_listed_twice :
    2 ≤ List.countP (rootMatches sampleExt [255, 0, 10]) [[0, 10], [0, 10]] ∧
    buildTrie sampleExt 1 [[0, 10], [0, 10]] [255, 0, 10] =
      some (.ok (NewTrie (.mk [] (some [10]) none false [255, 0, 10] [0, 10]))) ∧
    ¬ ∃ e, buildTrie sampleExt 1 [[0, 10], [0, 10]] [255, 0, 10] = some (.error e) ∧
      e.Is ErrRootNodeNotFound = true := by
  refine ⟨by decide, rfl, ?_⟩
  rintro ⟨e, he, -⟩
  have h : buildTrie sampleExt 1 [[0, 10], [0, 10]] [255, 0, 10] =
      some (.ok (NewTrie (.mk [] (some [10]) none false [255, 0, 10] [0, 10]))) := rfl
  rw [h] at he
  cases he

/-- C6, amended: in a proof of decodable nodes with computable Merkle values in which two
or more nodes match the root hash, the first matching node of the list becomes the
root, with the root hash as its hash digest; `buildTrie` returns no error, and its
result is the trie loaded from that root. -/
theorem buildTrie_first_match_is_root (ext : Externals) (encodedProofNodes : List Bytes)
    (rootHash : Bytes)
    (hok : ∀ enc ∈ encodedProofNodes, nodeOk ext enc = true ∧ merkleOk ext enc = true)
    (htwo : 2 ≤ List.countP (rootMatches ext rootHash) encodedProofNodes) :
    ∃ A enc B n m, encodedProofNodes = A ++ enc :: B ∧
      (∀ a ∈ A, rootMatches ext rootHash a = false) ∧
      rootMatches ext rootHash enc = true ∧
      indexedNode ext enc = some n ∧
      buildTrieLoop ext rootHash ⟨ProofMap.empty, none⟩ encodedProofNodes =
        .ok ⟨m, some (n.setHashDigest rootHash)⟩ ∧
      (∀ fuel, buildTrie ext fuel encodedProofNodes rootHash =
        (loadProof fuel m (n.setHashDigest rootHash)).map fun loaded => .ok (NewTrie loaded)) ∧
      ∀ fuel e, buildTrie ext fuel encodedProofNodes rootHash ≠ some (.error e) := by
  have hex : ∃ a ∈ encodedProofNodes, rootMatches ext rootHash a = true := by
    have hpos : 0 < List.countP (rootMatches ext rootHash) encodedProofNodes := by omega
    obtain ⟨a, ha, hpa⟩ := List.countP_pos_iff.1 hpos
    exact ⟨a, ha, hpa⟩
  obtain ⟨A, enc, B, hsplit, hnoA, hmatch⟩ := exists_first_of_any _ _ hex
  have hmem : ∀ x, x ∈ A ∨ x = enc ∨ x ∈ B → x ∈ encodedProofNodes := by
    intro x hx
    rw [hsplit]
    simp only [List.mem_append, List.mem_cons]
    tauto
  obtain ⟨n, k, hn, -⟩ := (nodeOk_iff ext enc).1 (hok enc (hmem enc (Or.inr (Or.inl rfl)))).1
  obtain ⟨m, hm⟩ := buildTrieLoop_of_first_match A B enc
    (fun a ha => hok a (hmem a (Or.inl ha))) hnoA hn hmatch
    (fun b hb => (hok b (hmem b (Or.inr (Or.inr hb)))).1)
  rw [← hsplit] at hm
  have hlen : ¬ encodedProofNodes.length = 0 := by
    rw [hsplit]; simp
  have hb : ∀ fuel, buildTrie ext fuel encodedProofNodes rootHash =
      (loadProof fuel m (n.setHashDigest rootHash)).map fun loaded => .ok (NewTrie loaded) := by
    intro fuel
    unfold buildTrie
    simp only [hlen, if_false, hm]
  refine ⟨A, enc, B, n, m, hsplit, hnoA, hmatch, hn, hm, hb, ?_⟩
  intro fuel e he
  rw [hb fuel] at he
  cases hl : loadProof fuel m (n.setHashDigest rootHash) <;> simp [hl] at he

/-- C6 amended, on the root leaf listed twice. -/
theorem buildTrie_first_match_is_root_witness :
    (∀ enc ∈ [[0, 10], [0, 10]], nodeOk sampleExt enc = true ∧ merkleOk sampleExt enc = true) ∧
    2 ≤ List.countP (rootMatches sampleExt [255, 0, 10]) [[0, 10], [0, 10]] ∧
    ∃ A enc B n m, [[0, 10], [0, 10]] = A ++ enc :: B ∧
      (∀ a ∈ A, rootMatches sampleExt [255, 0, 10] a = false) ∧
      rootMatches sampleExt [255, 0, 10] enc = true ∧
      indexedNode sampleExt enc = some n ∧
      buildTrieLoop sampleExt [255, 0, 10] ⟨ProofMap.empty, none⟩ [[0, 10], [0, 10]] =
        .ok ⟨m, some (n.setHashDigest [255, 0, 10])⟩ ∧
      (∀ fuel, buildTrie sampleExt fuel [[0, 10], [0, 10]] [255, 0, 10] =
        (loadProof fuel m (n.setHashDigest [255, 0, 10])).map
          fun loaded => .ok (NewTrie loaded)) ∧
      ∀ fuel e, buildTrie sampleExt fuel [[0, 10], [0, 10]] [255, 0, 10] ≠ some (.error e) :=
  ⟨by decide, by decide,
    buildTrie_first_match_is_root sampleExt [[0, 10], [0, 10]] [255, 0, 10]
      (by decide) (by decide)⟩

/-- Why the permutation theorems below ask for a codec without collisions whose root
Merkle values can be computed.  With a Merkle function under which the two leaves
`[0, 10]` and `[0, 20]` have the same root Merkle value `[7]`, `Verify` accepts the
value `[10]` for the proof in one order and fails with an error wrapping
`ErrValueMismatchProofTrie` in the other.  With a Merkle function whose root value cannot
be computed for `[0, 20]`, `Verify` succeeds when the root `[0, 10]` comes first and
fails when `[0, 20]` comes first. -/
theorem Verify_order_matters :
    List.Perm [[0, 10], [0, 20]] [[0, 20], [0, 10]] ∧
    Verify collidingExt 1 [[0, 10], [0, 20]] [7] [] [10] = some (.ok ()) ∧
    Verify collidingExt 1 [[0, 20], [0, 10]] [7] [] [10] =
      some (.error (.errorf "%w: expected value %s but got value %s from proof trie"
        ErrValueMismatchProofTrie)) ∧
    Verify failingRootExt 1 [[0, 10], [0, 20]] [255, 0, 10] [] [10] = some (.ok ()) ∧
    Verify failingRootExt 1 [[0, 20], [0, 10]] [255, 0, 10] [] [10] =
      some (.error (.errorf "cannot build trie from proof encoded nodes: %w"
        (.errorf "merkle value of possible root node: %w" (.foreign "hasher failed")))) :=
  ⟨List.Perm.swap _ _ _, by decide, by decide, by decide, by decide⟩

/-- Permutations of a proof in which no two different decodable encodings have the same
proof hash, no two different encodings match the root hash, and the root Merkle value
of every decodable node can be computed: `Verify` on the permutation succeeds exactly
when it succeeds on the proof, returns exactly when it returns on the proof, and when
both fail the two errors wrap the same ones of `ErrEmptyProof`, `ErrRootNodeNotFound`,
`ErrKeyNotFoundInProofTrie` and `ErrValueMismatchProofTrie`. -/
theorem Verify_perm (ext : Externals) (fuel : Nat) (P Q : List Bytes)
    (rootHash key value : Bytes) (hp : P.Perm Q)
    (hkey : ∀ a ∈ P, ∀ b ∈ P, nodeOk ext a = true → nodeOk ext b = true →
      proofHashOf ext a = proofHashOf ext b → a = b)
    (hroot : ∀ a ∈ P, ∀ b ∈ P,
      rootMatches ext rootHash a = true → rootMatches ext rootHash b = true → a = b)
    (hmerkle : ∀ a ∈ P, nodeOk ext a = true → merkleOk ext a = true) :
    (Verify ext fuel Q rootHash key value = some (.ok ()) ↔
      Verify ext fuel P rootHash key value = some (.ok ())) ∧
    (Verify ext fuel Q rootHash key value = none ↔
      Verify ext fuel P rootHash key value = none) ∧
    ∀ e f, Verify ext fuel P rootHash key value = some (.error e) →
      Verify ext fuel Q rootHash key value = some (.error f) →
      f.Is ErrEmptyProof = e.Is ErrEmptyProof ∧
      f.Is ErrRootNodeNotFound = e.Is ErrRootNodeNotFound ∧
      f.Is ErrKeyNotFoundInProofTrie = e.Is ErrKeyNotFoundInProofTrie ∧
      f.Is ErrValueMismatchProofTrie = e.Is ErrValueMismatchProofTrie := by
  by_cases hall : ∀ a ∈ P, nodeOk ext a = true
  · have hloop := @buildTrieLoop_perm ext rootHash P Q hp
      (fun a ha => ⟨hall a ha, hmerkle a ha (hall a ha)⟩)
      (fun a ha b hb => hkey a ha b hb (hall a ha) (hall b hb)) hroot ⟨ProofMap.empty, none⟩
    have hv : Verify ext fuel Q rootHash key value = Verify ext fuel P rootHash key value := by
      unfold Verify buildTrie
      rw [hloop, hp.length_eq]
    rw [hv]
    refine ⟨Iff.rfl, Iff.rfl, ?_⟩
    intro e f he hf
    rw [he] at hf
    injection hf with hf
    injection hf with hf
    subst hf
    exact ⟨rfl, rfl, rfl, rfl⟩
  · have hbad : ∃ a ∈ P, nodeOk ext a = false := by
      by_contra hcon
      apply hall
      intro a ha
      cases hn : nodeOk ext a with
      | true => rfl
      | false => exact absurd ⟨a, ha, hn⟩ hcon
    have hbadQ : ∃ a ∈ Q, nodeOk ext a = false := by
      obtain ⟨a, ha, hn⟩ := hbad
      exact ⟨a, hp.mem_iff.1 ha, hn⟩
    obtain ⟨e1, hP, hP1⟩ := @Verify_of_not_nodeOk ext fuel P rootHash key value hbad
    obtain ⟨e2, hQ, hQ1⟩ := @Verify_of_not_nodeOk ext fuel Q rootHash key value hbadQ
    rw [hP, hQ]
    refine ⟨by simp, by simp, ?_⟩
    intro e f he hf
    injection he with he
    injection he with he
    injection hf with hf
    injection hf with hf
    subst he; subst hf
    exact ⟨(hQ1 _).trans (hP1 _).symm, (hQ1 _).trans (hP1 _).symm,
      (hQ1 _).trans (hP1 _).symm, (hQ1 _).trans (hP1 _).symm⟩

/-- C3: when `Verify` succeeds on a proof, whose loop builds the index `m` and the root
node `root`, it also succeeds on the proof followed by extra nodes that decode, have a
computable Merkle value, and whose proof hash is not reachable from the root through
the index. -/
theorem Verify_extra_nodes (ext : Externals) (fuel : Nat) (P E : List Bytes)
    (rootHash key value : Bytes) (m : ProofMap) (root : Node)
    (hloop : buildTrieLoop ext rootHash ⟨ProofMap.empty, none⟩ P = .ok ⟨m, some root⟩)
    (hv : Verify ext fuel P rootHash key value = some (.ok ()))
    (hE : ∀ enc ∈ E, nodeOk ext enc = true ∧
      ∀ k, proofHashOf ext enc = some k → ¬ Reachable m root k) :
    Verify ext fuel (P ++ E) rootHash key value = some (.ok ()) := by
  obtain ⟨m2, hm2, hagree⟩ := @buildTrieLoop_of_root ext rootHash root E
    (fun enc he => (hE enc he).1) ⟨m, some root⟩ rfl
  have hloop2 : buildTrieLoop ext rootHash ⟨ProofMap.empty, none⟩ (P ++ E) =
      .ok ⟨m2, some root⟩ := by
    rw [buildTrieLoop_append, hloop]
    exact hm2
  have hload : loadProof fuel m2 root = loadProof fuel m root := by
    apply loadProof_congr
    intro k hk
    apply hagree
    intro enc he hk1
    exact (hE enc he).2 k hk1 hk
  have hP : ¬ P.length = 0 := by
    intro h0
    rw [List.length_eq_zero.1 h0] at hloop
    simp [buildTrieLoop] at hloop
  have hPE : ¬ (P ++ E).length = 0 := by
    rw [List.length_append]; omega
  have hb : buildTrie ext fuel (P ++ E) rootHash = buildTrie ext fuel P rootHash := by
    unfold buildTrie
    simp only [hP, hPE, if_false, hloop, hloop2, hload]
  unfold Verify at hv ⊢
  rw [hb]
  exact hv

/-- C3, on the proof of the branch and its leaf followed by a leaf that the branch does
not refer to. -/
theorem Verify_extra_nodes_witness :
    buildTrieLoop sampleExt [255, 1, 0, 10] ⟨ProofMap.empty, none⟩ [[1, 0, 10], [0, 10]] =
      .ok ⟨sampleIndex, some sampleRoot⟩ ∧
    Verify sampleExt 2 [[1, 0, 10], [0, 10]] [255, 1, 0, 10] [1] [10] = some (.ok ()) ∧
    (∀ enc ∈ [[0, 20]], nodeOk sampleExt enc = true ∧
      ∀ k, proofHashOf sampleExt enc = some k → ¬ Reachable sampleIndex sampleRoot k) ∧
    Verify sampleExt 2 ([[1, 0, 10], [0, 10]] ++ [[0, 20]]) [255, 1, 0, 10] [1] [10] =
      some (.ok ()) := by
  have hE : ∀ enc ∈ [[0, 20]], nodeOk sampleExt enc = true ∧
      ∀ k, proofHashOf sampleExt enc = some k → ¬ Reachable sampleIndex sampleRoot k := by
    intro enc he
    simp only [List.mem_singleton] at he
    subst he
    refine ⟨by decide, ?_⟩
    intro k hk hreach
    have hk1 : k = BytesToHex [0, 20] := by
      simp [proofHashOf, sampleExt] at hk
      exact hk.symm
    subst hk1
    obtain ⟨children, c, hc, hmem, hcase⟩ := Reachable_inv hreach
    have hc1 : children = [none, some (.mk [] none none false [0, 10] [])] := by
      have : sampleRoot.Children = some [none, some (.mk [] none none false [0, 10] [])] := rfl
      rw [this] at hc
      injection hc with hc
      exact hc.symm
    subst hc1
    have hc2 : c = .mk [] none none false [0, 10] [] := by
      simp at hmem
      exact hmem
    subst hc2
    rcases hcase with hcase | ⟨node, hnode, hr⟩
    · revert hcase; decide
    · have hnode1 : node = sampleLeaf := by
        have : sampleIndex (BytesToHex [0, 10]) = some sampleLeaf := by
          simp [sampleIndex, ProofMap.set]
        simp only [Node.HashDigest] at hnode
        rw [this] at hnode
        injection hnode with hnode
        exact hnode.symm
      subst hnode1
      obtain ⟨_, _, hc3, _⟩ := Reachable_inv hr
      cases hc3
  have hloop : buildTrieLoop sampleExt [255, 1, 0, 10] ⟨ProofMap.empty, none⟩
      [[1, 0, 10], [0, 10]] = .ok ⟨sampleIndex, some sampleRoot⟩ := by
    show (Except.ok ⟨((ProofMap.empty.set _ _).set _ _).set _ _, _⟩ :
      Except Error LoopState) = _
    rw [ProofMap.set_set]
    rfl
  exact ⟨hloop, by decide, hE,
    Verify_extra_nodes sampleExt 2 [[1, 0, 10], [0, 10]] [[0, 20]] [255, 1, 0, 10] [1] [10]
      sampleIndex sampleRoot hloop (by decide) hE⟩


/-! ## The proof-verification host function -/

/-- C7, as stated, fails: with a proof span that decodes and a root pointer of -1 the slice
expression `mem[rootSpan : rootSpan+32]` is out of range, and the function returns
neither `1` nor `0`; with the root pointer 33 the same call returns `1`. -/
theorem verify_proof_root_pointer_out_of_range :
    ext_trie_blake2_256_verify_proof_version_1 sampleExt sampleUnmarshal 1 sampleMemory
      [.I32 (-1), .I64 141733920768, .I64 0, .I64 0] = none ∧
    ext_trie_blake2_256_verify_proof_version_1 sampleExt sampleUnmarshal 1 sampleMemory
      [.I32 33, .I64 141733920768, .I64 0, .I64 0] = some ([.I32 1], none) := by
  decide

/-- C7, amended: when the proof span is inside the memory, the function returns `0` with
a nil error if the span does not decode; if it decodes, the key and value spans and
the 32 bytes at the root pointer are inside the memory and `Verify` returns, the
function returns `1` when `Verify` returned nil and `0` when it returned an error, with
a nil error.  Whenever the function returns, the error is nil and the value is `1` or
`0`, and it is `1` exactly when the span decoded and `Verify` returned nil. -/
theorem verify_proof_flattens_errors (ext : Externals)
    (unmarshal : Bytes → Except String (List Bytes)) (fuel : Nat) (mem : Bytes)
    (rootSpan proofSpan keySpan valueSpan : Int) (toDecProofs : Bytes)
    (hproof : asMemorySlice mem proofSpan = some toDecProofs) :
    (∀ err, unmarshal toDecProofs = .error err →
      ext_trie_blake2_256_verify_proof_version_1 ext unmarshal fuel mem
        [.I32 rootSpan, .I64 proofSpan, .I64 keySpan, .I64 valueSpan] =
          some ([.I32 0], none)) ∧
    (∀ nodes key value trieRoot result, unmarshal toDecProofs = .ok nodes →
      asMemorySlice mem keySpan = some key → asMemorySlice mem valueSpan = some value →
      sliceInt mem rootSpan (addInt32 rootSpan 32) = some trieRoot →
      Verify ext fuel nodes trieRoot key value = some result →
      ext_trie_blake2_256_verify_proof_version_1 ext unmarshal fuel mem
        [.I32 rootSpan, .I64 proofSpan, .I64 keySpan, .I64 valueSpan] =
          some ([.I32 (if result = .ok () then 1 else 0)], none)) ∧
    (∀ values err,
      ext_trie_blake2_256_verify_proof_version_1 ext unmarshal fuel mem
        [.I32 rootSpan, .I64 proofSpan, .I64 keySpan, .I64 valueSpan] = some (values, err) →
      err = none ∧ (values = [.I32 1] ∨ values = [.I32 0]) ∧
      (values = [.I32 1] ↔
        ∃ nodes key value trieRoot, unmarshal toDecProofs = .ok nodes ∧
          asMemorySlice mem keySpan = some key ∧ asMemorySlice mem valueSpan = some value ∧
          sliceInt mem rootSpan (addInt32 rootSpan 32) = some trieRoot ∧
          Verify ext fuel nodes trieRoot key value = some (.ok ()))) := by
  refine ⟨?_, ?_, ?_⟩
  · intro err hu
    simp [ext_trie_blake2_256_verify_proof_version_1, hproof, hu]
  · intro nodes key value trieRoot result hu hk hv hr hver
    cases result with
    | error e =>
      simp [ext_trie_blake2_256_verify_proof_version_1, hproof, hu, hk, hv, hr, hver]
    | ok u =>
      simp [ext_trie_blake2_256_verify_proof_version_1, hproof, hu, hk, hv, hr, hver]
  · intro values err h
    simp only [ext_trie_blake2_256_verify_proof_version_1, List.get?, hproof] at h
    cases hu : unmarshal toDecProofs with
    | error e =>
      simp only [hu] at h
      injection h with h
      injection h with h1 h2
      subst h1; subst h2
      refine ⟨rfl, Or.inr rfl, ?_⟩
      simp
    | ok nodes =>
      simp only [hu] at h
      cases hk : asMemorySlice mem keySpan with
      | none => simp [hk] at h
      | some key =>
        cases hv : asMemorySlice mem valueSpan with
        | none => simp [hk, hv] at h
        | some value =>
          simp only [hk, hv] at h
          cases hr : sliceInt mem rootSpan (addInt32 rootSpan 32) with
          | none => simp [hr] at h
          | some trieRoot =>
            simp only [hr] at h
            cases hver : Verify ext fuel nodes trieRoot key value with
            | none => simp [hver] at h
            | some result =>
              cases result with
              | error e =>
                simp only [hver] at h
                injection h with h
                injection h with h1 h2
                subst h1; subst h2
                refine ⟨rfl, Or.inr rfl, ?_⟩
                simp [hver]
              | ok u =>
                simp only [hver] at h
                injection h with h
                injection h with h1 h2
                subst h1; subst h2
                refine ⟨rfl, Or.inl rfl, ?_⟩
                simp [hver]

/-- C7 amended, on the sample memory: the proof span decodes to one leaf, whose root Merkle
value is at the root pointer. -/
theorem verify_proof_flattens_errors_witness :
    asMemorySlice sampleMemory 141733920768 =
      some ([4, 124, 0] ++ List.replicate 30 5) ∧
    ext_trie_blake2_256_verify_proof_version_1 sampleExt sampleUnmarshal 1 sampleMemory
      [.I32 33, .I64 141733920768, .I64 0, .I64 0] =
        some ([.I32 (if (Except.ok () : Except Error Unit) = .ok () then 1 else 0)], none) :=
  ⟨by decide,
    (verify_proof_flattens_errors sampleExt sampleUnmarshal 1 sampleMemory 33 141733920768 0 0
      ([4, 124, 0] ++ List.replicate 30 5) (by decide)).2.1
      [0 :: List.replicate 30 5] [] [] ([255, 0] ++ List.replicate 30 5) (.ok ())
      (by decide) (by decide) (by decide) (by decide) (by decide)⟩

/-! ## The trie cache -/

theorem Tries.len_erase_of_mem (m : AList fun _ : Hash => Option Trie) (root : Hash)
    (h : root ∈ m) : (m.erase root).entries.length + 1 = m.entries.length := by
  obtain ⟨b, l1, l2, -, hl, hk⟩ := List.exists_of_kerase (AList.mem_keys.1 h)
  show (List.kerase root m.entries).length + 1 = m.entries.length
  rw [hk, hl]
  simp only [List.length_append, List.length_cons]
  omega

theorem Tries.len_erase_of_not_mem (m : AList fun _ : Hash => Option Trie) (root : Hash)
    (h : root ∉ m) : (m.erase root).entries.length = m.entries.length := by
  show (List.kerase root m.entries).length = m.entries.length
  rw [List.kerase_of_not_mem_keys (fun hk => h (AList.mem_keys.2 hk))]

/-- C8: after `softSet(root, trie)`, `get(root)` is the trie stored at `root` before if there
was one and `trie` otherwise, and the entry of every other root is unchanged; after two
`softSet` at a root that the state did not hold, `get` gives the first trie and `len`
has grown by one. -/
theorem Tries.softSet_inserts_only_if_absent (t : Tries) (root : Hash) (trie : Option Trie) :
    (t.softSet root trie).get root =
      (match t.rootToTrie.lookup root with
        | some stored => stored
        | none => trie) ∧
    (∀ other, other ≠ root →
      (t.softSet root trie).rootToTrie.lookup other = t.rootToTrie.lookup other ∧
      (t.softSet root trie).get other = t.get other) ∧
    (∀ trie2, t.rootToTrie.lookup root = none →
      ((t.softSet root trie).softSet root trie2).get root = trie ∧
      ((t.softSet root trie).softSet root trie2).len = t.len + 1) := by
  refine ⟨?_, ?_, ?_⟩
  · cases h : t.rootToTrie.lookup root with
    | some stored => simp [Tries.softSet, Tries.get, h]
    | none => simp [Tries.softSet, Tries.get, h, AList.lookup_insert]
  · intro other hne
    cases h : t.rootToTrie.lookup root with
    | some stored => simp [Tries.softSet, h]
    | none => simp [Tries.softSet, Tries.get, h, AList.lookup_insert_ne hne]
  · intro trie2 h
    have hnot : root ∉ t.rootToTrie := AList.lookup_eq_none.1 h
    have h1 : t.softSet root trie = ⟨t.rootToTrie.insert root trie, t.triesGauge + 1⟩ := by
      simp [Tries.softSet, h]
    have h2 : (t.softSet root trie).softSet root trie2 = t.softSet root trie := by
      rw [h1]
      simp [Tries.softSet, AList.lookup_insert]
    rw [h2, h1]
    constructor
    · simp [Tries.get, AList.lookup_insert]
    · show (t.rootToTrie.insert root trie).entries.length = t.rootToTrie.entries.length + 1
      rw [AList.insert_entries_of_neg hnot]
      rfl

/-- C8, on the cache holding one trie at the root `[1]`, for the root `[2]`. -/
theorem Tries.softSet_inserts_only_if_absent_witness :
    (⟨AList.singleton [1] (some ⟨none⟩), 1⟩ : Tries).rootToTrie.lookup [2] = none ∧
    ((((⟨AList.singleton [1] (some ⟨none⟩), 1⟩ : Tries).softSet [2]
        (some ⟨some sampleLeaf⟩)).softSet [2] (some ⟨none⟩)).get [2] = some ⟨some sampleLeaf⟩ ∧
      (((⟨AList.singleton [1] (some ⟨none⟩), 1⟩ : Tries).softSet [2]
        (some ⟨some sampleLeaf⟩)).softSet [2] (some ⟨none⟩)).len =
        (⟨AList.singleton [1] (some ⟨none⟩), 1⟩ : Tries).len + 1) :=
  ⟨rfl, (Tries.softSet_inserts_only_if_absent ⟨AList.singleton [1] (some ⟨none⟩), 1⟩ [2]
    (some ⟨some sampleLeaf⟩)).2.2 (some ⟨none⟩) rfl⟩

/-- C9: after `delete(root)`, `get(root)` is nil, the entry of every other root is
unchanged, `len` is one less than before if `root` was in the map and unchanged if it was
not, and the gauge is the resulting `len`. -/
theorem Tries.delete_removes (t : Tries) (root : Hash) :
    (t.delete root).get root = none ∧
    (∀ other, other ≠ root →
      (t.delete root).rootToTrie.lookup other = t.rootToTrie.lookup other ∧
      (t.delete root).get other = t.get other) ∧
    ((t.rootToTrie.lookup root).isSome = true → (t.delete root).len + 1 = t.len) ∧
    (t.rootToTrie.lookup root = none → (t.delete root).len = t.len) ∧
    (t.delete root).triesGauge = ((t.delete root).len : Int) := by
  refine ⟨?_, ?_, ?_, ?_, rfl⟩
  · simp [Tries.delete, Tries.get, AList.lookup_erase]
  · intro other hne
    simp [Tries.delete, Tries.get, AList.lookup_erase_ne hne]
  · intro h
    exact Tries.len_erase_of_mem _ _ (AList.lookup_isSome.1 h)
  · intro h
    exact Tries.len_erase_of_not_mem _ _ (AList.lookup_eq_none.1 h)

/-- C9, on the cache holding one trie at the root `[1]`, for that root. -/
theorem Tries.delete_removes_witness :
    ((⟨AList.singleton [1] (some ⟨none⟩), 0⟩ : Tries).rootToTrie.lookup [1]).isSome = true ∧
    ((⟨AList.singleton [1] (some ⟨none⟩), 0⟩ : Tries).delete [1]).len + 1 =
      (⟨AList.singleton [1] (some ⟨none⟩), 0⟩ : Tries).len ∧
    ((⟨AList.singleton [1] (some ⟨none⟩), 0⟩ : Tries).delete [1]).triesGauge = 0 :=
  ⟨rfl, (Tries.delete_removes ⟨AList.singleton [1] (some ⟨none⟩), 0⟩ [1]).2.2.1 rfl, rfl⟩

/-- C10, as stated, fails on the code: in the state returned by `NewTries` the map holds
one entry and the gauge is 0; after a `softSet` at another root the map holds two entries
and the gauge is 1. -/
theorem NewTries_gauge_is_not_len :
    ((NewTries .registered sampleMustHash (some ⟨none⟩)).map fun r =>
      r.map fun t => (t.triesGauge, t.len)) = some (.ok (0, 1)) ∧
    ((NewTries .registered sampleMustHash (some ⟨none⟩)).map fun r =>
      r.map fun t => ((t.softSet [1] (some ⟨none⟩)).triesGauge,
        (t.softSet [1] (some ⟨none⟩)).len)) = some (.ok (1, 2)) := by
  decide

/-! ## Signature verification imports -/

/-- C11: with the batcher not started and a public key that decodes,
`ext_crypto_sr25519_verify_version_1` returns 1 whatever the verification gives, and
`ext_crypto_sr25519_verify_version_2` returns 1 when the signature verifies (`ok` without
error) and 0 otherwise; both return 0 when the 32 bytes at the key pointer are not a
public key.  The returned error is nil and the batcher is left as it was. -/
theorem sr25519_verify_version_1_lax_version_2_strict {PK KP V : Type}
    (sr25519 : Algorithm PK KP) (sv : SigVerifierOps V) (memory : Bytes) (sigVerifier : V)
    (sig msg key : Int) (signature message pubKeyData : Bytes)
    (hmsg : asMemorySlice memory msg = some message)
    (hsig : sliceInt memory sig (addInt32 sig 64) = some signature)
    (hkey : sliceInt memory key (addInt32 key 32) = some pubKeyData) :
    (∀ pub, sr25519.NewPublicKey pubKeyData = .ok pub → sv.IsStarted sigVerifier = false →
      ext_crypto_sr25519_verify_version_1 sr25519 sv memory sigVerifier
        [.I32 sig, .I64 msg, .I32 key] = some ([.I32 1], none, sigVerifier) ∧
      ext_crypto_sr25519_verify_version_2 sr25519 sv memory sigVerifier
        [.I32 sig, .I64 msg, .I32 key] =
          some ([.I32 (if sr25519.Verify pub message signature = (true, none) then 1 else 0)],
            none, sigVerifier)) ∧
    (∀ err, sr25519.NewPublicKey pubKeyData = .error err →
      ext_crypto_sr25519_verify_version_1 sr25519 sv memory sigVerifier
        [.I32 sig, .I64 msg, .I32 key] = some ([.I32 0], none, sigVerifier) ∧
      ext_crypto_sr25519_verify_version_2 sr25519 sv memory sigVerifier
        [.I32 sig, .I64 msg, .I32 key] = some ([.I32 0], none, sigVerifier)) := by
  constructor
  · intro pub hpub hstarted
    constructor
    · simp only [ext_crypto_sr25519_verify_version_1, List.get?, hmsg, hsig, hkey, hpub,
        hstarted]
      simp
    · simp only [ext_crypto_sr25519_verify_version_2, List.get?, hmsg, hsig, hkey, hpub,
        hstarted]
      rcases hv : sr25519.Verify pub message signature with ⟨ok, err⟩
      cases ok <;> cases err <;> simp [hv]
  · intro err hpub
    constructor
    · simp only [ext_crypto_sr25519_verify_version_1, List.get?, hmsg, hsig, hkey, hpub]
    · simp only [ext_crypto_sr25519_verify_version_2, List.get?, hmsg, hsig, hkey, hpub]

/-- C11, on a signature that does not verify: version 1 returns 1 and version 2 returns
0. -/
theorem sr25519_verify_version_1_lax_version_2_strict_witness :
    asMemorySlice (sampleCryptoMemory 1 2) 12884901985 = some [7, 8, 9] ∧
    ext_crypto_sr25519_verify_version_1 sampleAlgorithm sampleSigVerifier
      (sampleCryptoMemory 1 2) (false, []) [.I32 0, .I64 12884901985, .I32 64] =
        some ([.I32 1], none, (false, [])) ∧
    ext_crypto_sr25519_verify_version_2 sampleAlgorithm sampleSigVerifier
      (sampleCryptoMemory 1 2) (false, []) [.I32 0, .I64 12884901985, .I32 64] =
        some ([.I32 (if sampleAlgorithm.Verify (2 :: List.replicate 31 0) [7, 8, 9]
          (1 :: List.replicate 63 0) = (true, none) then 1 else 0)], none, (false, [])) :=
  ⟨by decide,
    (sr25519_verify_version_1_lax_version_2_strict sampleAlgorithm sampleSigVerifier
      (sampleCryptoMemory 1 2) (false, []) 0 12884901985 64 (1 :: List.replicate 63 0)
      [7, 8, 9] (2 :: List.replicate 31 0) (by decide) (by decide) (by decide)).1
      (2 :: List.replicate 31 0) (by decide) rfl⟩

/-- C12: with a started batcher and a public key that decodes, each of the four
verify imports returns 1 with a nil error and leaves the batcher after one `Add` of the
signature information made of the encoded public key, the signature bytes, the message
(for ecdsa its Blake2b-256 hash) and the verification function of the algorithm; no
verification result enters. -/
theorem verify_imports_enqueue_when_batcher_started {PK KP V : Type}
    (ed25519 sr25519 secp256k1 : Algorithm PK KP) (Blake2bHash : Bytes → Except String Bytes)
    (sv : SigVerifierOps V) (memory : Bytes) (sigVerifier : V)
    (sig msg key : Int) (signature message pubKeyData pubKey33 : Bytes)
    (hstarted : sv.IsStarted sigVerifier = true)
    (hmsg : asMemorySlice memory msg = some message)
    (hsig : sliceInt memory sig (addInt32 sig 64) = some signature)
    (hkey : sliceInt memory key (addInt32 key 32) = some pubKeyData)
    (hkey33 : sliceInt memory key (addInt32 key 33) = some pubKey33) :
    (∀ pub, ed25519.NewPublicKey pubKeyData = .ok pub →
      ext_crypto_ed25519_verify_version_1 ed25519 sv memory sigVerifier
        [.I32 sig, .I64 msg, .I32 key] =
          some ([.I32 1], none,
            sv.Add sigVerifier ⟨ed25519.Encode pub, signature, message, .ed25519⟩)) ∧
    (∀ pub, sr25519.NewPublicKey pubKeyData = .ok pub →
      ext_crypto_sr25519_verify_version_1 sr25519 sv memory sigVerifier
        [.I32 sig, .I64 msg, .I32 key] =
          some ([.I32 1], none,
            sv.Add sigVerifier ⟨sr25519.Encode pub, signature, message, .sr25519⟩) ∧
      ext_crypto_sr25519_verify_version_2 sr25519 sv memory sigVerifier
        [.I32 sig, .I64 msg, .I32 key] =
          some ([.I32 1], none,
            sv.Add sigVerifier ⟨sr25519.Encode pub, signature, message, .sr25519⟩)) ∧
    (∀ pub hash, secp256k1.NewPublicKey pubKey33 = .ok pub → Blake2bHash message = .ok hash →
      ext_crypto_ecdsa_verify_version_2 secp256k1 Blake2bHash sv memory sigVerifier
        [.I32 sig, .I64 msg, .I32 key] =
          some ([.I32 1], none,
            sv.Add sigVerifier ⟨secp256k1.Encode pub, signature, hash, .secp256k1⟩)) := by
  refine ⟨?_, ?_, ?_⟩
  · intro pub hpub
    simp only [ext_crypto_ed25519_verify_version_1, List.get?, hmsg, hsig, hkey, hpub,
      hstarted, if_true]
  · intro pub hpub
    constructor
    · simp only [ext_crypto_sr25519_verify_version_1, List.get?, hmsg, hsig, hkey, hpub,
        hstarted, if_true]
    · simp only [ext_crypto_sr25519_verify_version_2, List.get?, hmsg, hsig, hkey, hpub,
        hstarted, if_true]
  · intro pub hash hpub hhash
    simp only [ext_crypto_ecdsa_verify_version_2, List.get?, hmsg, hsig, hkey33, hpub, hhash,
      hstarted, if_true]

/-- C12, with the sample batcher started and empty, on a signature that does not verify:
the ed25519 import returns 1 and the batcher holds the one entry. -/
theorem verify_imports_enqueue_when_batcher_started_witness :
    sampleSigVerifier.IsStarted (true, []) = true ∧
    ext_crypto_ed25519_verify_version_1 sampleAlgorithm sampleSigVerifier
      (sampleCryptoMemory 1 2) (true, []) [.I32 0, .I64 12884901985, .I32 64] =
        some ([.I32 1], none,
          sampleSigVerifier.Add (true, [])
            ⟨sampleAlgorithm.Encode (2 :: List.replicate 31 0), 1 :: List.replicate 63 0,
              [7, 8, 9], .ed25519⟩) :=
  ⟨rfl,
    (verify_imports_enqueue_when_batcher_started sampleAlgorithm sampleAlgorithm
      sampleAlgorithm (fun b => .ok b) sampleSigVerifier (sampleCryptoMemory 1 2) (true, [])
      0 12884901985 64 (1 :: List.replicate 63 0) [7, 8, 9] (2 :: List.replicate 31 0)
      (2 :: List.replicate 32 0) rfl (by decide) (by decide) (by decide) (by decide)).1
      (2 :: List.replicate 31 0) (by decide)⟩

/-! ## Key generation and signing imports -/

set_option maxRecDepth 8000 in
/-- C14, as stated, fails for `ext_crypto_sr25519_generate_version_1`: with a seed from which
no key pair can be derived it panics (imports.go line 506) instead of returning 0, while
`ext_crypto_ed25519_generate_version_1` returns 0 on the same memory and leaves the
keystore as it was. -/
theorem sr25519_generate_panics_on_bad_seed :
    ext_crypto_sr25519_generate_version_1 sampleAlgorithm sampleUnmarshalOption
      sampleKeystore sampleAllocator ⟨sampleKeyMemory, (17, 80)⟩ []
      [.I32 0, .I64 8589934596] = none ∧
    (ext_crypto_ed25519_generate_version_1 sampleAlgorithm sampleUnmarshalOption
      sampleKeystore sampleAllocator ⟨sampleKeyMemory, (17, 80)⟩ []
      [.I32 0, .I64 8589934596]).map (fun r => (r.1, r.2.1, r.2.2.1)) =
        some ([.I32 0], none, []) := by
  constructor
  · rfl
  · decide

/-- C14, amended: when the key type id and the seed span are inside the memory, both
generate imports return 0 with a nil error and leave the keystore and the memory as they
were when the seed option does not decode, when the keystore id is unknown and when the
keystore insert fails; when the key pair cannot be made,
`ext_crypto_ed25519_generate_version_1` does the same and
`ext_crypto_sr25519_generate_version_1` panics. -/
theorem generate_imports_on_error {PK KP K N A : Type} (ed25519 sr25519 : Algorithm PK KP)
    (unmarshal : Bytes → Except String (Option Bytes)) (ks : KeystoreOps K N PK KP)
    (al : AllocatorOps A) (heap : Heap A) (keystore : K) (keyTypeID seedSpan : Int)
    (id seedBytes : Bytes)
    (hid : sliceInt heap.Memory keyTypeID (addInt32 keyTypeID 4) = some id)
    (hseed : asMemorySlice heap.Memory seedSpan = some seedBytes) :
    (∀ err, unmarshal seedBytes = .error err →
      ext_crypto_ed25519_generate_version_1 ed25519 unmarshal ks al heap keystore
        [.I32 keyTypeID, .I64 seedSpan] = some ([.I32 0], none, keystore, heap) ∧
      ext_crypto_sr25519_generate_version_1 sr25519 unmarshal ks al heap keystore
        [.I32 keyTypeID, .I64 seedSpan] = some ([.I32 0], none, keystore, heap)) ∧
    (∀ seed err, unmarshal seedBytes = .ok seed → newKeypair ed25519 seed = .error err →
      ext_crypto_ed25519_generate_version_1 ed25519 unmarshal ks al heap keystore
        [.I32 keyTypeID, .I64 seedSpan] = some ([.I32 0], none, keystore, heap)) ∧
    (∀ seed err, unmarshal seedBytes = .ok seed → newKeypair sr25519 seed = .error err →
      ext_crypto_sr25519_generate_version_1 sr25519 unmarshal ks al heap keystore
        [.I32 keyTypeID, .I64 seedSpan] = none) ∧
    (∀ seed kp, unmarshal seedBytes = .ok seed → newKeypair ed25519 seed = .ok kp →
      ((∃ err, ks.GetKeystore keystore id = .error err) ∨
        ∃ store err, ks.GetKeystore keystore id = .ok store ∧
          ks.Insert keystore store kp = .error err) →
      ext_crypto_ed25519_generate_version_1 ed25519 unmarshal ks al heap keystore
        [.I32 keyTypeID, .I64 seedSpan] = some ([.I32 0], none, keystore, heap)) ∧
    (∀ seed kp, unmarshal seedBytes = .ok seed → newKeypair sr25519 seed = .ok kp →
      ((∃ err, ks.GetKeystore keystore id = .error err) ∨
        ∃ store err, ks.GetKeystore keystore id = .ok store ∧
          ks.Insert keystore store kp = .error err) →
      ext_crypto_sr25519_generate_version_1 sr25519 unmarshal ks al heap keystore
        [.I32 keyTypeID, .I64 seedSpan] = some ([.I32 0], none, keystore, heap)) := by
  refine ⟨?_, ?_, ?_, ?_, ?_⟩
  · intro err hu
    constructor
    · simp only [ext_crypto_ed25519_generate_version_1, List.get?, hid, hseed, hu]
    · simp only [ext_crypto_sr25519_generate_version_1, List.get?, hid, hseed, hu]
  · intro seed err hu hk
    simp only [ext_crypto_ed25519_generate_version_1, List.get?, hid, hseed, hu, hk]
  · intro seed err hu hk
    simp only [ext_crypto_sr25519_generate_version_1, List.get?, hid, hseed, hu, hk]
  · intro seed kp hu hk hcase
    simp only [ext_crypto_ed25519_generate_version_1, List.get?, hid, hseed, hu, hk,
      insertAndReturnPublicKey]
    rcases hcase with ⟨err, hg⟩ | ⟨store, err, hg, hi⟩
    · simp only [hg]
    · simp only [hg, hi]
  · intro seed kp hu hk hcase
    simp only [ext_crypto_sr25519_generate_version_1, List.get?, hid, hseed, hu, hk,
      insertAndReturnPublicKey]
    rcases hcase with ⟨err, hg⟩ | ⟨store, err, hg, hi⟩
    · simp only [hg]
    · simp only [hg, hi]

set_option maxRecDepth 8000 in
/-- C14 amended, on the sample memory with the seed `[254]`, whose key pair the sample
keystore refuses: both imports return 0 and the keystore stays empty. -/
theorem generate_imports_on_error_witness :
    sliceInt sampleKeyMemory 0 (addInt32 0 4) = some [98, 97, 98, 101] ∧
    asMemorySlice sampleKeyMemory 12884901898 = some [1, 4, 254] ∧
    ext_crypto_sr25519_generate_version_1 sampleAlgorithm sampleUnmarshalOption
      sampleKeystore sampleAllocator ⟨sampleKeyMemory, (17, 80)⟩ []
      [.I32 0, .I64 12884901898] =
        some ([.I32 0], none, [], ⟨sampleKeyMemory, (17, 80)⟩) :=
  ⟨by decide, by decide,
    (generate_imports_on_error sampleAlgorithm sampleAlgorithm sampleUnmarshalOption
      sampleKeystore sampleAllocator ⟨sampleKeyMemory, (17, 80)⟩ [] 0 12884901898
      [98, 97, 98, 101] [1, 4, 254] (by decide) (by decide)).2.2.2.2 (some [254]) [254]
      (by decide) (by decide)
      (Or.inr ⟨[98, 97, 98, 101], "key pair refused", by decide, by decide⟩)⟩

/-! ## Writing to the memory -/

theorem toWasmMemorySized_ok {A : Type} {al : AllocatorOps A} {heap heap1 : Heap A}
    {data : Bytes} {ptr : Nat} (h : toWasmMemorySized al heap data = some (.ok (ptr, heap1))) :
    ptr + data.length ≤ heap.Memory.length ∧
    heap1.Memory = heap.Memory.take ptr ++ data ++ heap.Memory.drop (ptr + data.length) := by
  unfold toWasmMemorySized at h
  cases ha : al.Allocate heap.Allocator data.length with
  | error err => simp [ha] at h
  | ok r =>
    obtain ⟨p, a⟩ := r
    simp only [ha] at h
    by_cases hle : p + data.length ≤ heap.Memory.length
    · simp only [hle, if_true, Option.some.injEq, Except.ok.injEq, Prod.mk.injEq] at h
      obtain ⟨hp, hh⟩ := h
      subst hp
      subst hh
      exact ⟨hle, rfl⟩
    · simp [hle] at h

/-- What is written by `toWasmMemory` is read back at the returned pointer-size, in a
memory of fewer than 2^32 bytes. -/
theorem asMemorySlice_toWasmMemory {A : Type} (al : AllocatorOps A) (heap heap1 : Heap A)
    (data : Bytes) (pointerSize : Int) (hlen : heap.Memory.length < 2 ^ 32)
    (h : toWasmMemory al heap data = some (.ok (pointerSize, heap1))) :
    asMemorySlice heap1.Memory pointerSize = some data := by
  unfold toWasmMemory at h
  cases hs : toWasmMemorySized al heap data with
  | none => simp [hs] at h
  | some r =>
    cases r with
    | error err => simp [hs] at h
    | ok v =>
      obtain ⟨ptr, heap2⟩ := v
      simp only [hs, Option.some.injEq, Except.ok.injEq, Prod.mk.injEq] at h
      obtain ⟨hps, hh⟩ := h
      subst hh
      obtain ⟨hle, hmem⟩ := toWasmMemorySized_ok hs
      have hlen1 : heap2.Memory.length = heap.Memory.length := by
        rw [hmem]
        simp only [List.length_append, List.length_take, List.length_drop]
        omega
      have hpow : (2 : Nat) ^ 32 = 4294967296 := by norm_num
      rw [hpow] at hlen
      have h1 : pointerSize % 2 ^ 32 = (ptr : Int) := by
        rw [← hps]
        unfold toPointerSize toInt64
        omega
      have h2 : pointerSize / 2 ^ 32 % 2 ^ 32 = (data.length : Int) := by
        rw [← hps]
        unfold toPointerSize toInt64
        omega
      unfold asMemorySlice
      simp only [h1, h2]
      have h3 : ((ptr : Int) + (data.length : Int)) % 2 ^ 32 = ((ptr + data.length : Nat) : Int) := by
        omega
      rw [h3]
      unfold sliceInt
      have hcond : (0 : Int) ≤ (ptr : Int) ∧ (ptr : Int) ≤ ((ptr + data.length : Nat) : Int) ∧
          ((ptr + data.length : Nat) : Int) ≤ (heap2.Memory.length : Int) := by
        refine ⟨by omega, by omega, ?_⟩
        rw [hlen1]
        exact_mod_cast hle
      rw [if_pos hcond]
      have h4 : ((ptr : Int)).toNat = ptr := by omega
      have h5 : (((ptr + data.length : Nat) : Int) - (ptr : Int)).toNat = data.length := by omega
      rw [h4, h5, hmem]
      have h6 : (heap.Memory.take ptr).length = ptr := by
        rw [List.length_take]
        omega
      rw [List.append_assoc, List.drop_append_of_le_length (by omega)]
      rw [List.drop_of_length_le (by omega)]
      simp

/-! ## Offchain compare-and-set -/

/-- C16, as stated, fails on the code: with the value `[5]` stored under the key and the
old value `[6]`, `ext_offchain_local_storage_compare_and_set_version_1` writes nothing
and returns 1, not 0, for the kind Local and for the kind Persistent. -/
theorem compare_and_set_returns_one_on_mismatch :
    ext_offchain_local_storage_compare_and_set_version_1 sampleStore sampleStoreMemory
      ⟨[], [([1], [5])]⟩ [.I32 2, .I64 4294967296, .I64 4294967297, .I64 4294967298] =
        some ([.I32 1], none, ⟨[], [([1], [5])]⟩) ∧
    ext_offchain_local_storage_compare_and_set_version_1 sampleStore sampleStoreMemory
      ⟨[([1], [5])], []⟩ [.I32 1, .I64 4294967296, .I64 4294967297, .I64 4294967298] =
        some ([.I32 1], none, ⟨[([1], [5])], []⟩) :=
  ⟨rfl, rfl⟩

/-- C17, as stated, fails: with no value stored under the key and an empty old value
nothing is put in the Local store, whether `Get` of an absent key gives a nil slice
(the import returns 1) or an error (it returns 0). -/
theorem compare_and_set_absent_value_is_not_empty :
    asMemorySlice sampleStoreMemory 3 = some [] ∧
    ext_offchain_local_storage_compare_and_set_version_1 sampleStore sampleStoreMemory
      ⟨[], []⟩ [.I32 2, .I64 4294967296, .I64 3, .I64 4294967298] =
        some ([.I32 1], none, ⟨[], []⟩) ∧
    ext_offchain_local_storage_compare_and_set_version_1 sampleStrictStore sampleStoreMemory
      ⟨[], []⟩ [.I32 2, .I64 4294967296, .I64 3, .I64 4294967298] =
        some ([.I32 0], none, ⟨[], []⟩) :=
  ⟨by decide, rfl, rfl⟩

/-- C17, amended: for the kinds Persistent and Local, when the value read from the store
selected by the kind is not nil and has the bytes of the old value, the new value is put
under the key in the Local store; the Persistent store is never modified; when the value
read is nil or differs from the old value, and when the read fails, neither store is
modified. -/
theorem compare_and_set_writes_local {D : Type} (db : BasicStorageOps D) (memory : Bytes)
    (nodeStorage : NodeStorage D) (kind key oldValue newValue : Int)
    (storageKey oldVal newVal : Bytes)
    (hkind : kind = NodeStorageTypePersistent ∨ kind = NodeStorageTypeLocal)
    (hkey : asMemorySlice memory key = some storageKey)
    (hold : asMemorySlice memory oldValue = some oldVal)
    (hnew : asMemorySlice memory newValue = some newVal) :
    (db.Get (if kind = NodeStorageTypePersistent then nodeStorage.PersistentStorage
        else nodeStorage.LocalStorage) storageKey = .ok (some oldVal) →
      ∀ localStorage, db.Put nodeStorage.LocalStorage storageKey newVal = .ok localStorage →
        ext_offchain_local_storage_compare_and_set_version_1 db memory nodeStorage
          [.I32 kind, .I64 key, .I64 oldValue, .I64 newValue] =
            some ([.I32 1], none, ⟨nodeStorage.PersistentStorage, localStorage⟩)) ∧
    (∀ r, ext_offchain_local_storage_compare_and_set_version_1 db memory nodeStorage
        [.I32 kind, .I64 key, .I64 oldValue, .I64 newValue] = some r →
      r.2.2.PersistentStorage = nodeStorage.PersistentStorage) ∧
    (∀ stored, db.Get (if kind = NodeStorageTypePersistent then nodeStorage.PersistentStorage
        else nodeStorage.LocalStorage) storageKey = stored → stored ≠ .ok (some oldVal) →
      ∃ values, ext_offchain_local_storage_compare_and_set_version_1 db memory nodeStorage
        [.I32 kind, .I64 key, .I64 oldValue, .I64 newValue] =
          some (values, none, nodeStorage)) := by
  have hstored : (if kind = NodeStorageTypePersistent then
        db.Get nodeStorage.PersistentStorage storageKey
      else if kind = NodeStorageTypeLocal then db.Get nodeStorage.LocalStorage storageKey
      else .ok none) =
      db.Get (if kind = NodeStorageTypePersistent then nodeStorage.PersistentStorage
        else nodeStorage.LocalStorage) storageKey := by
    rcases hkind with hk | hk
    · simp [hk]
    · subst hk
      simp [NodeStorageTypePersistent, NodeStorageTypeLocal]
  refine ⟨?_, ?_, ?_⟩
  · intro hget localStorage hput
    simp only [ext_offchain_local_storage_compare_and_set_version_1, List.get?, hkey, hstored,
      hget, hold, hnew, hput, if_true]
  · intro r hr
    simp only [ext_offchain_local_storage_compare_and_set_version_1, List.get?, hkey, hstored,
      hold, hnew] at hr
    cases hget : db.Get (if kind = NodeStorageTypePersistent then nodeStorage.PersistentStorage
        else nodeStorage.LocalStorage) storageKey with
    | error err =>
      simp only [hget, Option.some.injEq] at hr
      subst hr
      rfl
    | ok stored =>
      simp only [hget] at hr
      by_cases heq : stored = some oldVal
      · simp only [heq, if_true] at hr
        cases hput : db.Put nodeStorage.LocalStorage storageKey newVal with
        | error err =>
          simp only [hput, Option.some.injEq] at hr
          subst hr
          rfl
        | ok localStorage =>
          simp only [hput, Option.some.injEq] at hr
          subst hr
          rfl
      · simp only [heq, if_false, Option.some.injEq] at hr
        subst hr
        rfl
  · intro stored hget hne
    simp only [ext_offchain_local_storage_compare_and_set_version_1, List.get?, hkey, hstored,
      hget, hold, hnew]
    cases stored with
    | error err => exact ⟨_, rfl⟩
    | ok v =>
      have hv : ¬ v = some oldVal := by
        intro h
        apply hne
        rw [h]
      simp only [hv, if_false]
      exact ⟨_, rfl⟩

/-- C17 amended, with the kind Persistent, the value `[6]` stored in the Persistent store
and the old value `[6]`: the new value `[7]` is put in the Local store. -/
theorem compare_and_set_writes_local_witness :
    (1 : Int) = NodeStorageTypePersistent ∧
    ext_offchain_local_storage_compare_and_set_version_1 sampleStore sampleStoreMemory
      ⟨[([1], [6])], []⟩ [.I32 1, .I64 4294967296, .I64 4294967297, .I64 4294967298] =
        some ([.I32 1], none, ⟨[([1], [6])], [([1], [7])]⟩) :=
  ⟨rfl,
    (compare_and_set_writes_local sampleStore sampleStoreMemory ⟨[([1], [6])], []⟩ 1
      4294967296 4294967297 4294967298 [1] [6] [7] (Or.inl rfl) (by decide) (by decide)
      (by decide)).1 (by decide) [([1], [7])] (by decide)⟩

/-! ## Clearing storage -/

/-- C18: a call of `ext_storage_clear_prefix_version_2` whose limit decodes to the empty
vector (None) invokes `ClearPrefixLimit(prefix, 4294967295)`: its result is made from the
result of that call as spelled out here.  When that call returns `(numRemoved, all)` and
the storage it has written, and the encoding of the result can be written to the memory,
the import leaves that storage and returns the pointer-size of the encoding
`toKillStorageResultEnum(all, numRemoved)`; when that call fails the storage is left as
it was.  A call, in the same state, whose limit decodes to the four bytes ff ff ff ff
gives the same returned values, storage and memory. -/
theorem clear_prefix_limit_none_is_max {S A : Type}
    (unmarshal : Bytes → Except String Bytes) (st : StorageOps S) (al : AllocatorOps A)
    (heap : Heap A) (storage : S) (prefixSpan limNone limMax : Int)
    (keyPrefix limitBytesNone limitBytesMax : Bytes)
    (hp : asMemorySlice heap.Memory prefixSpan = some keyPrefix)
    (hspanNone : asMemorySlice heap.Memory limNone = some limitBytesNone)
    (hspanMax : asMemorySlice heap.Memory limMax = some limitBytesMax)
    (hnone : unmarshal limitBytesNone = .ok [])
    (hmax : unmarshal limitBytesMax = .ok [0xff, 0xff, 0xff, 0xff]) :
    ext_storage_clear_prefix_version_2 unmarshal st al heap storage
      [.I64 prefixSpan, .I64 limNone] =
      (match st.ClearPrefixLimit storage keyPrefix 4294967295 with
        | .error _ =>
          (mustToWasmMemoryNil al heap).map fun r => (r.1, none, storage, r.2)
        | .ok (numRemoved, all, storage1) =>
          match toWasmMemory al heap (toKillStorageResultEnum all numRemoved) with
          | none => none
          | some (.error _) =>
            (mustToWasmMemoryNil al heap).map fun r => (r.1, none, storage1, r.2)
          | some (.ok (valueSpan, heap1)) => some ([.I64 valueSpan], none, storage1, heap1)) ∧
    (∀ numRemoved all storage1 valueSpan heap1,
      st.ClearPrefixLimit storage keyPrefix 4294967295 = .ok (numRemoved, all, storage1) →
      toWasmMemory al heap (toKillStorageResultEnum all numRemoved) =
        some (.ok (valueSpan, heap1)) →
      ext_storage_clear_prefix_version_2 unmarshal st al heap storage
        [.I64 prefixSpan, .I64 limNone] = some ([.I64 valueSpan], none, storage1, heap1) ∧
      ext_storage_clear_prefix_version_2 unmarshal st al heap storage
        [.I64 prefixSpan, .I64 limMax] = some ([.I64 valueSpan], none, storage1, heap1) ∧
      (heap.Memory.length < 2 ^ 32 →
        returnedBytes [.I64 valueSpan] heap1 =
          some (toKillStorageResultEnum all numRemoved))) ∧
    (∀ err, st.ClearPrefixLimit storage keyPrefix 4294967295 = .error err →
      ∀ r, ext_storage_clear_prefix_version_2 unmarshal st al heap storage
        [.I64 prefixSpan, .I64 limNone] = some r → r.2.2.1 = storage) ∧
    ext_storage_clear_prefix_version_2 unmarshal st al heap storage
      [.I64 prefixSpan, .I64 limNone] =
    ext_storage_clear_prefix_version_2 unmarshal st al heap storage
      [.I64 prefixSpan, .I64 limMax] := by
  have hspelled : clearPrefixWithLimit st al heap storage keyPrefix 4294967295 =
      (match st.ClearPrefixLimit storage keyPrefix 4294967295 with
        | .error _ =>
          (mustToWasmMemoryNil al heap).map fun r => (r.1, none, storage, r.2)
        | .ok (numRemoved, all, storage1) =>
          match toWasmMemory al heap (toKillStorageResultEnum all numRemoved) with
          | none => none
          | some (.error _) =>
            (mustToWasmMemoryNil al heap).map fun r => (r.1, none, storage1, r.2)
          | some (.ok (valueSpan, heap1)) =>
            some ([.I64 valueSpan], none, storage1, heap1)) := by
    unfold clearPrefixWithLimit
    cases st.ClearPrefixLimit storage keyPrefix 4294967295 with
    | error err => cases mustToWasmMemoryNil al heap <;> rfl
    | ok v =>
      obtain ⟨numRemoved, all, storage1⟩ := v
      simp only
      cases toWasmMemory al heap (toKillStorageResultEnum all numRemoved) with
      | none => rfl
      | some w =>
        cases w with
        | error err => cases mustToWasmMemoryNil al heap <;> rfl
        | ok x => rfl
  have h1 : ext_storage_clear_prefix_version_2 unmarshal st al heap storage
      [.I64 prefixSpan, .I64 limNone] =
        clearPrefixWithLimit st al heap storage keyPrefix 4294967295 := by
    simp [ext_storage_clear_prefix_version_2, hp, hspanNone, hnone, uint32LE]
  have h2 : ext_storage_clear_prefix_version_2 unmarshal st al heap storage
      [.I64 prefixSpan, .I64 limMax] =
        clearPrefixWithLimit st al heap storage keyPrefix 4294967295 := by
    simp [ext_storage_clear_prefix_version_2, hp, hspanMax, hmax, uint32LE]
  refine ⟨h1.trans hspelled, ?_, ?_, h1.trans h2.symm⟩
  · intro numRemoved all storage1 valueSpan heap1 hclear hwrite
    refine ⟨?_, ?_, fun hlen => asMemorySlice_toWasmMemory al heap heap1 _ valueSpan hlen hwrite⟩
    · rw [h1, hspelled]
      simp only [hclear, hwrite]
    · rw [h2, hspelled]
      simp only [hclear, hwrite]
  · intro err hclear r hr
    rw [h1, hspelled] at hr
    simp only [hclear] at hr
    cases hm : mustToWasmMemoryNil al heap with
    | none => simp [hm] at hr
    | some v =>
      simp only [hm, Option.map_some', Option.some.injEq] at hr
      subst hr
      rfl

set_option maxRecDepth 8000 in
/-- C18, on the sample storage of ten keys under `[9]`: the call with the encoded empty
limit and the call with the encoded limit ff ff ff ff both remove the ten keys and
return the pointer-size of `[0, 10, 0, 0, 0]`, written at 12. -/
theorem clear_prefix_limit_none_is_max_witness :
    asMemorySlice sampleLimitMemory 4294967296 = some [9] ∧
    asMemorySlice sampleLimitMemory 4294967297 = some [0] ∧
    asMemorySlice sampleLimitMemory 21474836482 = some [16, 255, 255, 255, 255] ∧
    sampleUnmarshalBytes [0] = .ok [] ∧
    sampleUnmarshalBytes [16, 255, 255, 255, 255] = .ok [255, 255, 255, 255] ∧
    specStorage.ClearPrefixLimit sampleStorage [9] 4294967295 = .ok (10, true, []) ∧
    ext_storage_clear_prefix_version_2 sampleUnmarshalBytes specStorage sampleAllocator
      ⟨sampleLimitMemory, (12, 40)⟩ sampleStorage [.I64 4294967296, .I64 4294967297] =
      some ([.I64 21474836492], none, [],
        ⟨sampleLimitMemory.take 12 ++ [0, 10, 0, 0, 0] ++ sampleLimitMemory.drop 17,
          (17, 40)⟩) ∧
    ext_storage_clear_prefix_version_2 sampleUnmarshalBytes specStorage sampleAllocator
      ⟨sampleLimitMemory, (12, 40)⟩ sampleStorage [.I64 4294967296, .I64 21474836482] =
      some ([.I64 21474836492], none, [],
        ⟨sampleLimitMemory.take 12 ++ [0, 10, 0, 0, 0] ++ sampleLimitMemory.drop 17,
          (17, 40)⟩) :=
  have h := (clear_prefix_limit_none_is_max sampleUnmarshalBytes specStorage sampleAllocator
      ⟨sampleLimitMemory, (12, 40)⟩ sampleStorage 4294967296 4294967297 21474836482 [9] [0]
      [16, 255, 255, 255, 255] (by decide) (by decide) (by decide) (by decide)
      (by decide)).2.1 10 true [] 21474836492
      ⟨sampleLimitMemory.take 12 ++ [0, 10, 0, 0, 0] ++ sampleLimitMemory.drop 17, (17, 40)⟩
      (by decide) (by decide)
  ⟨by decide, by decide, by decide, by decide, by decide, by decide, h.1, h.2.1⟩

set_option maxRecDepth 8000 in
/-- C19, as stated, fails on the code: the limit span is decoded as a byte vector, and
the limit Some(0) in the Option encoding, `01 00 00 00 00`, decodes to the empty vector
(its first byte and the next are a compact length 0); the import takes the empty vector
for None and calls `ClearPrefixLimit` with the limit ff ff ff ff.  On the storage of ten
keys under `[9]` all ten keys are removed and the encoding `[0, 10, 0, 0, 0]` of
NoneRemain(10) is returned, where the claim says the storage is unchanged and
`[1, 0, 0, 0, 0]`, SomeRemain(0), is returned. -/
theorem clear_prefix_limit_some_zero_clears_all :
    asMemorySlice sampleSomeZeroMemory (5 * 2 ^ 32 + 1) = some [1, 0, 0, 0, 0] ∧
    encodeOptionBytes none = [0] ∧
    specUnmarshalBytes [1, 0, 0, 0, 0] = .ok [] ∧
    sampleStorage.length = 10 ∧
    (ext_storage_clear_prefix_version_2 specUnmarshalBytes specStorage sampleAllocator
        ⟨sampleSomeZeroMemory, (6, 40)⟩ sampleStorage
        [.I64 (1 * 2 ^ 32), .I64 (5 * 2 ^ 32 + 1)]).map
      (fun r => (r.1, r.2.1, r.2.2.1.length, returnedBytes r.1 r.2.2.2)) =
      some ([.I64 (5 * 2 ^ 32 + 6)], none, 0, some [0, 10, 0, 0, 0]) ∧
    toKillStorageResultEnum false 0 = [1, 0, 0, 0, 0] := by
  refine ⟨?_, ?_, ?_, ?_, ?_, ?_⟩ <;> decide

set_option maxRecDepth 8000 in
/-- C20, as stated, fails on the code: `ext_default_child_storage_storage_kill_version_3`
hands the encoded tagged union to `toWasmMemoryOptional`, so what is written and
returned is an optional byte vector, the byte `01`, the compact length `14` and then the
tag and the number.  For the child of ten keys with the limit 3 the returned span holds
`[1, 20, 1, 3, 0, 0, 0]`, and with no limit `[1, 20, 0, 10, 0, 0, 0]`, where the claim
says `[1, 3, 0, 0, 0]`, SomeRemain(3), and `[0, 10, 0, 0, 0]`, NoneRemain(10);
`ext_storage_clear_prefix_version_2` returns the bare `[0, 10, 0, 0, 0]` for the same
result. -/
theorem storage_kill_version_3_returns_an_optional_vector :
    asMemorySlice sampleKillMemory (6 * 2 ^ 32 + 1) = some [1, 16, 3, 0, 0, 0] ∧
    sampleUnmarshalOption [1, 16, 3, 0, 0, 0] = .ok (some [3, 0, 0, 0]) ∧
    (ext_default_child_storage_storage_kill_version_3 sampleUnmarshalOption specStorage
        sampleAllocator ⟨sampleKillMemory, (8, 40)⟩ sampleStorage
        [.I64 (1 * 2 ^ 32), .I64 (6 * 2 ^ 32 + 1)]).map
      (fun r => (r.1, r.2.1, r.2.2.1.length, returnedBytes r.1 r.2.2.2)) =
      some ([.I64 (7 * 2 ^ 32 + 8)], none, 7, some [1, 20, 1, 3, 0, 0, 0]) ∧
    marshalKillStorageResult (.someRemain 3) = [1, 3, 0, 0, 0] ∧
    (ext_default_child_storage_storage_kill_version_3 sampleUnmarshalOption specStorage
        sampleAllocator ⟨sampleKillMemory, (8, 40)⟩ sampleStorage
        [.I64 (1 * 2 ^ 32), .I64 (1 * 2 ^ 32 + 7)]).map
      (fun r => (r.1, r.2.1, r.2.2.1.length, returnedBytes r.1 r.2.2.2)) =
      some ([.I64 (7 * 2 ^ 32 + 8)], none, 0, some [1, 20, 0, 10, 0, 0, 0]) ∧
    marshalKillStorageResult (.noneRemain 10) = [0, 10, 0, 0, 0] ∧
    (ext_storage_clear_prefix_version_2 sampleUnmarshalBytes specStorage sampleAllocator
        ⟨sampleLimitMemory, (12, 40)⟩ sampleStorage
        [.I64 (1 * 2 ^ 32), .I64 (1 * 2 ^ 32 + 1)]).map
      (fun r => (r.1, r.2.1, r.2.2.1.length, returnedBytes r.1 r.2.2.2)) =
      some ([.I64 (5 * 2 ^ 32 + 12)], none, 0, some [0, 10, 0, 0, 0]) := by
  refine ⟨?_, ?_, ?_, ?_, ?_, ?_, ?_⟩ <;> decide

/-! ## The gauge and the size of the map -/

/-- C26: in a state whose gauge equals the number of map entries, the gauge equals the
number of map entries again after `softSet(root, trie)` and after `delete(root)`;
`softSet` adds 1 to the gauge when `root` was not in the map, and then the map has one
entry more, and leaves the gauge and the map as they were when `root` was in the map.
The methods `get` and `len` only read: they are functions of the state that return no
state. -/
theorem Tries.gauge_eq_len_preserved (t : Tries) (root : Hash) (trie : Option Trie)
    (h : t.triesGauge = (t.len : Int)) :
    (t.softSet root trie).triesGauge = ((t.softSet root trie).len : Int) ∧
    (t.delete root).triesGauge = ((t.delete root).len : Int) ∧
    (t.rootToTrie.lookup root = none →
      (t.softSet root trie).triesGauge = t.triesGauge + 1 ∧
      (t.softSet root trie).len = t.len + 1 ∧
      (t.softSet root trie).rootToTrie.lookup root = some trie) ∧
    ((t.rootToTrie.lookup root).isSome = true → t.softSet root trie = t) ∧
    ((t.softSet root trie).triesGauge = t.triesGauge + 1 ↔
      t.rootToTrie.lookup root = none) := by
  have hins : t.rootToTrie.lookup root = none →
      (t.rootToTrie.insert root trie).entries.length = t.rootToTrie.entries.length + 1 := by
    intro hnone
    rw [AList.insert_entries_of_neg (AList.lookup_eq_none.1 hnone)]
    rfl
  refine ⟨?_, rfl, ?_, ?_, ?_⟩
  · cases hl : t.rootToTrie.lookup root with
    | some stored => simpa [Tries.softSet, hl] using h
    | none =>
      have := hins hl
      simp only [Tries.softSet, hl, Tries.len] at h ⊢
      omega
  · intro hl
    refine ⟨by simp [Tries.softSet, hl], ?_, by simp [Tries.softSet, hl, AList.lookup_insert]⟩
    simpa [Tries.softSet, hl, Tries.len] using hins hl
  · intro hl
    obtain ⟨stored, hs⟩ := Option.isSome_iff_exists.1 hl
    simp [Tries.softSet, hs]
  · cases hl : t.rootToTrie.lookup root with
    | some stored => simp [Tries.softSet, hl]
    | none => simp [Tries.softSet, hl]

/-- C26, on the cache holding one trie at the root `[1]` with the gauge at 1, for the
root `[2]`. -/
theorem Tries.gauge_eq_len_preserved_witness :
    (⟨AList.singleton [1] (some ⟨none⟩), 1⟩ : Tries).triesGauge =
      ((⟨AList.singleton [1] (some ⟨none⟩), 1⟩ : Tries).len : Int) ∧
    ((⟨AList.singleton [1] (some ⟨none⟩), 1⟩ : Tries).softSet [2] (some ⟨none⟩)).triesGauge =
      (((⟨AList.singleton [1] (some ⟨none⟩), 1⟩ : Tries).softSet [2] (some ⟨none⟩)).len : Int) :=
  ⟨rfl, (Tries.gauge_eq_len_preserved ⟨AList.singleton [1] (some ⟨none⟩), 1⟩ [2]
    (some ⟨none⟩) rfl).1⟩

/-! ## The value compared with the root hash -/

theorem indexedNode_fields {ext : Externals} {enc : Bytes} {n : Node}
    (h : indexedNode ext enc = some n) :
    ext.MerkleValue enc false = .ok n.HashDigest ∧ n.Encoding = enc ∧ n.Dirty = false := by
  unfold indexedNode at h
  cases hd : ext.Decode enc <;> cases hv : ext.MerkleValue enc false <;>
    simp only [hd, hv, reduceCtorEq, Option.some.injEq] at h
  subst h
  rename_i d v
  cases d
  exact ⟨rfl, rfl, rfl⟩

theorem Node.fields_setHashDigest (n : Node) (h : Bytes) :
    (n.setHashDigest h).Encoding = n.Encoding ∧ (n.setHashDigest h).Dirty = n.Dirty := by
  cases n
  exact ⟨rfl, rfl⟩

/-- When the non-root Merkle value is at most 32 bytes long, the value `buildTrie`
compares with the root hash is the root Merkle value. -/
theorem rootMerkleValue_of_short {ext : Externals} {enc : Bytes}
    (hshort : ∀ h, ext.MerkleValue enc false = .ok h → h.length ≤ 32)
    (hok : nodeOk ext enc = true) :
    rootMerkleValue ext enc = ext.MerkleValue enc true := by
  unfold nodeOk at hok
  unfold rootMerkleValue
  cases hd : ext.Decode enc <;> cases hv : ext.MerkleValue enc false <;>
    simp only [hd, hv, reduceCtorEq] at hok
  rename_i d v
  simp [hshort v hv]

/-- Once the root is found the loop of `buildTrie` keeps it. -/
theorem buildTrieLoop_keeps_root {ext : Externals} {rootHash : Bytes} {r : Node}
    (P : List Bytes) :
    ∀ st st1 : LoopState, buildTrieLoop ext rootHash st P = .ok st1 → st.root = some r →
      st1.root = some r := by
  induction P with
  | nil =>
    intro st st1 h hr
    simp only [buildTrieLoop, Except.ok.injEq] at h
    rw [← h]; exact hr
  | cons enc rest ih =>
    intro st st1 h hr
    cases hs : buildTrieStep ext rootHash st enc with
    | error err => rw [buildTrieLoop_cons_error rest hs] at h; cases h
    | ok st2 =>
      rw [buildTrieLoop_cons_ok rest hs] at h
      obtain ⟨n, k, -, -, hcase⟩ := buildTrieStep_ok_inv hs
      rcases hcase with ⟨r1, hr1, h2⟩ | ⟨hnone, -, -⟩ | ⟨hnone, -, -, -⟩
      · rw [hr] at hr1
        injection hr1 with hr1
        subst hr1
        exact ih st2 st1 h (by rw [h2])
      · rw [hr] at hnone; cases hnone
      · rw [hr] at hnone; cases hnone

/-- The entries of the map after the loop of `buildTrie`: an entry is one the map held
before, or the indexed node of an encoded node of the list, or the node taken as root
by this loop. -/
theorem buildTrieLoop_entries {ext : Externals} {rootHash : Bytes} (P : List Bytes) :
    ∀ st st1 : LoopState, buildTrieLoop ext rootHash st P = .ok st1 →
      ∀ k node, st1.proofHashToNode k = some node →
        st.proofHashToNode k = some node ∨
        (∃ e ∈ P, proofHashOf ext e = some k ∧ indexedNode ext e = some node) ∨
        (st.root = none ∧ st1.root = some node ∧
          ∃ e ∈ P, proofHashOf ext e = some k ∧
            ∃ n, indexedNode ext e = some n ∧ node = n.setHashDigest rootHash) := by
  induction P with
  | nil =>
    intro st st1 h k node hk
    simp only [buildTrieLoop, Except.ok.injEq] at h
    rw [← h] at hk
    exact Or.inl hk
  | cons enc rest ih =>
    intro st st1 h k node hk
    cases hs : buildTrieStep ext rootHash st enc with
    | error err => rw [buildTrieLoop_cons_error rest hs] at h; cases h
    | ok st2 =>
      rw [buildTrieLoop_cons_ok rest hs] at h
      obtain ⟨n, k0, hn, hk0, hcase⟩ := buildTrieStep_ok_inv hs
      have hroot2 : st2.root = none → st.root = none := by
        intro h2
        rcases hcase with ⟨r1, -, hst⟩ | ⟨-, -, hst⟩ | ⟨hnone, -, -, -⟩
        · rw [hst] at h2; cases h2
        · rw [hst] at h2; cases h2
        · exact hnone
      rcases ih st2 st1 h k node hk with hold | ⟨e, he, hke, hne⟩ | ⟨h2, h1, e, he, hke, hne⟩
      · -- the entry was in the map after the first iteration
        have hindexed : ∀ m : ProofMap, (m.set k0 n) k = some node →
            m k = some node ∨ (proofHashOf ext enc = some k ∧ indexedNode ext enc = some node) := by
          intro m hm
          by_cases hkk : k = k0
          · subst hkk
            simp only [ProofMap.set, if_true, Option.some.injEq] at hm
            subst hm
            exact Or.inr ⟨hk0, hn⟩
          · simp only [ProofMap.set, hkk, if_false] at hm
            exact Or.inl hm
        rcases hcase with ⟨r1, -, hst⟩ | ⟨hnone, -, hst⟩ | ⟨hnone, -, -, hst⟩
        · rw [hst] at hold
          rcases hindexed _ hold with h0 | ⟨h1, h2⟩
          · exact Or.inl h0
          · exact Or.inr (Or.inl ⟨enc, List.mem_cons_self _ _, h1, h2⟩)
        · rw [hst] at hold
          by_cases hkk : k = k0
          · subst hkk
            simp only [ProofMap.set, if_true, Option.some.injEq] at hold
            refine Or.inr (Or.inr ⟨hnone, ?_, enc, List.mem_cons_self _ _, hk0, n, hn, hold.symm⟩)
            rw [← hold]
            exact buildTrieLoop_keeps_root rest st2 st1 h (by rw [hst])
          · simp only [ProofMap.set, hkk, if_false] at hold
            exact Or.inl hold
        · rw [hst] at hold
          rcases hindexed _ hold with h0 | ⟨h1, h2⟩
          · exact Or.inl h0
          · exact Or.inr (Or.inl ⟨enc, List.mem_cons_self _ _, h1, h2⟩)
      · exact Or.inr (Or.inl ⟨e, List.mem_cons_of_mem _ he, hke, hne⟩)
      · exact Or.inr (Or.inr ⟨hroot2 h2, h1, e, List.mem_cons_of_mem _ he, hke, hne⟩)

/-- An iteration of the loop of `buildTrie`, the root not being found yet, on a decodable
node whose non-root Merkle value is at most 32 bytes long: the value compared with the
root hash is the root Merkle value. -/
theorem buildTrieStep_of_short {ext : Externals} {rootHash enc : Bytes} {st : LoopState}
    {n : Node} {k : String} (hr : st.root = none)
    (hn : indexedNode ext enc = some n) (hk : proofHashOf ext enc = some k)
    (hshort : ∀ h, ext.MerkleValue enc false = .ok h → h.length ≤ 32) :
    buildTrieStep ext rootHash st enc =
      (match ext.MerkleValue enc true with
        | .error err => .error (.errorf "merkle value of possible root node: %w" (.foreign err))
        | .ok possibleRootMerkleValue =>
          if rootHash = possibleRootMerkleValue then
            .ok ⟨st.proofHashToNode.set k (n.setHashDigest rootHash),
              some (n.setHashDigest rootHash)⟩
          else .ok ⟨st.proofHashToNode.set k n, none⟩) := by
  unfold indexedNode at hn
  unfold proofHashOf at hk
  unfold buildTrieStep
  cases hd : ext.Decode enc <;> cases hv : ext.MerkleValue enc false <;>
    simp only [hd, hv, reduceCtorEq, Option.some.injEq] at hn hk
  subst hn; subst hk
  rename_i d v
  simp only [hr, Node.HashDigest_setHashDigest, hshort v hv, if_true]
  cases hv2 : ext.MerkleValue enc true with
  | error err => rfl
  | ok w =>
    by_cases hw : rootHash = w
    · simp [hw, ProofMap.set_set]
    · simp [hw]

/-- C27: in a proof of decodable nodes whose non-root Merkle values are at most 32 bytes
long, the value `buildTrie` compares with the root hash is `MerkleValue(encoding, true)`
for every node (the comparison with the non-root Merkle value is not reached).  When the
root Merkle values of the nodes before `enc` can be computed and differ from the root
hash and the one of `enc` is the root hash, the node of `enc` is the root `buildTrie`
loads its trie from, with the root hash as hash digest, `enc` as encoding and a false
dirty flag, and every other node of the index has the non-root Merkle value of its
encoded node as hash digest, that encoded node as encoding and a false dirty flag. -/
theorem buildTrie_root_is_first_root_merkle_match (ext : Externals) (A B : List Bytes)
    (enc rootHash : Bytes)
    (hok : ∀ e ∈ A ++ enc :: B, nodeOk ext e = true)
    (hshort : ∀ e ∈ A ++ enc :: B, ∀ h, ext.MerkleValue e false = .ok h → h.length ≤ 32)
    (hA : ∀ a ∈ A, ∃ v, ext.MerkleValue a true = .ok v ∧ v ≠ rootHash)
    (hmatch : ext.MerkleValue enc true = .ok rootHash) :
    (∀ e ∈ A ++ enc :: B, rootMerkleValue ext e = ext.MerkleValue e true) ∧
    (∀ e ∈ A ++ enc :: B, ∀ (st : LoopState) n k, st.root = none →
      indexedNode ext e = some n → proofHashOf ext e = some k →
      buildTrieStep ext rootHash st e =
        (match ext.MerkleValue e true with
          | .error err =>
            .error (.errorf "merkle value of possible root node: %w" (.foreign err))
          | .ok possibleRootMerkleValue =>
            if rootHash = possibleRootMerkleValue then
              .ok ⟨st.proofHashToNode.set k (n.setHashDigest rootHash),
                some (n.setHashDigest rootHash)⟩
            else .ok ⟨st.proofHashToNode.set k n, none⟩)) ∧
    ∃ n m, indexedNode ext enc = some n ∧
      buildTrieLoop ext rootHash ⟨ProofMap.empty, none⟩ (A ++ enc :: B) =
        .ok ⟨m, some (n.setHashDigest rootHash)⟩ ∧
      (∀ fuel, buildTrie ext fuel (A ++ enc :: B) rootHash =
        (loadProof fuel m (n.setHashDigest rootHash)).map fun loaded => .ok (NewTrie loaded)) ∧
      (n.setHashDigest rootHash).HashDigest = rootHash ∧
      (n.setHashDigest rootHash).Encoding = enc ∧
      (n.setHashDigest rootHash).Dirty = false ∧
      ∀ k node, m k = some node → node ≠ n.setHashDigest rootHash →
        ∃ e ∈ A ++ enc :: B, proofHashOf ext e = some k ∧
          ext.MerkleValue e false = .ok node.HashDigest ∧ node.Encoding = e ∧
          node.Dirty = false := by
  have hrmv : ∀ e ∈ A ++ enc :: B, rootMerkleValue ext e = ext.MerkleValue e true :=
    fun e he => rootMerkleValue_of_short (hshort e he) (hok e he)
  have hmemA : ∀ a ∈ A, a ∈ A ++ enc :: B := fun a ha => List.mem_append_left _ ha
  have hmemE : enc ∈ A ++ enc :: B := List.mem_append_right _ (List.mem_cons_self _ _)
  have hmemB : ∀ b ∈ B, b ∈ A ++ enc :: B :=
    fun b hb => List.mem_append_right _ (List.mem_cons_of_mem _ hb)
  refine ⟨hrmv, ?_, ?_⟩
  · intro e he st n k hr hn hk
    exact buildTrieStep_of_short hr hn hk (hshort e he)
  · obtain ⟨n, k, hn, -⟩ := (nodeOk_iff ext enc).1 (hok enc hmemE)
    have hokA : ∀ a ∈ A, nodeOk ext a = true ∧ merkleOk ext a = true := by
      intro a ha
      refine ⟨hok a (hmemA a ha), ?_⟩
      obtain ⟨v, hv, -⟩ := hA a ha
      unfold merkleOk
      rw [hrmv a (hmemA a ha), hv]
    have hnoA : ∀ a ∈ A, rootMatches ext rootHash a = false := by
      intro a ha
      obtain ⟨v, hv, hne⟩ := hA a ha
      unfold rootMatches
      rw [hrmv a (hmemA a ha), hv]
      simpa using fun h : rootHash = v => hne h.symm
    have hm1 : rootMatches ext rootHash enc = true := by
      unfold rootMatches
      rw [hrmv enc hmemE, hmatch]
      simp
    obtain ⟨m, hm⟩ := buildTrieLoop_of_first_match A B enc hokA hnoA hn hm1
      (fun b hb => hok b (hmemB b hb))
    obtain ⟨hdig, henc, hdirty⟩ := indexedNode_fields hn
    refine ⟨n, m, hn, hm, ?_, Node.HashDigest_setHashDigest _ _, ?_, ?_, ?_⟩
    · intro fuel
      unfold buildTrie
      have hlen : ¬ (A ++ enc :: B).length = 0 := by simp
      simp only [hlen, if_false, hm]
    · rw [(Node.fields_setHashDigest n rootHash).1, henc]
    · rw [(Node.fields_setHashDigest n rootHash).2, hdirty]
    · intro k1 node hk1 hne
      rcases buildTrieLoop_entries _ _ _ hm k1 node hk1 with h0 | ⟨e, he, hke, hie⟩ | ⟨-, h1, -⟩
      · simp [ProofMap.empty] at h0
      · obtain ⟨h1, h2, h3⟩ := indexedNode_fields hie
        exact ⟨e, he, hke, h1, h2, h3⟩
      · simp only [Option.some.injEq] at h1
        exact absurd h1.symm hne

/-- C27, on the sample proof of a branch and its leaf, the branch being the root. -/
theorem buildTrie_root_is_first_root_merkle_match_witness :
    (∀ e ∈ [[0, 10]] ++ [1, 0, 10] :: [[0, 10]], nodeOk sampleExt e = true) ∧
    (∀ e ∈ [[0, 10]] ++ [1, 0, 10] :: [[0, 10]], ∀ h,
      sampleExt.MerkleValue e false = .ok h → h.length ≤ 32) ∧
    (∀ a ∈ [[0, 10]], ∃ v, sampleExt.MerkleValue a true = .ok v ∧ v ≠ [255, 1, 0, 10]) ∧
    sampleExt.MerkleValue [1, 0, 10] true = .ok [255, 1, 0, 10] ∧
    (∃ n m, indexedNode sampleExt [1, 0, 10] = some n ∧
      buildTrieLoop sampleExt [255, 1, 0, 10] ⟨ProofMap.empty, none⟩
        ([[0, 10]] ++ [1, 0, 10] :: [[0, 10]]) =
        .ok ⟨m, some (n.setHashDigest [255, 1, 0, 10])⟩ ∧
      (n.setHashDigest [255, 1, 0, 10]).HashDigest = [255, 1, 0, 10]) :=
  have hshort : ∀ e ∈ [[0, 10]] ++ [1, 0, 10] :: [[0, 10]], ∀ h,
      sampleExt.MerkleValue e false = .ok h → h.length ≤ 32 := by
    intro e he h hv
    simp only [sampleExt, Except.ok.injEq] at hv
    subst hv
    simp only [List.cons_append, List.nil_append, List.mem_cons, List.mem_singleton,
      List.not_mem_nil, or_false] at he
    rcases he with rfl | rfl | rfl <;> decide
  have hA : ∀ a ∈ [[0, 10]], ∃ v, sampleExt.MerkleValue a true = .ok v ∧
      v ≠ [255, 1, 0, 10] := by
    intro a ha
    simp only [List.mem_singleton] at ha
    subst ha
    exact ⟨[255, 0, 10], rfl, by decide⟩
  ⟨by decide, hshort, hA, rfl,
    let ⟨n, m, h1, h2, _, h4, _⟩ :=
      (buildTrie_root_is_first_root_merkle_match sampleExt [[0, 10]] [[0, 10]] [1, 0, 10]
        [255, 1, 0, 10] (by decide) hshort hA rfl).2.2
    ⟨n, m, h1, h2, h4⟩⟩

/-! ## Termination of loadProof -/

theorem Node.Children_of_TypeOf_Branch {n : Node} (h : ¬ n.TypeOf ≠ .Branch) :
    ∃ children, n.Children = some children := by
  cases n with
  | mk k v c d hd e => cases c with
    | none => exact absurd (by simp [Node.TypeOf]) h
    | some cs => exact ⟨cs, rfl⟩

/-- More fuel does not change a result of `loadProof`. -/
theorem loadProof_mono_le {m : ProofMap} {n r : Node} {fuel : Nat}
    (h : loadProof fuel m n = some r) : ∀ more, fuel ≤ more → loadProof more m n = some r := by
  intro more hle
  induction more with
  | zero =>
    have : fuel = 0 := by omega
    subst this
    exact h
  | succ more ih =>
    by_cases heq : fuel = more + 1
    · subst heq; exact h
    · exact loadProof_mono more n r (ih (by omega))

/-- The loop over the children returns, with the indexed children spliced in, when the
recursive call does so on every indexed child. -/
theorem loadChildren_spliced {m : ProofMap} {f : Node → Option Node}
    (children : List (Option Node))
    (h : ∀ c node, some c ∈ children → m (BytesToHex c.HashDigest) = some node →
      ∃ spliced, f node = some spliced ∧ Spliced m node spliced) :
    ∃ loaded, loadChildren m f children = some loaded ∧ SplicedChildren m children loaded := by
  induction children with
  | nil => exact ⟨[], rfl, .nil⟩
  | cons head rest ih =>
    obtain ⟨loaded, hl, hs⟩ := ih (fun c node hc => h c node (List.mem_cons_of_mem _ hc))
    cases head with
    | none => exact ⟨none :: loaded, by simp [loadChildren, hl], .nilChild hs⟩
    | some child =>
      cases hm : m (BytesToHex child.HashDigest) with
      | none => exact ⟨some child :: loaded, by simp [loadChildren, hm, hl], .notIndexed hm hs⟩
      | some node =>
        obtain ⟨spliced, hf, hsp⟩ := h child node (List.mem_cons_self _ _) hm
        exact ⟨some spliced :: loaded, by simp [loadChildren, hm, hf, hl], .indexed hm hsp hs⟩

/-- Function `loadProof` returns on a node below which the hash-reference graph has no
cycle, with fuel for the keys of the index that are not on the path to the node. -/
theorem loadProof_of_path {m : ProofMap} (keys : List String)
    (hkeys : ∀ k node, m k = some node → k ∈ keys) :
    ∀ (d : Nat) (path : List String) (n : Node), path.Nodup → (∀ p ∈ path, p ∈ keys) →
      keys.length ≤ path.length + d →
      (∀ p ∈ path, ∃ np, m p = some np ∧ ∀ k, Reachable m n k → Reachable m np k) →
      Acyclic m n →
      ∃ loaded, loadProof (d + 1) m n = some loaded ∧ Spliced m n loaded := by
  intro d
  induction d with
  | zero =>
    intro path n hnd hsub hlen hpath hac
    unfold loadProof
    by_cases ht : n.TypeOf ≠ .Branch
    · exact ⟨n, by rw [if_pos ht], .leaf ht⟩
    · obtain ⟨children, hc⟩ := Node.Children_of_TypeOf_Branch ht
      rw [if_neg ht]
      simp only [hc, Option.getD_some]
      have hno : ∀ c node, some c ∈ children → m (BytesToHex c.HashDigest) = some node →
          ∃ spliced, loadProof 0 m node = some spliced ∧ Spliced m node spliced := by
        intro c node hmem hm
        exfalso
        have hnotin : BytesToHex c.HashDigest ∉ path := by
          intro hin
          obtain ⟨np, hnp, hreach⟩ := hpath _ hin
          rw [hm] at hnp
          injection hnp with hnp
          subst hnp
          exact hac _ node (Reachable.child hc hmem) hm (hreach _ (Reachable.child hc hmem))
        have hnd1 : (BytesToHex c.HashDigest :: path).Nodup := List.nodup_cons.2 ⟨hnotin, hnd⟩
        have hsub1 : (BytesToHex c.HashDigest :: path) ⊆ keys := by
          intro x hx
          rcases List.mem_cons.1 hx with hx | hx
          · subst hx; exact hkeys _ node hm
          · exact hsub x hx
        have := (List.Nodup.subperm hnd1 hsub1).length_le
        simp only [List.length_cons] at this
        omega
      obtain ⟨loaded, hl, hs⟩ := loadChildren_spliced children hno
      exact ⟨n.setChildren loaded, by simp [hl], .branch hc hs⟩
  | succ d ih =>
    intro path n hnd hsub hlen hpath hac
    unfold loadProof
    by_cases ht : n.TypeOf ≠ .Branch
    · exact ⟨n, by rw [if_pos ht], .leaf ht⟩
    · obtain ⟨children, hc⟩ := Node.Children_of_TypeOf_Branch ht
      rw [if_neg ht]
      simp only [hc, Option.getD_some]
      have hrec : ∀ c node, some c ∈ children → m (BytesToHex c.HashDigest) = some node →
          ∃ spliced, loadProof (d + 1) m node = some spliced ∧ Spliced m node spliced := by
        intro c node hmem hm
        have hnotin : BytesToHex c.HashDigest ∉ path := by
          intro hin
          obtain ⟨np, hnp, hreach⟩ := hpath _ hin
          rw [hm] at hnp
          injection hnp with hnp
          subst hnp
          exact hac _ node (Reachable.child hc hmem) hm (hreach _ (Reachable.child hc hmem))
        refine ih (BytesToHex c.HashDigest :: path) node (List.nodup_cons.2 ⟨hnotin, hnd⟩)
          ?_ ?_ ?_ ?_
        · intro x hx
          rcases List.mem_cons.1 hx with hx | hx
          · subst hx; exact hkeys _ node hm
          · exact hsub x hx
        · simp only [List.length_cons]; omega
        · intro p hp
          rcases List.mem_cons.1 hp with hp | hp
          · subst hp; exact ⟨node, hm, fun k hk => hk⟩
          · obtain ⟨np, hnp, hreach⟩ := hpath p hp
            exact ⟨np, hnp, fun k hk => hreach k (Reachable.step hc hmem hm hk)⟩
        · intro key node1 hr hm1
          exact hac key node1 (Reachable.step hc hmem hm hr) hm1
      obtain ⟨loaded, hl, hs⟩ := loadChildren_spliced children hrec
      exact ⟨n.setChildren loaded, by simp [hl], .branch hc hs⟩

/-- C28: for an index with finitely many keys (a Go map) and a start node below which
the hash-reference graph has no cycle, `loadProof` returns once the fuel exceeds the
number of keys, and the node it leaves is the start node with the indexed children
spliced in: in every branch reached a child whose hash digest is a key of the index is
replaced by the indexed node, itself loaded, a nil child and a child whose hash is not
a key are left as they are, and a node that is not a branch is not modified. -/
theorem loadProof_terminates_and_splices (proofHashToNode : ProofMap) (n : Node)
    (keys : List String) (hkeys : ∀ k node, proofHashToNode k = some node → k ∈ keys)
    (hacyclic : Acyclic proofHashToNode n) :
    ∃ loaded, (∀ fuel, keys.length + 1 ≤ fuel → loadProof fuel proofHashToNode n = some loaded) ∧
      Spliced proofHashToNode n loaded := by
  obtain ⟨loaded, hl, hs⟩ := loadProof_of_path keys hkeys keys.length [] n List.nodup_nil
    (fun p hp => by cases hp) (by simp) (fun p hp => by cases hp) hacyclic
  exact ⟨loaded, fun fuel hfuel => loadProof_mono_le hl fuel hfuel, hs⟩

theorem sampleIndex_keys (k : String) (node : Node) (h : sampleIndex k = some node) :
    k ∈ [BytesToHex [1, 0, 10], BytesToHex [0, 10]] := by
  unfold sampleIndex ProofMap.set ProofMap.empty at h
  by_cases h1 : k = BytesToHex [0, 10]
  · simp [h1]
  · by_cases h2 : k = BytesToHex [1, 0, 10]
    · simp [h2]
    · simp [h1, h2] at h

theorem sampleLeaf_not_Reachable (k : String) : ¬ Reachable sampleIndex sampleLeaf k := by
  intro h
  obtain ⟨children, c, hc, -⟩ := Reachable_inv h
  cases hc

theorem sampleRoot_Acyclic : Acyclic sampleIndex sampleRoot := by
  intro key node hr hm hn
  obtain ⟨children, c, hc, hmem, hcase⟩ := Reachable_inv hr
  have hcs : children = [none, some (.mk [] none none false [0, 10] [])] := by
    simp only [sampleRoot, Node.Children, Option.some.injEq] at hc
    exact hc.symm
  subst hcs
  have hceq : c = .mk [] none none false [0, 10] [] := by
    simpa using hmem
  subst hceq
  have hleaf : sampleIndex (BytesToHex [0, 10]) = some sampleLeaf := by
    simp [sampleIndex, ProofMap.set]
  rcases hcase with hk | ⟨node1, hn1, hr1⟩
  · subst hk
    simp only [Node.HashDigest] at hm
    rw [hleaf] at hm
    injection hm with hm
    subst hm
    exact sampleLeaf_not_Reachable _ hn
  · simp only [Node.HashDigest] at hn1
    rw [hleaf] at hn1
    injection hn1 with hn1
    subst hn1
    exact sampleLeaf_not_Reachable _ hr1

/-- C28, on the sample index of a branch and its leaf, started at the branch. -/
theorem loadProof_terminates_and_splices_witness :
    (∀ k node, sampleIndex k = some node → k ∈ [BytesToHex [1, 0, 10], BytesToHex [0, 10]]) ∧
    Acyclic sampleIndex sampleRoot ∧
    ∃ loaded, (∀ fuel, 3 ≤ fuel → loadProof fuel sampleIndex sampleRoot = some loaded) ∧
      Spliced sampleIndex sampleRoot loaded :=
  ⟨sampleIndex_keys, sampleRoot_Acyclic,
    loadProof_terminates_and_splices sampleIndex sampleRoot
      [BytesToHex [1, 0, 10], BytesToHex [0, 10]] sampleIndex_keys sampleRoot_Acyclic⟩

/-! ## Interleaved calls of softSet -/

/-- Whatever call the scheduler chooses, a state of the list moves to a state of the
list. -/
theorem TwoCalls.step_states {t : Tries} {root : Hash} {trieA trieB : Option Trie}
    (habsent : t.rootToTrie.lookup root = none) (s : TwoCalls) (who : Bool)
    (hs : s ∈ TwoCalls.states t root trieA trieB) :
    s.step who ∈ TwoCalls.states t root trieA trieB := by
  simp only [TwoCalls.states, List.mem_cons, List.mem_singleton, List.not_mem_nil,
    or_false] at hs
  rcases hs with rfl | rfl | rfl | rfl | rfl | rfl | rfl | rfl | rfl | rfl | rfl | rfl | rfl |
    rfl | rfl | rfl | rfl <;> cases who <;>
    simp [TwoCalls.states, TwoCalls.step, SoftSetCall.step, habsent, AList.lookup_insert]

theorem TwoCalls.run_states {t : Tries} {root : Hash} {trieA trieB : Option Trie}
    (habsent : t.rootToTrie.lookup root = none) (schedule : List Bool) :
    ∀ s : TwoCalls, s ∈ TwoCalls.states t root trieA trieB →
      s.run schedule ∈ TwoCalls.states t root trieA trieB := by
  induction schedule with
  | nil => intro s hs; exact hs
  | cons who rest ih =>
    intro s hs
    exact ih (s.step who) (TwoCalls.step_states habsent s who hs)

theorem TwoCalls.run_append (s : TwoCalls) (schedule more : List Bool) :
    s.run (schedule ++ more) = (s.run schedule).run more := by
  simp [TwoCalls.run, List.foldl_append]

/-- From every state of the list the two calls return when the scheduler lets the first
call, then the second, then the first again execute five statements. -/
theorem TwoCalls.states_return {t : Tries} {root : Hash} {trieA trieB : Option Trie}
    (habsent : t.rootToTrie.lookup root = none) (s : TwoCalls)
    (hs : s ∈ TwoCalls.states t root trieA trieB) :
    (s.run (List.replicate 5 false ++ List.replicate 5 true ++
      List.replicate 5 false)).returned = true := by
  simp only [TwoCalls.states, List.mem_cons, List.mem_singleton, List.not_mem_nil,
    or_false] at hs
  rcases hs with rfl | rfl | rfl | rfl | rfl | rfl | rfl | rfl | rfl | rfl | rfl | rfl | rfl |
    rfl | rfl | rfl | rfl <;>
    simp [TwoCalls.run, TwoCalls.returned, TwoCalls.step, SoftSetCall.step, habsent,
      AList.lookup_insert, List.replicate]

/-- C25: two calls `softSet(root, trieA)` and `softSet(root, trieB)` running
concurrently on a `Tries` that does not hold `root`, under any interleaving of their
statements: the calls can always go on until both have returned (the mutex does not
block them for ever), and once both have returned the mutex is free, the `Tries` is the
one a single `softSet` of one of the two tries leaves, the map has one entry more, with
one of the two tries at `root`, and the gauge is 1 higher. -/
theorem Tries.softSet_two_concurrent_calls (t : Tries) (root : Hash)
    (trieA trieB : Option Trie) (habsent : t.rootToTrie.lookup root = none)
    (schedule : List Bool) :
    (∃ more, ((TwoCalls.start t root trieA trieB).run (schedule ++ more)).returned = true) ∧
    (((TwoCalls.start t root trieA trieB).run schedule).returned = true →
      ((TwoCalls.start t root trieA trieB).run schedule).shared.locked = false ∧
      (((TwoCalls.start t root trieA trieB).run schedule).shared.tries = t.softSet root trieA ∨
        ((TwoCalls.start t root trieA trieB).run schedule).shared.tries =
          t.softSet root trieB) ∧
      (((TwoCalls.start t root trieA trieB).run schedule).shared.tries.get root = trieA ∨
        ((TwoCalls.start t root trieA trieB).run schedule).shared.tries.get root = trieB) ∧
      ((TwoCalls.start t root trieA trieB).run schedule).shared.tries.len = t.len + 1 ∧
      ((TwoCalls.start t root trieA trieB).run schedule).shared.tries.triesGauge =
        t.triesGauge + 1) := by
  have hstart : TwoCalls.start t root trieA trieB ∈ TwoCalls.states t root trieA trieB := by
    simp [TwoCalls.start, TwoCalls.states]
  have hfinal := TwoCalls.run_states habsent schedule _ hstart
  have hlen : ∀ trie : Option Trie,
      (t.rootToTrie.insert root trie).entries.length = t.rootToTrie.entries.length + 1 := by
    intro trie
    rw [AList.insert_entries_of_neg (AList.lookup_eq_none.1 habsent)]
    rfl
  constructor
  · exact ⟨_, by rw [TwoCalls.run_append]; exact TwoCalls.states_return habsent _ hfinal⟩
  · intro hret
    generalize (TwoCalls.start t root trieA trieB).run schedule = final at hfinal hret ⊢
    simp only [TwoCalls.states, List.mem_cons, List.mem_singleton, List.not_mem_nil,
      or_false] at hfinal
    rcases hfinal with rfl | rfl | rfl | rfl | rfl | rfl | rfl | rfl | rfl | rfl | rfl | rfl |
      rfl | rfl | rfl | rfl | rfl <;> simp [TwoCalls.returned] at hret
    · exact ⟨rfl, Or.inl (by simp [Tries.softSet, habsent]),
        Or.inl (by simp [Tries.get, AList.lookup_insert]), hlen trieA, rfl⟩
    · exact ⟨rfl, Or.inr (by simp [Tries.softSet, habsent]),
        Or.inr (by simp [Tries.get, AList.lookup_insert]), hlen trieB, rfl⟩

/-- C25, on the cache holding one trie at the root `[1]`, for two calls at the root `[2]`
whose statements alternate. -/
theorem Tries.softSet_two_concurrent_calls_witness :
    (⟨AList.singleton [1] (some ⟨none⟩), 1⟩ : Tries).rootToTrie.lookup [2] = none ∧
    ((TwoCalls.start ⟨AList.singleton [1] (some ⟨none⟩), 1⟩ [2] (some ⟨some sampleLeaf⟩)
        (some ⟨none⟩)).run
      [true, false, true, false, true, true, false, true, false, false, false]).returned = true ∧
    ((TwoCalls.start ⟨AList.singleton [1] (some ⟨none⟩), 1⟩ [2] (some ⟨some sampleLeaf⟩)
        (some ⟨none⟩)).run
      [true, false, true, false, true, true, false, true, false, false,
        false]).shared.tries.triesGauge = 1 + 1 :=
  ⟨rfl, rfl,
    ((Tries.softSet_two_concurrent_calls ⟨AList.singleton [1] (some ⟨none⟩), 1⟩ [2]
      (some ⟨some sampleLeaf⟩) (some ⟨none⟩) rfl
      [true, false, true, false, true, true, false, true, false, false, false]).2 rfl).2.2.2.2⟩

/-! ## Trie roots -/

/-- Bytes written into a memory are read back by the slice expression over them. -/
theorem sliceInt_written (memory data : Bytes) (ptr : Nat)
    (h : ptr + data.length ≤ memory.length) :
    sliceInt (memory.take ptr ++ data ++ memory.drop (ptr + data.length)) ptr
      ((ptr + data.length : Nat) : Int) = some data := by
  unfold sliceInt
  have hlen : (memory.take ptr ++ data ++ memory.drop (ptr + data.length)).length =
      memory.length := by
    simp only [List.length_append, List.length_take, List.length_drop]
    omega
  have hcond : (0 : Int) ≤ (ptr : Int) ∧ (ptr : Int) ≤ ((ptr + data.length : Nat) : Int) ∧
      ((ptr + data.length : Nat) : Int) ≤
        ((memory.take ptr ++ data ++ memory.drop (ptr + data.length)).length : Int) := by
    refine ⟨by omega, by omega, ?_⟩
    rw [hlen]
    exact_mod_cast h
  rw [if_pos hcond]
  have h4 : ((ptr : Int)).toNat = ptr := by omega
  have h5 : (((ptr + data.length : Nat) : Int) - (ptr : Int)).toNat = data.length := by omega
  rw [h4, h5]
  have h6 : (memory.take ptr).length = ptr := by
    rw [List.length_take]
    omega
  rw [List.append_assoc, List.drop_append_of_le_length (by omega)]
  rw [List.drop_of_length_le (by omega)]
  simp

/-- The loop of the ordered root is the loop of the root over the values with the compact
encodings of their indices as keys, when `scale.Marshal` gives the compact encoding. -/
theorem putOrderedValues_eq_putKeyValues {T : Type} (tr : TrieOps T)
    (marshal : Nat → Except String Bytes) (hmarshal : ∀ i, marshal i = .ok (compactEncode i))
    (values : List Bytes) :
    ∀ (i : Nat) (t : T), putOrderedValues tr marshal i t values =
      putKeyValues tr t (compactIndexedFrom i values) := by
  induction values with
  | nil => intro i t; rfl
  | cons value rest ih =>
    intro i t
    simp only [putOrderedValues, compactIndexedFrom, putKeyValues, hmarshal]
    cases tr.Put t (compactEncode i) value with
    | error err => rfl
    | ok t1 => exact ih (i + 1) t1

/-- The end of the trie-root host functions, when every step succeeds: the pointer is
returned and the hash is in the memory there. -/
theorem writeTrieRoot_ok {T A : Type} (tr : TrieOps T) (al : AllocatorOps A) (heap : Heap A)
    (t : T) (ptr : Nat) (allocator : A) (hash : Bytes)
    (halloc : al.Allocate heap.Allocator 32 = .ok (ptr, allocator))
    (hhash : tr.Hash t = .ok hash) (h32 : hash.length = 32)
    (hfit : ptr + 32 ≤ heap.Memory.length) (hptr : ptr < 2 ^ 31) :
    ∃ memory, writeTrieRoot tr al heap t = some ([.I32 ptr], none, ⟨memory, allocator⟩) ∧
      sliceInt memory ptr ((ptr + 32 : Nat) : Int) = some hash ∧
      memory.length = heap.Memory.length := by
  have hpow : (2 : Nat) ^ 31 = 2147483648 := by norm_num
  rw [hpow] at hptr
  have hmod : (ptr + 32) % 2 ^ 32 = ptr + 32 := by
    have : (2 : Nat) ^ 32 = 4294967296 := by norm_num
    rw [this]
    omega
  have hcast : safeCastInt32 ptr = .ok (ptr : Int) := by
    unfold safeCastInt32
    rw [if_pos (by omega)]
  have hcopy : copyToMemory heap.Memory ptr ((ptr + 32 : Nat) : Int) hash =
      some (heap.Memory.take ptr ++ hash ++ heap.Memory.drop (ptr + hash.length)) := by
    unfold copyToMemory
    have hcond : (0 : Int) ≤ (ptr : Int) ∧ (ptr : Int) ≤ ((ptr + 32 : Nat) : Int) ∧
        ((ptr + 32 : Nat) : Int) ≤ (heap.Memory.length : Int) := by
      refine ⟨by omega, by omega, ?_⟩
      exact_mod_cast hfit
    rw [if_pos hcond]
    have h4 : ((ptr : Int)).toNat = ptr := by omega
    have h5 : (((ptr + 32 : Nat) : Int) - (ptr : Int)).toNat = 32 := by omega
    rw [h4, h5, h32]
    simp only [min_self]
    rw [← h32, List.take_length]
  refine ⟨heap.Memory.take ptr ++ hash ++ heap.Memory.drop (ptr + hash.length), ?_, ?_, ?_⟩
  · unfold writeTrieRoot
    simp only [halloc, hhash, hcast, hmod, hcopy]
  · rw [← h32]
    exact sliceInt_written heap.Memory hash ptr (by omega)
  · simp only [List.length_append, List.length_take, List.length_drop]
    omega

/-- C21: when `scale.Marshal` of an index is its compact encoding,
`ext_trie_blake2_256_ordered_root_version_1` returns what
`ext_trie_blake2_256_root_version_1` returns for the key-value list of the decoded
values with the compact encodings of their 0-based indices as keys, version 2 returns
what version 1 returns, and when the puts, the allocation of 32 bytes inside the memory,
the hash and the cast succeed, the returned pointer is the allocated one and the 32
bytes there are the hash of the trie made from the empty trie by these puts in order. -/
theorem ordered_root_is_root_of_compact_indexed_values {T A : Type} (tr : TrieOps T)
    (unmarshal : Bytes → Except String (List Bytes)) (marshal : Nat → Except String Bytes)
    (al : AllocatorOps A) (heap : Heap A) (args : List Value)
    (hmarshal : ∀ i, marshal i = .ok (compactEncode i)) :
    ext_trie_blake2_256_ordered_root_version_1 tr unmarshal marshal al heap args =
      ext_trie_blake2_256_root_version_1 tr
        (fun data =>
          match unmarshal data with
          | .error err => .error err
          | .ok values => .ok (compactIndexedFrom 0 values))
        al heap args ∧
    ext_trie_blake2_256_ordered_root_version_2 tr unmarshal marshal al heap args =
      ext_trie_blake2_256_ordered_root_version_1 tr unmarshal marshal al heap args ∧
    (∀ dataSpan data values t1 ptr allocator hash,
      args.get? 0 = some (.I64 dataSpan) → asMemorySlice heap.Memory dataSpan = some data →
      unmarshal data = .ok values →
      putKeyValues tr tr.NewEmptyTrie (compactIndexedFrom 0 values) = .ok t1 →
      al.Allocate heap.Allocator 32 = .ok (ptr, allocator) → tr.Hash t1 = .ok hash →
      hash.length = 32 → ptr + 32 ≤ heap.Memory.length → ptr < 2 ^ 31 →
      ∃ memory,
        ext_trie_blake2_256_ordered_root_version_1 tr unmarshal marshal al heap args =
          some ([.I32 ptr], none, ⟨memory, allocator⟩) ∧
        sliceInt memory ptr ((ptr + 32 : Nat) : Int) = some hash ∧
        memory.length = heap.Memory.length) := by
  refine ⟨?_, rfl, ?_⟩
  · unfold ext_trie_blake2_256_ordered_root_version_1 ext_trie_blake2_256_root_version_1
    cases h0 : args.get? 0 with
    | none => rfl
    | some v =>
      cases v with
      | I32 x => rfl
      | I64 dataSpan =>
        simp only
        cases hd : asMemorySlice heap.Memory dataSpan with
        | none => rfl
        | some data =>
          simp only
          cases hu : unmarshal data with
          | error err => rfl
          | ok values =>
            simp only [putOrderedValues_eq_putKeyValues tr marshal hmarshal values 0]
  · intro dataSpan data values t1 ptr allocator hash h0 hd hu hput halloc hhash h32 hfit hptr
    obtain ⟨memory, hw, hs, hl⟩ :=
      writeTrieRoot_ok tr al heap t1 ptr allocator hash halloc hhash h32 hfit hptr
    refine ⟨memory, ?_, hs, hl⟩
    unfold ext_trie_blake2_256_ordered_root_version_1
    simp only [h0, hd, hu, putOrderedValues_eq_putKeyValues tr marshal hmarshal values 0, hput,
      hw]

set_option maxRecDepth 8000 in
/-- C21, on a memory holding the encoding of the values `[7]` and `[8, 9]`: the ordered
root writes the hash of the trie with `[0] ↦ [7]` and `[4] ↦ [8, 9]` at the allocated
pointer 6. -/
theorem ordered_root_is_root_of_compact_indexed_values_witness :
    (∀ i, sampleMarshalIndex i = .ok (compactEncode i)) ∧
    ∃ memory,
      ext_trie_blake2_256_ordered_root_version_1 sampleTrie sampleUnmarshal sampleMarshalIndex
        sampleAllocator ⟨sampleRootMemory, (6, 40)⟩ [.I64 (6 * 2 ^ 32)] =
        some ([.I32 6], none, ⟨memory, (38, 40)⟩) ∧
      sliceInt memory 6 ((6 + 32 : Nat) : Int) = some (2 :: 28 :: List.replicate 30 0) ∧
      memory.length = sampleRootMemory.length :=
  ⟨fun _ => rfl,
    (ordered_root_is_root_of_compact_indexed_values sampleTrie sampleUnmarshal
      sampleMarshalIndex sampleAllocator ⟨sampleRootMemory, (6, 40)⟩ [.I64 (6 * 2 ^ 32)]
      (fun _ => rfl)).2.2 (6 * 2 ^ 32) [8, 4, 7, 8, 8, 9] [[7], [8, 9]]
      [([4], [8, 9]), ([0], [7])] 6 (38, 40) (2 :: 28 :: List.replicate 30 0)
      rfl (by decide) (by decide) (by decide) (by decide) (by decide) (by decide) (by decide)
      (by decide)⟩

/-! ## Offchain transaction and network state -/

/-- C22, as stated, fails on the code: with an allocator that has no byte left,
`ext_offchain_submit_transaction_version_1` adds the transaction to the pool and returns
the value 0 with a nil error; the span that value designates is empty, not a byte
`0x00`. -/
theorem submit_transaction_returns_zero_when_allocation_fails :
    (ext_offchain_submit_transaction_version_1 sampleUnmarshalBytes samplePool sampleAllocator
        ⟨[8, 5, 6, 0], (3, 3)⟩ [] [.I64 (3 * 2 ^ 32)]).map
      (fun r => (r.1, r.2.1, r.2.2.1, returnedBytes r.1 r.2.2.2)) =
      some ([.I64 0], none,
        [⟨some [5, 6], ⟨0, [[]], [[]], 0, false⟩⟩], some []) := by
  decide

/-- C22, amended: for an input span inside the memory, also one that does not decode,
whenever `ext_offchain_submit_transaction_version_1` returns, its error is nil and the
pool is the pool after one `AddToPool` of the valid transaction made of the decoded
extrinsic (nil when the decoding fails) and the validity record with priority 0, one
empty requires tag, one empty provides tag, longevity 0 and propagate false; when the
allocation of one byte succeeds inside a memory of fewer than 2^32 bytes, it returns
the pointer-size of a freshly written byte `0x00`; when the allocation fails, it returns
the value 0 and leaves the memory as it was. -/
theorem submit_transaction_enqueues {P A : Type} (unmarshal : Bytes → Except String Bytes)
    (tx : TransactionStateOps P) (al : AllocatorOps A) (heap : Heap A) (pool : P)
    (args : List Value) (data : Int) (extBytes : Bytes)
    (hargs : args.get? 0 = some (.I64 data))
    (hread : asMemorySlice heap.Memory data = some extBytes) :
    (∀ r, ext_offchain_submit_transaction_version_1 unmarshal tx al heap pool args = some r →
      r.2.1 = none ∧
      r.2.2.1 = tx.AddToPool pool
        ⟨(match unmarshal extBytes with
          | .error _ => none
          | .ok decoded => some decoded), ⟨0, [[]], [[]], 0, false⟩⟩) ∧
    (∀ ptr allocator, al.Allocate heap.Allocator 1 = .ok (ptr, allocator) →
      ptr + 1 ≤ heap.Memory.length → heap.Memory.length < 2 ^ 32 →
      ∃ heap1, ext_offchain_submit_transaction_version_1 unmarshal tx al heap pool args =
          some ([.I64 (toPointerSize ptr 1)], none,
            tx.AddToPool pool
              ⟨(match unmarshal extBytes with
                | .error _ => none
                | .ok decoded => some decoded), ⟨0, [[]], [[]], 0, false⟩⟩, heap1) ∧
        heap1.Allocator = allocator ∧
        asMemorySlice heap1.Memory (toPointerSize ptr 1) = some [0]) ∧
    (∀ err, al.Allocate heap.Allocator 1 = .error err →
      ext_offchain_submit_transaction_version_1 unmarshal tx al heap pool args =
        some ([.I64 0], none,
          tx.AddToPool pool
            ⟨(match unmarshal extBytes with
              | .error _ => none
              | .ok decoded => some decoded), ⟨0, [[]], [[]], 0, false⟩⟩, heap)) := by
  refine ⟨?_, ?_, ?_⟩
  · intro r hr
    unfold ext_offchain_submit_transaction_version_1 at hr
    simp only [hargs, hread] at hr
    cases hn : toWasmMemoryOptionalNil al heap with
    | none => simp [hn] at hr
    | some v =>
      obtain ⟨values, err, heap1⟩ := v
      simp only [hn, Option.some.injEq] at hr
      subst hr
      exact ⟨rfl, rfl⟩
  · intro ptr allocator halloc hfit hlen
    have hsized : toWasmMemorySized al heap [0] = some (.ok (ptr,
        ⟨heap.Memory.take ptr ++ [0] ++ heap.Memory.drop (ptr + 1), allocator⟩)) := by
      unfold toWasmMemorySized
      simp only [List.length_singleton, halloc, hfit, if_true]
    have hmem : toWasmMemory al heap [0] = some (.ok (toPointerSize ptr 1,
        ⟨heap.Memory.take ptr ++ [0] ++ heap.Memory.drop (ptr + 1), allocator⟩)) := by
      unfold toWasmMemory
      simp only [hsized, List.length_singleton]
    refine ⟨⟨heap.Memory.take ptr ++ [0] ++ heap.Memory.drop (ptr + 1), allocator⟩, ?_, rfl,
      asMemorySlice_toWasmMemory al heap _ [0] _ hlen hmem⟩
    unfold ext_offchain_submit_transaction_version_1 toWasmMemoryOptionalNil
      toWasmMemoryOptional
    simp only [hargs, hread, encodeOptionBytes, hmem]
    rfl
  · intro err halloc
    have hsized : toWasmMemorySized al heap [0] = some (.error err) := by
      unfold toWasmMemorySized
      simp only [List.length_singleton, halloc]
    unfold ext_offchain_submit_transaction_version_1 toWasmMemoryOptionalNil
      toWasmMemoryOptional toWasmMemory
    simp only [hargs, hread, encodeOptionBytes, hsized]
    rfl

/-- C22 amended, on a memory holding the encoding of the extrinsic `[5, 6]`, with one
free byte at 3. -/
theorem submit_transaction_enqueues_witness :
    [Value.I64 (3 * 2 ^ 32)].get? 0 = some (.I64 (3 * 2 ^ 32)) ∧
    asMemorySlice [8, 5, 6, 7] (3 * 2 ^ 32) = some [8, 5, 6] ∧
    ∃ heap1, ext_offchain_submit_transaction_version_1 sampleUnmarshalBytes samplePool
        sampleAllocator ⟨[8, 5, 6, 7], (3, 4)⟩ [] [.I64 (3 * 2 ^ 32)] =
        some ([.I64 (toPointerSize 3 1)], none,
          [⟨some [5, 6], ⟨0, [[]], [[]], 0, false⟩⟩], heap1) ∧
      heap1.Allocator = (4, 4) ∧
      asMemorySlice heap1.Memory (toPointerSize 3 1) = some [0] :=
  ⟨rfl, by decide,
    (submit_transaction_enqueues sampleUnmarshalBytes samplePool sampleAllocator
      ⟨[8, 5, 6, 7], (3, 4)⟩ [] [.I64 (3 * 2 ^ 32)] (3 * 2 ^ 32) [8, 5, 6] rfl
      (by decide)).2.1 3 (4, 4) rfl (by decide) (by decide)⟩

/-- Whatever the encoding, the value `ext_offchain_network_state_version_1` returns
after a successful allocation is the pointer alone. -/
theorem network_state_returns_the_pointer {N A : Type} (networkState : N → NetworkState)
    (marshal : NetworkState → Except String Bytes) (al : AllocatorOps A) (heap heap1 : Heap A)
    (net : N) (nsEnc : Bytes) (ptr : Nat) (henc : marshal (networkState net) = .ok nsEnc)
    (hwrite : toWasmMemorySized al heap nsEnc = some (.ok (ptr, heap1))) :
    ext_offchain_network_state_version_1 networkState marshal al heap (some net) =
      some ([.I64 (ptr : Int)], none, heap1) := by
  unfold ext_offchain_network_state_version_1
  simp only [henc, hwrite]

/-- C23, as stated, fails on the code: for the network state with peer id `ab`, encoded
as the four bytes `[8, 97, 98, 0]` and written at the pointer 8,
`ext_offchain_network_state_version_1` returns the value 8, the pointer alone; the
pointer-size of the encoding is another value, and the span the returned value
designates is empty although the encoding is in the memory at 8. -/
theorem network_state_returns_no_length :
    (ext_offchain_network_state_version_1 (fun ns : NetworkState => ns)
        sampleMarshalNetworkState sampleAllocator ⟨List.replicate 16 0, (8, 16)⟩
        (some ⟨"ab", []⟩)).map
      (fun r => (r.1, r.2.1, returnedBytes r.1 r.2.2, sliceInt r.2.2.Memory 8 12)) =
      some ([.I64 8], none, some [], some [8, 97, 98, 0]) ∧
    sampleMarshalNetworkState ⟨"ab", []⟩ = .ok [8, 97, 98, 0] ∧
    toPointerSize 8 4 = 4 * 2 ^ 32 + 8 := by
  decide

/-! ## Storage writes -/

/-- C24, as stated, fails on the code: on a storage whose `Put`, `Delete`, `ClearPrefix`
and `DeleteChild` return an error, the four imports do not return: each hands the error
to `panicOnError`. -/
theorem storage_writes_trap_on_error :
    sampleSealedStorage.Put [([255], [0])] [9] [7] = .error "storage is sealed" ∧
    ext_storage_set_version_1 sampleSealedStorage [9, 7] [([255], [0])]
      [.I64 (1 * 2 ^ 32), .I64 (1 * 2 ^ 32 + 1)] = none ∧
    sampleSealedStorage.Delete [([255], [0])] [9] = .error "storage is sealed" ∧
    ext_storage_clear_version_1 sampleSealedStorage [9, 7] [([255], [0])]
      [.I64 (1 * 2 ^ 32)] = none ∧
    sampleSealedStorage.ClearPrefix [([255], [0])] [9] = .error "storage is sealed" ∧
    ext_storage_clear_prefix_version_1 sampleSealedStorage [9, 7] [([255], [0])]
      [.I64 (1 * 2 ^ 32)] = none ∧
    sampleSealedStorage.DeleteChild [([255], [0])] [9] = .error "storage is sealed" ∧
    ext_default_child_storage_storage_kill_version_1 sampleSealedStorage [9, 7] [([255], [0])]
      [.I64 (1 * 2 ^ 32)] = none :=
  ⟨rfl, rfl, rfl, rfl, rfl, rfl, rfl, rfl⟩

/-- C24, amended: for spans inside the memory, each of the four imports returns exactly
when the storage operation it calls returns no error, and then it returns no value and a
nil error and leaves the storage the operation has written; when the operation returns
an error the import panics. -/
theorem storage_writes_return_iff_no_error {S : Type} (st : StorageOps S) (memory : Bytes)
    (storage : S) (span valueSpan : Int) (key value : Bytes)
    (hkey : asMemorySlice memory span = some key)
    (hvalue : asMemorySlice memory valueSpan = some value) :
    ext_storage_set_version_1 st memory storage [.I64 span, .I64 valueSpan] =
      (match st.Put storage key value with
        | .error _ => none
        | .ok storage1 => some ([], none, storage1)) ∧
    ext_storage_clear_version_1 st memory storage [.I64 span] =
      (match st.Delete storage key with
        | .error _ => none
        | .ok storage1 => some ([], none, storage1)) ∧
    ext_storage_clear_prefix_version_1 st memory storage [.I64 span] =
      (match st.ClearPrefix storage key with
        | .error _ => none
        | .ok storage1 => some ([], none, storage1)) ∧
    ext_default_child_storage_storage_kill_version_1 st memory storage [.I64 span] =
      (match st.DeleteChild storage key with
        | .error _ => none
        | .ok storage1 => some ([], none, storage1)) := by
  refine ⟨?_, ?_, ?_, ?_⟩
  · unfold ext_storage_set_version_1
    simp only [List.get?, hkey, hvalue]
    cases st.Put storage key value <;> rfl
  · unfold ext_storage_clear_version_1
    simp only [List.get?, hkey]
    cases st.Delete storage key <;> rfl
  · unfold ext_storage_clear_prefix_version_1
    simp only [List.get?, hkey]
    cases st.ClearPrefix storage key <;> rfl
  · unfold ext_default_child_storage_storage_kill_version_1
    simp only [List.get?, hkey]
    cases st.DeleteChild storage key <;> rfl

/-- C24 amended, on the storage of the spec holding the key `[9]`: the set import
returns with the value written. -/
theorem storage_writes_return_iff_no_error_witness :
    asMemorySlice [9, 7] (1 * 2 ^ 32) = some [9] ∧
    asMemorySlice [9, 7] (1 * 2 ^ 32 + 1) = some [7] ∧
    ext_storage_set_version_1 specStorage [9, 7] [([9], [1])]
      [.I64 (1 * 2 ^ 32), .I64 (1 * 2 ^ 32 + 1)] = some ([], none, [([9], [7])]) ∧
    ext_storage_clear_version_1 specStorage [9, 7] [([9], [1])] [.I64 (1 * 2 ^ 32)] =
      some ([], none, []) :=
  ⟨by decide, by decide,
    (storage_writes_return_iff_no_error specStorage [9, 7] [([9], [1])] (1 * 2 ^ 32)
      (1 * 2 ^ 32 + 1) [9] [7] (by decide) (by decide)).1,
    (storage_writes_return_iff_no_error specStorage [9, 7] [([9], [1])] (1 * 2 ^ 32)
      (1 * 2 ^ 32 + 1) [9] [7] (by decide) (by decide)).2.1⟩

/-! ## Reading child storage -/

set_option maxRecDepth 8000 in
/-- C29, as stated, fails on the code: for the child key `[3]` and the key `[9]` with the
stored value `[1, 2, 3]`, `ext_default_child_storage_read_version_1` with the offset 4
panics on `value[offset:]`, where `ext_storage_read_version_1` on the same value copies
nothing and returns the encoded `Some(0)`; for a key without value, with the offset 0,
it returns an encoded `Some` of a size 0 where `ext_storage_read_version_1` returns the
encoded `None`. -/
theorem child_storage_read_panics_beyond_the_value :
    ext_default_child_storage_read_version_1 specStorage sampleAllocator
      ⟨sampleReadMemory, (5, 32)⟩ [([3, 9], [1, 2, 3])]
      [.I64 (1 * 2 ^ 32), .I64 (1 * 2 ^ 32 + 1), .I64 (2 * 2 ^ 32 + 3), .I32 4] = none ∧
    (ext_storage_read_version_1 specStorage sampleAllocator
        ⟨sampleReadMemory, (5, 32)⟩ [([3, 9], [1, 2, 3])]
        [.I64 (2 * 2 ^ 32), .I64 (2 * 2 ^ 32 + 3), .I32 4]).map
      (fun r => (r.2.1, returnedBytes r.1 r.2.2, sliceInt r.2.2.Memory 3 5)) =
      some (none, some [1, 0, 0, 0, 0], some [0, 0]) ∧
    (ext_default_child_storage_read_version_1 specStorage sampleAllocator
        ⟨sampleReadMemory, (5, 32)⟩ [([3, 9], [1, 2, 3])]
        [.I64 (1 * 2 ^ 32), .I64 (1 * 2 ^ 32 + 2), .I64 (2 * 2 ^ 32 + 3), .I32 0]).map
      (fun r => (r.2.1, returnedBytes r.1 r.2.2)) =
      some (none, some [1, 16, 0, 0, 0, 0]) ∧
    (ext_storage_read_version_1 specStorage sampleAllocator
        ⟨sampleReadMemory, (5, 32)⟩ [([3, 9], [1, 2, 3])]
        [.I64 (2 * 2 ^ 32 + 1), .I64 (2 * 2 ^ 32 + 3), .I32 0]).map
      (fun r => (r.2.1, returnedBytes r.1 r.2.2)) = some (none, some [0]) := by
  refine ⟨?_, ?_, ?_, ?_⟩ <;> decide

/-! ## Offchain local storage: get, set and clear -/

set_option maxRecDepth 8000 in
/-- C30, as stated, fails on the code: `ext_offchain_local_storage_clear_version_1`
called with the kind 2 (Local) reads the four bytes of the memory at 2, here
`01 00 00 00`, and deletes the key from the Persistent store; the Local store, where
`ext_offchain_local_storage_set_version_1` with the kind 2 has put the value, keeps it,
and `ext_offchain_local_storage_get_version_1` with the kind 2 still returns the encoded
`Some` of the value. -/
theorem local_storage_clear_reads_the_kind_from_memory :
    (ext_offchain_local_storage_set_version_1 sampleStore sampleLocalMemory
        ⟨[([9], [5])], []⟩ [.I32 2, .I64 (1 * 2 ^ 32), .I64 (1 * 2 ^ 32 + 1)]).map
      (fun r => (r.1, r.2.1, r.2.2.PersistentStorage, r.2.2.LocalStorage)) =
      some ([], none, [([9], [5])], [([9], [7])]) ∧
    (ext_offchain_local_storage_clear_version_1 sampleStore sampleLocalMemory
        ⟨[([9], [5])], [([9], [7])]⟩ [.I32 2, .I64 (1 * 2 ^ 32)]).map
      (fun r => (r.1, r.2.1, r.2.2.PersistentStorage, r.2.2.LocalStorage)) =
      some ([], none, [], [([9], [7])]) ∧
    (ext_offchain_local_storage_get_version_1 sampleStore sampleAllocator
        ⟨sampleLocalMemory, (6, 16)⟩ ⟨[], [([9], [7])]⟩ [.I32 2, .I64 (1 * 2 ^ 32)]).map
      (fun r => (r.2.1, returnedBytes r.1 r.2.2)) = some (none, some [1, 4, 7]) :=
  ⟨rfl, rfl, by decide⟩

/-- A slice `memory[low:low+n]` with an `int32` sum has `n` bytes. -/
theorem sliceInt_addInt32_length {memory b : Bytes} {low : Int} (n : Nat) (hn : n < 2 ^ 31)
    (h : sliceInt memory low (addInt32 low n) = some b) : b.length = n := by
  unfold sliceInt at h
  by_cases hc : 0 ≤ low ∧ low ≤ addInt32 low n ∧ addInt32 low n ≤ memory.length
  · rw [if_pos hc] at h
    injection h with h
    subst h
    obtain ⟨h0, h1, h2⟩ := hc
    have hpow : (2 : Nat) ^ 31 = 2147483648 := by norm_num
    rw [hpow] at hn
    unfold addInt32 at h1 h2 ⊢
    norm_num at h1 h2 ⊢
    rw [min_def]
    split <;> omega
  · rw [if_neg hc] at h
    cases h

/-! ## Verification failures -/

/-- C13: with the batcher not started, a signature of 64 bytes and a message read from
the memory.  For an ed25519 package that refuses a public key only for a wrong length
and reports a verification error only for a signature of a wrong length (the two
hypotheses; the package is not among the sources),
`ext_crypto_ed25519_verify_version_1` returns 1 when the check succeeds and 0 when it
fails, with a nil error.  `ext_crypto_sr25519_verify_version_2` and
`ext_crypto_ecdsa_verify_version_2` return 0 with a nil error whenever the public key is
invalid, the hash cannot be computed, or the check fails or reports an error.  The
batcher is left as it was. -/
theorem verify_imports_return_zero_with_nil_error {PK KP V : Type}
    (ed25519 sr25519 secp256k1 : Algorithm PK KP) (Blake2bHash : Bytes → Except String Bytes)
    (sv : SigVerifierOps V) (memory : Bytes) (sigVerifier : V) (sig msg key : Int)
    (signature message : Bytes)
    (hstarted : sv.IsStarted sigVerifier = false)
    (hsig : sliceInt memory sig (addInt32 sig 64) = some signature)
    (hmsg : asMemorySlice memory msg = some message)
    (hnew : ∀ b : Bytes, b.length = 32 → ∃ pubKey, ed25519.NewPublicKey b = .ok pubKey)
    (hverify : ∀ pubKey m (s : Bytes), s.length = 64 → (ed25519.Verify pubKey m s).2 = none) :
    (∀ pubKeyData, sliceInt memory key (addInt32 key 32) = some pubKeyData →
      ∃ pubKey, ed25519.NewPublicKey pubKeyData = .ok pubKey ∧
        ext_crypto_ed25519_verify_version_1 ed25519 sv memory sigVerifier
          [.I32 sig, .I64 msg, .I32 key] =
          some ([.I32 (if (ed25519.Verify pubKey message signature).1 = true then 1 else 0)],
            none, sigVerifier)) ∧
    (∀ pubKeyData, sliceInt memory key (addInt32 key 32) = some pubKeyData →
      ((∃ e, sr25519.NewPublicKey pubKeyData = .error e) ∨
        ∃ pub, sr25519.NewPublicKey pubKeyData = .ok pub ∧
          ((sr25519.Verify pub message signature).2 ≠ none ∨
            (sr25519.Verify pub message signature).1 = false)) →
      ext_crypto_sr25519_verify_version_2 sr25519 sv memory sigVerifier
        [.I32 sig, .I64 msg, .I32 key] = some ([.I32 0], none, sigVerifier)) ∧
    (∀ pubKey, sliceInt memory key (addInt32 key 33) = some pubKey →
      ((∃ e, secp256k1.NewPublicKey pubKey = .error e) ∨
        ∃ pub, secp256k1.NewPublicKey pubKey = .ok pub ∧
          ((∃ e, Blake2bHash message = .error e) ∨
            ∃ hash, Blake2bHash message = .ok hash ∧
              ((secp256k1.Verify pub hash signature).2 ≠ none ∨
                (secp256k1.Verify pub hash signature).1 = false))) →
      ext_crypto_ecdsa_verify_version_2 secp256k1 Blake2bHash sv memory sigVerifier
        [.I32 sig, .I64 msg, .I32 key] = some ([.I32 0], none, sigVerifier)) := by
  refine ⟨?_, ?_, ?_⟩
  · intro pubKeyData hkey
    obtain ⟨pubKey, hpk⟩ := hnew pubKeyData (sliceInt_addInt32_length 32 (by norm_num) hkey)
    refine ⟨pubKey, hpk, ?_⟩
    have herr := hverify pubKey message signature
      (sliceInt_addInt32_length 64 (by norm_num) hsig)
    unfold ext_crypto_ed25519_verify_version_1
    simp only [List.get?, hsig, hmsg, hkey, hpk, hstarted]
    rcases hv : ed25519.Verify pubKey message signature with ⟨ok, err⟩
    rw [hv] at herr
    simp only at herr
    subst herr
    cases ok <;> simp [hv]
  · intro pubKeyData hkey hcase
    unfold ext_crypto_sr25519_verify_version_2
    simp only [List.get?, hsig, hmsg, hkey]
    rcases hcase with ⟨e, he⟩ | ⟨pub, hpub, hv⟩
    · simp only [he]
    · simp only [hpub, hstarted]
      rcases hr : sr25519.Verify pub message signature with ⟨ok, err⟩
      rw [hr] at hv
      cases ok <;> cases err <;> simp [hr] at hv ⊢
  · intro pubKey hkey hcase
    unfold ext_crypto_ecdsa_verify_version_2
    simp only [List.get?, hsig, hmsg, hkey]
    rcases hcase with ⟨e, he⟩ | ⟨pub, hpub, ⟨e, he⟩ | ⟨hash, hh, hv⟩⟩
    · simp only [he]
    · simp only [hpub, he]
    · simp only [hpub, hh, hstarted]
      rcases hr : secp256k1.Verify pub hash signature with ⟨ok, err⟩
      rw [hr] at hv
      cases ok <;> cases err <;> simp [hr] at hv ⊢

set_option maxRecDepth 8000 in
/-- C13, on a memory with a signature that does not fit the message `[7, 8, 9]`: the
ed25519 import returns 0 with a nil error. -/
theorem verify_imports_return_zero_with_nil_error_witness :
    sampleSigVerifier.IsStarted (false, []) = false ∧
    sliceInt (sampleCryptoMemory 1 2) 0 (addInt32 0 64) = some (1 :: List.replicate 63 0) ∧
    asMemorySlice (sampleCryptoMemory 1 2) 12884901985 = some [7, 8, 9] ∧
    (∀ b : Bytes, b.length = 32 → ∃ pubKey, lengthCheckedAlgorithm.NewPublicKey b = .ok pubKey) ∧
    (∀ (pubKey m s : Bytes), s.length = 64 →
      (lengthCheckedAlgorithm.Verify pubKey m s).2 = none) ∧
    sliceInt (sampleCryptoMemory 1 2) 64 (addInt32 64 32) = some (2 :: List.replicate 31 0) ∧
    ∃ pubKey, lengthCheckedAlgorithm.NewPublicKey (2 :: List.replicate 31 0) = .ok pubKey ∧
      ext_crypto_ed25519_verify_version_1 lengthCheckedAlgorithm sampleSigVerifier
        (sampleCryptoMemory 1 2) (false, []) [.I32 0, .I64 12884901985, .I32 64] =
        some ([.I32 (if (lengthCheckedAlgorithm.Verify pubKey [7, 8, 9]
          (1 :: List.replicate 63 0)).1 = true then 1 else 0)], none, (false, [])) :=
  have hnew : ∀ b : Bytes, b.length = 32 →
      ∃ pubKey, lengthCheckedAlgorithm.NewPublicKey b = .ok pubKey := by
    intro b hb
    exact ⟨b, by simp [lengthCheckedAlgorithm, hb]⟩
  have hverify : ∀ (pubKey m s : Bytes), s.length = 64 →
      (lengthCheckedAlgorithm.Verify pubKey m s).2 = none := by
    intro pubKey m s hs
    simp [lengthCheckedAlgorithm, hs]
  ⟨rfl, by decide, by decide, hnew, hverify, by decide,
    (verify_imports_return_zero_with_nil_error lengthCheckedAlgorithm lengthCheckedAlgorithm
      lengthCheckedAlgorithm (fun b => .ok b) sampleSigVerifier (sampleCryptoMemory 1 2)
      (false, []) 0 12884901985 64 (1 :: List.replicate 63 0) [7, 8, 9] rfl (by decide)
      (by decide) hnew hverify).1 (2 :: List.replicate 31 0) (by decide)⟩

/-! ## Signing failures -/

set_option maxRecDepth 8000 in
/-- C15, as stated, fails on the code: with an allocator that has no byte left and a
public key that is not in the keystore, `ext_crypto_ed25519_sign_version_1` and
`ext_crypto_sr25519_sign_version_1` return the raw value 0 with a nil error and write
nothing: the span that value designates is empty, not the byte `0x00` of an encoded
None. -/
theorem sign_imports_return_zero_when_allocation_fails :
    sampleKeystore.GetKeypair [] [98, 97, 98, 101] (2 :: List.replicate 31 0) = none ∧
    sampleAllocator.Allocate (119, 119) 1 = .error "out of memory" ∧
    (ext_crypto_ed25519_sign_version_1 lengthCheckedAlgorithm sampleKeystore sampleAllocator
        ⟨sampleSignMemory 2, (119, 119)⟩ [] [.I32 0, .I32 4, .I64 12884901924]).map
      (fun r => (r.1, r.2.1, returnedBytes r.1 r.2.2, decide (r.2.2.Memory = sampleSignMemory 2))) =
      some ([.I64 0], none, some [], true) ∧
    (ext_crypto_sr25519_sign_version_1 lengthCheckedAlgorithm sampleKeystore sampleAllocator
        ⟨sampleSignMemory 2, (119, 119)⟩ [] [.I32 0, .I32 4, .I64 12884901924]).map
      (fun r => (r.1, r.2.1, returnedBytes r.1 r.2.2, decide (r.2.2.Memory = sampleSignMemory 2))) =
      some ([.I64 0], none, some [], true) := by
  refine ⟨?_, ?_, ?_, ?_⟩ <;> decide

/-- C15, amended.  When the byte of the encoded None is written (at `pointerSize`, leaving
the memory `heap1`, where `[0]` is read back): `ext_crypto_ed25519_sign_version_1`, for a
public key that `NewPublicKey` accepts, returns that pointer-size with a nil error
whenever the keystore id is unknown or the key pair is not in the keystore, and
`ext_crypto_sr25519_sign_version_1` returns it whenever the keystore id is unknown, the
public key bytes are invalid, the key pair is not in the keystore or signing fails.  When
the allocation of that byte fails, the ed25519 import returns the raw value 0 for a key
pair that is not in the keystore and panics for an unknown keystore id, and the
sr25519 import returns the raw value 0 in its four cases. -/
theorem sign_imports_return_encoded_none {PK KP K N A : Type}
    (ed25519 sr25519 : Algorithm PK KP) (ks : KeystoreOps K N PK KP) (al : AllocatorOps A)
    (heap : Heap A) (keystore : K) (keyTypeID key msg : Int) :
    (∀ pointerSize heap1,
      toWasmMemoryOptional al heap none = some (.ok (pointerSize, heap1)) →
      (heap.Memory.length < 2 ^ 32 → asMemorySlice heap1.Memory pointerSize = some [0]) ∧
      (∀ id pubKeyData pubKey,
        sliceInt heap.Memory keyTypeID (addInt32 keyTypeID 4) = some id →
        sliceInt heap.Memory key (addInt32 key 32) = some pubKeyData →
        ed25519.NewPublicKey pubKeyData = .ok pubKey →
        ((∃ e, ks.GetKeystore keystore id = .error e) ∨
          ∃ store, ks.GetKeystore keystore id = .ok store ∧
            ks.GetKeypair keystore store pubKey = none) →
        ext_crypto_ed25519_sign_version_1 ed25519 ks al heap keystore
          [.I32 keyTypeID, .I32 key, .I64 msg] = some ([.I64 pointerSize], none, heap1)) ∧
      (∀ id, sliceInt heap1.Memory keyTypeID (addInt32 keyTypeID 4) = some id →
        ((∃ e, ks.GetKeystore keystore id = .error e) ∨
          ∃ store pubKeyData, ks.GetKeystore keystore id = .ok store ∧
            sliceInt heap1.Memory key (addInt32 key 32) = some pubKeyData ∧
            ((∃ e, sr25519.NewPublicKey pubKeyData = .error e) ∨
              ∃ pubKey, sr25519.NewPublicKey pubKeyData = .ok pubKey ∧
                (ks.GetKeypair keystore store pubKey = none ∨
                  ∃ signingKey msgData e,
                    ks.GetKeypair keystore store pubKey = some signingKey ∧
                    asMemorySlice heap1.Memory msg = some msgData ∧
                    (sr25519.Sign signingKey msgData).2 = some e))) →
        ext_crypto_sr25519_sign_version_1 sr25519 ks al heap keystore
          [.I32 keyTypeID, .I32 key, .I64 msg] = some ([.I64 pointerSize], none, heap1))) ∧
    (∀ err, toWasmMemoryOptional al heap none = some (.error err) →
      (∀ id pubKeyData pubKey,
        sliceInt heap.Memory keyTypeID (addInt32 keyTypeID 4) = some id →
        sliceInt heap.Memory key (addInt32 key 32) = some pubKeyData →
        ed25519.NewPublicKey pubKeyData = .ok pubKey →
        ((∃ e, ks.GetKeystore keystore id = .error e) →
          ext_crypto_ed25519_sign_version_1 ed25519 ks al heap keystore
            [.I32 keyTypeID, .I32 key, .I64 msg] = none) ∧
        (∀ store, ks.GetKeystore keystore id = .ok store →
          ks.GetKeypair keystore store pubKey = none →
          ext_crypto_ed25519_sign_version_1 ed25519 ks al heap keystore
            [.I32 keyTypeID, .I32 key, .I64 msg] = some ([.I64 0], none, heap))) ∧
      (∀ id, sliceInt heap.Memory keyTypeID (addInt32 keyTypeID 4) = some id →
        ((∃ e, ks.GetKeystore keystore id = .error e) ∨
          ∃ store pubKeyData, ks.GetKeystore keystore id = .ok store ∧
            sliceInt heap.Memory key (addInt32 key 32) = some pubKeyData ∧
            ((∃ e, sr25519.NewPublicKey pubKeyData = .error e) ∨
              ∃ pubKey, sr25519.NewPublicKey pubKeyData = .ok pubKey ∧
                (ks.GetKeypair keystore store pubKey = none ∨
                  ∃ signingKey msgData e,
                    ks.GetKeypair keystore store pubKey = some signingKey ∧
                    asMemorySlice heap.Memory msg = some msgData ∧
                    (sr25519.Sign signingKey msgData).2 = some e))) →
        ext_crypto_sr25519_sign_version_1 sr25519 ks al heap keystore
          [.I32 keyTypeID, .I32 key, .I64 msg] = some ([.I64 0], none, heap))) := by
  have hsr : ∀ (emptyRet : Int) (heap1 : Heap A),
      (toWasmMemoryOptional al heap none = some (.ok (emptyRet, heap1)) ∨
        (emptyRet = 0 ∧ heap1 = heap ∧
          ∃ err, toWasmMemoryOptional al heap none = some (.error err))) →
      ∀ id, sliceInt heap1.Memory keyTypeID (addInt32 keyTypeID 4) = some id →
        ((∃ e, ks.GetKeystore keystore id = .error e) ∨
          ∃ store pubKeyData, ks.GetKeystore keystore id = .ok store ∧
            sliceInt heap1.Memory key (addInt32 key 32) = some pubKeyData ∧
            ((∃ e, sr25519.NewPublicKey pubKeyData = .error e) ∨
              ∃ pubKey, sr25519.NewPublicKey pubKeyData = .ok pubKey ∧
                (ks.GetKeypair keystore store pubKey = none ∨
                  ∃ signingKey msgData e,
                    ks.GetKeypair keystore store pubKey = some signingKey ∧
                    asMemorySlice heap1.Memory msg = some msgData ∧
                    (sr25519.Sign signingKey msgData).2 = some e))) →
        ext_crypto_sr25519_sign_version_1 sr25519 ks al heap keystore
          [.I32 keyTypeID, .I32 key, .I64 msg] = some ([.I64 emptyRet], none, heap1) := by
    intro emptyRet heap1 hw id hid hcase
    have hstart : ext_crypto_sr25519_sign_version_1 sr25519 ks al heap keystore
        [.I32 keyTypeID, .I32 key, .I64 msg] =
        (match ks.GetKeystore keystore id with
          | .error _ => some ([.I64 emptyRet], none, heap1)
          | .ok store =>
            match sliceInt heap1.Memory key (addInt32 key 32) with
            | none => none
            | some pubKeyData =>
              match sr25519.NewPublicKey pubKeyData with
              | .error _ => some ([.I64 emptyRet], none, heap1)
              | .ok pubKey =>
                match ks.GetKeypair keystore store pubKey with
                | none => some ([.I64 emptyRet], none, heap1)
                | some signingKey =>
                  match asMemorySlice heap1.Memory msg with
                  | none => none
                  | some msgData =>
                    match sr25519.Sign signingKey msgData with
                    | (_, some _) => some ([.I64 emptyRet], none, heap1)
                    | (sig, none) =>
                      match toWasmMemoryFixedSizeOptional al heap1 sig with
                      | none => none
                      | some (.error _) => some ([.I64 emptyRet], none, heap1)
                      | some (.ok (ret, heap2)) => some ([.I64 ret], none, heap2)) := by
      unfold ext_crypto_sr25519_sign_version_1
      rcases hw with hw | ⟨h0, hh, err, hw⟩
      · simp only [List.get?, hw, hid]
      · subst h0; subst hh
        simp only [List.get?, hw, hid]
    rw [hstart]
    rcases hcase with ⟨e, he⟩ | ⟨store, pubKeyData, hstore, hkey, hrest⟩
    · simp only [he]
    · simp only [hstore, hkey]
      rcases hrest with ⟨e, he⟩ | ⟨pubKey, hpk, hkp⟩
      · simp only [he]
      · simp only [hpk]
        rcases hkp with hnone | ⟨signingKey, msgData, e, hsome, hmsg, hsign⟩
        · simp only [hnone]
        · simp only [hsome, hmsg]
          rcases hs : sr25519.Sign signingKey msgData with ⟨sig, serr⟩
          rw [hs] at hsign
          simp only at hsign
          subst hsign
          rfl
  refine ⟨?_, ?_⟩
  · intro pointerSize heap1 hw
    refine ⟨?_, ?_, ?_⟩
    · intro hlen
      exact asMemorySlice_toWasmMemory al heap heap1 [0] pointerSize hlen hw
    · intro id pubKeyData pubKey hid hkey hpk hcase
      unfold ext_crypto_ed25519_sign_version_1
      simp only [List.get?, hid, hkey, hpk]
      rcases hcase with ⟨e, he⟩ | ⟨store, hstore, hnone⟩
      · simp only [he, mustToWasmMemoryOptionalNil, toWasmMemoryOptionalNil, hw]
      · simp only [hstore, hnone, toWasmMemoryOptionalNil, hw]
    · intro id hid hcase
      exact hsr pointerSize heap1 (Or.inl hw) id hid hcase
  · intro err hw
    refine ⟨?_, ?_⟩
    · intro id pubKeyData pubKey hid hkey hpk
      refine ⟨?_, ?_⟩
      · rintro ⟨e, he⟩
        unfold ext_crypto_ed25519_sign_version_1
        simp only [List.get?, hid, hkey, hpk, he, mustToWasmMemoryOptionalNil,
          toWasmMemoryOptionalNil, hw]
      · intro store hstore hnone
        unfold ext_crypto_ed25519_sign_version_1
        simp only [List.get?, hid, hkey, hpk, hstore, hnone, toWasmMemoryOptionalNil, hw]
    · intro id hid hcase
      exact hsr 0 heap (Or.inr ⟨rfl, rfl, err, hw⟩) id hid hcase

set_option maxRecDepth 8000 in
/-- C15 amended, on a memory with a free byte at 39 and a public key that is not in the
keystore: both imports return the pointer-size of the byte `0x00` written at 39. -/
theorem sign_imports_return_encoded_none_witness :
    toWasmMemoryOptional sampleAllocator ⟨sampleSignMemory 2, (39, 119)⟩ none =
      some (.ok (4294967335,
        ⟨(sampleSignMemory 2).take 39 ++ [0] ++ (sampleSignMemory 2).drop 40, (40, 119)⟩)) ∧
    asMemorySlice ((sampleSignMemory 2).take 39 ++ [0] ++ (sampleSignMemory 2).drop 40)
      4294967335 = some [0] ∧
    ext_crypto_ed25519_sign_version_1 lengthCheckedAlgorithm sampleKeystore sampleAllocator
      ⟨sampleSignMemory 2, (39, 119)⟩ [] [.I32 0, .I32 4, .I64 12884901924] =
      some ([.I64 4294967335], none,
        ⟨(sampleSignMemory 2).take 39 ++ [0] ++ (sampleSignMemory 2).drop 40, (40, 119)⟩) ∧
    ext_crypto_sr25519_sign_version_1 lengthCheckedAlgorithm sampleKeystore sampleAllocator
      ⟨sampleSignMemory 2, (39, 119)⟩ [] [.I32 0, .I32 4, .I64 12884901924] =
      some ([.I64 4294967335], none,
        ⟨(sampleSignMemory 2).take 39 ++ [0] ++ (sampleSignMemory 2).drop 40, (40, 119)⟩) :=
  have h := (sign_imports_return_encoded_none lengthCheckedAlgorithm lengthCheckedAlgorithm
    sampleKeystore sampleAllocator ⟨sampleSignMemory 2, (39, 119)⟩ [] 0 4 12884901924).1
    4294967335
    ⟨(sampleSignMemory 2).take 39 ++ [0] ++ (sampleSignMemory 2).drop 40, (40, 119)⟩
    (by decide)
  ⟨by decide, h.1 (by decide),
    h.2.1 [98, 97, 98, 101] (2 :: List.replicate 31 0) (2 :: List.replicate 31 0)
      (by decide) (by decide) (by decide)
      (Or.inr ⟨[98, 97, 98, 101], by decide, by decide⟩),
    h.2.2 [98, 97, 98, 101] (by decide)
      (Or.inr ⟨[98, 97, 98, 101], 2 :: List.replicate 31 0, by decide, by decide,
        Or.inr ⟨2 :: List.replicate 31 0, by decide, Or.inl (by decide)⟩⟩)⟩

/-! ## The order of the proof nodes -/

set_option maxRecDepth 8000 in
theorem hexDigit_injective :
    ∀ i < 16, ∀ j < 16, hexDigit i = hexDigit j → i = j := by
  decide

/-- Two byte strings with the same hexadecimal form are equal. -/
theorem BytesToHex_injective :
    ∀ a b : Bytes, (∀ x ∈ a, x < 256) → (∀ x ∈ b, x < 256) → BytesToHex a = BytesToHex b →
      a = b := by
  have hflat : ∀ a b : Bytes, (∀ x ∈ a, x < 256) → (∀ x ∈ b, x < 256) →
      (a.flatMap fun x => [hexDigit (x / 16 % 16), hexDigit (x % 16)]) =
        (b.flatMap fun x => [hexDigit (x / 16 % 16), hexDigit (x % 16)]) → a = b := by
    intro a
    induction a with
    | nil =>
      intro b _ _ h
      cases b with
      | nil => rfl
      | cons y ys => simp [List.flatMap] at h
    | cons x xs ih =>
      intro b ha hb h
      cases b with
      | nil => simp [List.flatMap] at h
      | cons y ys =>
        simp only [List.flatMap_cons, List.cons_append, List.nil_append, List.cons.injEq] at h
        obtain ⟨h1, h2, h3⟩ := h
        have hx := ha x (List.mem_cons_self _ _)
        have hy := hb y (List.mem_cons_self _ _)
        have e1 := hexDigit_injective (x / 16 % 16) (Nat.mod_lt _ (by norm_num))
          (y / 16 % 16) (Nat.mod_lt _ (by norm_num)) h1
        have e2 := hexDigit_injective (x % 16) (Nat.mod_lt _ (by norm_num))
          (y % 16) (Nat.mod_lt _ (by norm_num)) h2
        have hxy : x = y := by omega
        rw [hxy, ih ys (fun z hz => ha z (List.mem_cons_of_mem _ hz))
          (fun z hz => hb z (List.mem_cons_of_mem _ hz)) h3]
  intro a b ha hb h
  unfold BytesToHex at h
  have hdata := congrArg String.data h
  simp only [List.cons.injEq, true_and] at hdata
  exact hflat a b ha hb hdata

theorem rootMatches_inv {ext : Externals} {rootHash a : Bytes}
    (h : rootMatches ext rootHash a = true) :
    ∃ r, ext.MerkleValue a r = .ok rootHash := by
  unfold rootMatches rootMerkleValue at h
  cases hv : ext.MerkleValue a false with
  | error err => simp [hv] at h
  | ok v =>
    simp only [hv] at h
    by_cases hlen : v.length ≤ 32
    · simp only [hlen, if_true] at h
      cases hv2 : ext.MerkleValue a true with
      | error err => simp [hv2] at h
      | ok w =>
        simp only [hv2, decide_eq_true_eq] at h
        exact ⟨true, by rw [hv2, h]⟩
    · simp only [hlen, if_false, decide_eq_true_eq] at h
      exact ⟨false, by rw [hv, h]⟩

/-- C2: the node codec (`node.Decode`, `node.MerkleValue`) is not among the sources; for
every codec, every proof `P` on whose encodings the Merkle function has no collision (two
encodings of `P` whose Merkle values, root or not, have the same hexadecimal form are the
same encoding) and computes the root Merkle value of each encoding that decodes, and for
every permutation `Q` of `P`, root hash, key and value: `Verify` on `Q` succeeds exactly
when it succeeds on `P`, returns exactly when it returns on `P`, and when both fail the
two errors wrap the same ones of `ErrEmptyProof`, `ErrRootNodeNotFound`,
`ErrKeyNotFoundInProofTrie` and `ErrValueMismatchProofTrie`. -/
theorem Verify_order_irrelevant (ext : Externals) (fuel : Nat) (P Q : List Bytes)
    (rootHash key value : Bytes) (hp : P.Perm Q)
    (hinj : ∀ a ∈ P, ∀ b ∈ P, ∀ r s h g, ext.MerkleValue a r = .ok h →
      ext.MerkleValue b s = .ok g → BytesToHex h = BytesToHex g → a = b)
    (htotal : ∀ a ∈ P, ∀ n, ext.Decode a = .ok n → ∃ h, ext.MerkleValue a true = .ok h) :
    (Verify ext fuel Q rootHash key value = some (.ok ()) ↔
      Verify ext fuel P rootHash key value = some (.ok ())) ∧
    (Verify ext fuel Q rootHash key value = none ↔
      Verify ext fuel P rootHash key value = none) ∧
    ∀ e f, Verify ext fuel P rootHash key value = some (.error e) →
      Verify ext fuel Q rootHash key value = some (.error f) →
      f.Is ErrEmptyProof = e.Is ErrEmptyProof ∧
      f.Is ErrRootNodeNotFound = e.Is ErrRootNodeNotFound ∧
      f.Is ErrKeyNotFoundInProofTrie = e.Is ErrKeyNotFoundInProofTrie ∧
      f.Is ErrValueMismatchProofTrie = e.Is ErrValueMismatchProofTrie := by
  refine Verify_perm ext fuel P Q rootHash key value hp ?_ ?_ ?_
  · intro a ha b hb hna hnb hk
    unfold nodeOk at hna hnb
    unfold proofHashOf at hk
    cases hda : ext.Decode a <;> cases hva : ext.MerkleValue a false <;>
      simp only [hda, hva, reduceCtorEq] at hna
    cases hdb : ext.Decode b <;> cases hvb : ext.MerkleValue b false <;>
      simp only [hdb, hvb, reduceCtorEq] at hnb
    simp only [hva, hvb, Option.some.injEq] at hk
    exact hinj a ha b hb false false _ _ hva hvb hk
  · intro a ha b hb hma hmb
    obtain ⟨r, hr⟩ := rootMatches_inv hma
    obtain ⟨s, hs⟩ := rootMatches_inv hmb
    exact hinj a ha b hb r s rootHash rootHash hr hs rfl
  · intro a ha hna
    unfold nodeOk at hna
    unfold merkleOk rootMerkleValue
    cases hda : ext.Decode a <;> cases hva : ext.MerkleValue a false <;>
      simp only [hda, hva, reduceCtorEq] at hna
    rename_i n v
    obtain ⟨w, hw⟩ := htotal a ha n hda
    by_cases hlen : v.length ≤ 32
    · simp [hlen, hw]
    · simp [hlen]

theorem digestExt_MerkleValue {a h : Bytes} {r : Bool}
    (hv : digestExt.MerkleValue a r = .ok h) :
    (∀ x ∈ h, x < 256) ∧
      ((h = a ++ List.replicate 33 0) ∨ (h = a ∧ a.length ≤ 32)) := by
  unfold digestExt at hv
  simp only at hv
  by_cases hall : a.all (fun x => decide (x < 256)) = true
  · rw [if_pos hall] at hv
    injection hv with hv
    have hbytes : ∀ x ∈ a, x < 256 := by
      intro x hx
      have := List.all_eq_true.1 hall x hx
      simpa using this
    by_cases hc : r = true ∨ 32 < a.length
    · rw [if_pos hc] at hv
      subst hv
      refine ⟨?_, Or.inl rfl⟩
      intro x hx
      rcases List.mem_append.1 hx with hx | hx
      · exact hbytes x hx
      · rw [List.eq_of_mem_replicate hx]
        norm_num
    · rw [if_neg hc] at hv
      subst hv
      exact ⟨hbytes, Or.inr ⟨rfl, by omega⟩⟩
  · rw [if_neg hall] at hv
    cases hv

/-- The sample codec `digestExt` has no collisions. -/
theorem digestExt_injective (a b : Bytes) (r s : Bool) (h g : Bytes)
    (ha : digestExt.MerkleValue a r = .ok h) (hb : digestExt.MerkleValue b s = .ok g)
    (hhex : BytesToHex h = BytesToHex g) : a = b := by
  obtain ⟨hbh, hh⟩ := digestExt_MerkleValue ha
  obtain ⟨hbg, hg⟩ := digestExt_MerkleValue hb
  have heq := BytesToHex_injective h g hbh hbg hhex
  rcases hh with hh | ⟨hh, hla⟩ <;> rcases hg with hg | ⟨hg, hlb⟩
  · rw [hh, hg] at heq
    exact List.append_cancel_right heq
  · rw [hh, hg] at heq
    have := congrArg List.length heq
    simp only [List.length_append, List.length_replicate] at this
    omega
  · rw [hh, hg] at heq
    have := congrArg List.length heq
    simp only [List.length_append, List.length_replicate] at this
    omega
  · rw [hh, hg] at heq
    exact heq

/-- The root Merkle value of `digestExt` can be computed for every encoding that
decodes. -/
theorem digestExt_total (a : Bytes) (n : Node) (h : digestExt.Decode a = .ok n) :
    ∃ v, digestExt.MerkleValue a true = .ok v := by
  unfold digestExt at h ⊢
  simp only at h ⊢
  by_cases hall : a.all (fun x => decide (x < 256)) = true
  · rw [if_pos hall]
    exact ⟨_, rfl⟩
  · rw [if_neg hall] at h
    cases h

set_option maxRecDepth 8000 in
/-- C2, on the proof of a branch and its leaf in the two orders, with the codec
`digestExt`: `Verify` succeeds on both. -/
theorem Verify_order_irrelevant_witness :
    List.Perm [[1, 0, 10], [0, 10]] [[0, 10], [1, 0, 10]] ∧
    (∀ a b r s h g, digestExt.MerkleValue a r = .ok h → digestExt.MerkleValue b s = .ok g →
      BytesToHex h = BytesToHex g → a = b) ∧
    (∀ a n, digestExt.Decode a = .ok n → ∃ h, digestExt.MerkleValue a true = .ok h) ∧
    Verify digestExt 2 [[1, 0, 10], [0, 10]] ([1, 0, 10] ++ List.replicate 33 0) [1] [10] =
      some (.ok ()) ∧
    Verify digestExt 2 [[0, 10], [1, 0, 10]] ([1, 0, 10] ++ List.replicate 33 0) [1] [10] =
      some (.ok ()) :=
  ⟨List.Perm.swap _ _ _, digestExt_injective, digestExt_total, by decide,
    (Verify_order_irrelevant digestExt 2 [[1, 0, 10], [0, 10]] [[0, 10], [1, 0, 10]]
      ([1, 0, 10] ++ List.replicate 33 0) [1] [10] (List.Perm.swap _ _ _)
      (fun a _ b _ => digestExt_injective a b) (fun a _ => digestExt_total a)).1.2
      (by decide)⟩

end Gossamer
